import Mathlib

/-! # A verification development for the `json` decoder (`src/json.go`)

The decoder is a cursor-driven recursive-descent parser over a byte slice.  It is embedded
here as pure functions over an explicit decoder state:

* bytes are natural numbers (`'['` is `91`), the input is a `List Nat`;
* every index expression `j.json[i]` of the source is a checked read `j.json[i]?`, and a read
  outside the slice is the result `Res.panic` (the Go runtime panic "index out of range");
* `return nil, syntaxError(n)` is the result `Res.syntaxError n`;
* the recursion of `parseValue`, `parseList` and `parseObject` is driven by a fuel argument that
  decreases at every call; `Decode` supplies `3 * len + 1`, which is shown to be enough for
  every input (`parseValue_fuel_enough`), and results do not depend on surplus fuel
  (`parseValue_fuel_mono`).
-/

namespace JsonDecoder

/-! ## Data model -/

/-- A decoded value, Go's `any` as the decoder produces it.  `null` is Go's `nil`; `number lit`
is the `float64` that `strconv.ParseFloat(lit, 64)` yields for the matched literal text `lit`
(floating point itself is not modelled, a number is identified by the text converted);
`string` is a Go string, a byte sequence; `list` is `[]any`; `object` is `map[string]any`,
kept as an association list with distinct keys whose order carries no meaning; `custom` lets
builder hooks return containers of a caller-defined type. -/
inductive Value where
  | null
  | bool (b : Bool)
  | number (lit : List Nat)
  | string (s : List Nat)
  | list (items : List Value)
  | object (members : List (List Nat × Value))
  | custom (tag : Nat) (fields : List Value)

mutual

/-- Decidable equality of values (with `Value.decEqList` and `Value.decEqMembers`). -/
def Value.decEq : (a b : Value) → Decidable (a = b)
  | .null, .null => isTrue rfl
  | .null, .bool _ | .null, .number _ | .null, .string _ | .null, .list _ | .null, .object _
  | .null, .custom _ _ => isFalse (by intro h; cases h)
  | .bool a, .bool b =>
    if h : a = b then isTrue (by rw [h])
    else isFalse (by intro h2; cases h2; exact h rfl)
  | .bool _, .null | .bool _, .number _ | .bool _, .string _ | .bool _, .list _ | .bool _, .object _
  | .bool _, .custom _ _ => isFalse (by intro h; cases h)
  | .number a, .number b =>
    if h : a = b then isTrue (by rw [h])
    else isFalse (by intro h2; cases h2; exact h rfl)
  | .number _, .null | .number _, .bool _ | .number _, .string _ | .number _, .list _
  | .number _, .object _
  | .number _, .custom _ _ => isFalse (by intro h; cases h)
  | .string a, .string b =>
    if h : a = b then isTrue (by rw [h])
    else isFalse (by intro h2; cases h2; exact h rfl)
  | .string _, .null | .string _, .bool _ | .string _, .number _ | .string _, .list _
  | .string _, .object _
  | .string _, .custom _ _ => isFalse (by intro h; cases h)
  | .list a, .list b =>
    match Value.decEqList a b with
    | isTrue h => isTrue (by rw [h])
    | isFalse h => isFalse (by intro h2; cases h2; exact h rfl)
  | .list _, .null | .list _, .bool _ | .list _, .number _ | .list _, .string _ | .list _, .object _
  | .list _, .custom _ _ => isFalse (by intro h; cases h)
  | .object a, .object b =>
    match Value.decEqMembers a b with
    | isTrue h => isTrue (by rw [h])
    | isFalse h => isFalse (by intro h2; cases h2; exact h rfl)
  | .object _, .null | .object _, .bool _ | .object _, .number _ | .object _, .string _
  | .object _, .list _
  | .object _, .custom _ _ => isFalse (by intro h; cases h)
  | .custom t a, .custom u b =>
    if ht : t = u then
      match Value.decEqList a b with
      | isTrue h => isTrue (by rw [h, ht])
      | isFalse h => isFalse (by intro h2; cases h2; exact h rfl)
    else isFalse (by intro h2; cases h2; exact ht rfl)
  | .custom _ _, .null | .custom _ _, .bool _ | .custom _ _, .number _ | .custom _ _, .string _
  | .custom _ _, .list _
  | .custom _ _, .object _ => isFalse (by intro h; cases h)

/-- Decidable equality of lists of values. -/
def Value.decEqList : (xs ys : List Value) → Decidable (xs = ys)
  | [], [] => isTrue rfl
  | [], _ :: _ => isFalse (by intro h; cases h)
  | _ :: _, [] => isFalse (by intro h; cases h)
  | x :: xs, y :: ys =>
    match Value.decEq x y with
    | isTrue h =>
      match Value.decEqList xs ys with
      | isTrue h2 => isTrue (by rw [h, h2])
      | isFalse h2 => isFalse (by intro h3; cases h3; exact h2 rfl)
    | isFalse h => isFalse (by intro h3; cases h3; exact h rfl)

/-- Decidable equality of object member lists. -/
def Value.decEqMembers : (xs ys : List (List Nat × Value)) → Decidable (xs = ys)
  | [], [] => isTrue rfl
  | [], _ :: _ => isFalse (by intro h; cases h)
  | _ :: _, [] => isFalse (by intro h; cases h)
  | (k, x) :: xs, (l, y) :: ys =>
    if hk : k = l then
      match Value.decEq x y with
      | isTrue h =>
        match Value.decEqMembers xs ys with
        | isTrue h2 => isTrue (by rw [h, h2, hk])
        | isFalse h2 => isFalse (by intro h3; cases h3; exact h2 rfl)
      | isFalse h => isFalse (by intro h3; cases h3; exact h rfl)
    else isFalse (by intro h3; cases h3; exact hk rfl)

end


instance : DecidableEq Value := Value.decEq

/-- The outcome of a parsing operation: a result, `syntaxError(pos)`, a Go runtime panic
(an index out of range, or a call of a nil hook), or exhaustion of the recursion fuel of the
embedding. -/
inductive Res (α : Type) where
  | ok (a : α)
  | syntaxError (pos : Nat)
  | panic
  | outOfFuel
  deriving DecidableEq

/-- The decoder, `type Json struct`.  The field `jsonLen` is assigned `len(json)` by `Bytes`
and never written again, so it is the derived quantity `Json.jsonLen`. -/
structure Json where
  json : List Nat
  cursor : Nat
  buffer : List Nat
  listBuilder : Option (Unit → Value)
  listItemPusher : Option (Value → Nat → Value → Value)
  objectBuilder : Option (Unit → Value)
  objectItemPusher : Option (Value → List Nat → Value → Value)

/-- The field `jsonLen`, always `len(json)`. -/
def Json.jsonLen (j : Json) : Nat := j.json.length

/-- `Bytes(json)`: a fresh decoder over the input, cursor 0, empty scratch buffer, no hooks. -/
def Bytes (json : List Nat) : Json :=
  { json := json, cursor := 0, buffer := [], listBuilder := none, listItemPusher := none,
    objectBuilder := none, objectItemPusher := none }

/-- `WithListBuilder`: registers the list hook pair. -/
def Json.WithListBuilder (j : Json) (listBuilder : Option (Unit → Value))
    (listItemPusher : Option (Value → Nat → Value → Value)) : Json :=
  { j with listBuilder := listBuilder, listItemPusher := listItemPusher }

/-- `WithObjectBuilder`: registers the object hook pair. -/
def Json.WithObjectBuilder (j : Json) (objectBuilder : Option (Unit → Value))
    (objectItemPusher : Option (Value → List Nat → Value → Value)) : Json :=
  { j with objectBuilder := objectBuilder, objectItemPusher := objectItemPusher }

/-- Assignment `m[k] = v` on a Go map: overwrite the entry of `k` if there is one, otherwise
add the entry. -/
def mapSet : List (List Nat × Value) → List Nat → Value → List (List Nat × Value)
  | [], k, v => [(k, v)]
  | (k', v') :: m, k, v => if k' = k then (k, v) :: m else (k', v') :: mapSet m k v

/-- Lookup `m[k]` on a Go map. -/
def mapGet : List (List Nat × Value) → List Nat → Option Value
  | [], _ => none
  | (k', v') :: m, k => if k' = k then some v' else mapGet m k

/-- The bytes of an ASCII text, for writing inputs down. -/
def ascii (s : String) : List Nat := s.data.map Char.toNat

/-! ## Cursor -/

/-- The case list `' ', '\t', '\r', '\n'` of `skipWhitespaces`. -/
def isWhitespace (c : Nat) : Bool := c = 32 || c = 9 || c = 13 || c = 10

/-- The loop of `skipWhitespaces`; the first argument bounds the iterations and is
`jsonLen - cursor` at the call, so it reaches 0 only when the loop condition fails. -/
def skipWhitespacesLoop : Nat → Json → Json
  | 0, j => j
  | n + 1, j =>
    if j.cursor < j.jsonLen then
      match j.json[j.cursor]? with
      | some c =>
        if isWhitespace c then skipWhitespacesLoop n { j with cursor := j.cursor + 1 } else j
      | none => j
    else j

/-- `skipWhitespaces`. -/
def skipWhitespaces (j : Json) : Json := skipWhitespacesLoop (j.jsonLen - j.cursor) j

/-! ## Support -/

/-- Sequencing of fallible steps: an error, panic or fuel exhaustion of the first step is the
outcome of the whole (`if err != nil { return nil, err }`). -/
def Res.bind {α β : Type} (r : Res α) (f : α → Res β) : Res β :=
  match r with
  | .ok a => f a
  | .syntaxError pos => .syntaxError pos
  | .panic => .panic
  | .outOfFuel => .outOfFuel

/-- The slice expression `s[a:b]` (for `a ≤ b ≤ len(s)`, the only way the source uses it). -/
def slice (s : List Nat) (a b : Nat) : List Nat := (s.drop a).take (b - a)

/-- The digit test, written `c > 47 && c < 58` in `parseNumber` and as the case list
`'0', ..., '9'` in the switches. -/
def isDigit (c : Nat) : Bool := decide (47 < c ∧ c < 58)

/-! ## Literals -/

/-- `parseTrue`. -/
def parseTrue (j : Json) : Res (Value × Json) :=
  if j.jsonLen < j.cursor + 4 then .syntaxError j.cursor
  else
    match j.json[j.cursor + 1]?, j.json[j.cursor + 2]?, j.json[j.cursor + 3]? with
    | some a, some b, some c =>
      if a = 114 ∧ b = 117 ∧ c = 101 then .ok (.bool true, { j with cursor := j.cursor + 4 })
      else .syntaxError j.cursor
    | _, _, _ => .panic

/-- `parseFalse`. -/
def parseFalse (j : Json) : Res (Value × Json) :=
  if j.jsonLen < j.cursor + 5 then .syntaxError j.cursor
  else
    match j.json[j.cursor + 1]?, j.json[j.cursor + 2]?, j.json[j.cursor + 3]?,
      j.json[j.cursor + 4]? with
    | some a, some b, some c, some d =>
      if a = 97 ∧ b = 108 ∧ c = 115 ∧ d = 101 then
        .ok (.bool false, { j with cursor := j.cursor + 5 })
      else .syntaxError j.cursor
    | _, _, _, _ => .panic

/-- `parseNull`. -/
def parseNull (j : Json) : Res (Value × Json) :=
  if j.jsonLen < j.cursor + 4 then .syntaxError j.cursor
  else
    match j.json[j.cursor + 1]?, j.json[j.cursor + 2]?, j.json[j.cursor + 3]? with
    | some a, some b, some c =>
      if a = 117 ∧ b = 108 ∧ c = 108 then .ok (.null, { j with cursor := j.cursor + 4 })
      else .syntaxError j.cursor
    | _, _, _ => .panic

/-! ## Number lexer -/

/-- The condition of the first `if` of `parseNumber`:
`json[cursor] == '-' && (json[cursor+1] < 48 || json[cursor+1] > 57)`, with its reads. -/
def minusWithoutDigit (j : Json) : Res Bool :=
  match j.json[j.cursor]? with
  | none => .panic
  | some c0 =>
    if c0 = 45 then
      match j.json[j.cursor + 1]? with
      | none => .panic
      | some c1 => .ok (decide (c1 < 48 ∨ c1 > 57))
    else .ok false

/-- The first loop of `parseNumber` (digits and at most one `.`), from index `i`; the result
is the index at which the loop stops.  The first argument bounds the iterations and is
`jsonLen - i` at the call. -/
def numberDigitsLoop : Nat → Json → Nat → Bool → Res Nat
  | 0, _, i, _ => .ok i
  | n + 1, j, i, asFloat =>
    if i < j.jsonLen then
      match j.json[i]? with
      | none => .panic
      | some c =>
        if isDigit c then numberDigitsLoop n j (i + 1) asFloat
        else if c = 46 then
          if asFloat then .syntaxError i else numberDigitsLoop n j (i + 1) true
        else .ok i
    else .ok i

/-- The inner loop of the exponent part of `parseNumber` (digits only), from index `i`. -/
def exponentDigitsLoop : Nat → Json → Nat → Res Nat
  | 0, _, i => .ok i
  | n + 1, j, i =>
    if i < j.jsonLen then
      match j.json[i]? with
      | none => .panic
      | some c => if isDigit c then exponentDigitsLoop n j (i + 1) else .ok i
    else .ok i

/-- The exponent part of `parseNumber`: the `if jsonLen >= i+2 && ...` with its short-circuit
reads, and the loop it guards; the result is the final index. -/
def numberExponent (j : Json) (i : Nat) : Res Nat :=
  if j.jsonLen ≥ i + 2 then
    match j.json[i]? with
    | none => .panic
    | some a =>
      if a = 101 ∨ a = 69 then
        match j.json[i + 1]? with
        | none => .panic
        | some b =>
          if b = 43 ∨ b = 45 then
            match j.json[i + 2]? with
            | none => .panic
            | some c =>
              if c > 47 ∧ c < 58 then exponentDigitsLoop (j.jsonLen - (i + 2)) j (i + 2)
              else .ok i
          else .ok i
      else .ok i
  else .ok i

/-- `parseNumber`. -/
def parseNumber (j : Json) : Res (Value × Json) :=
  (minusWithoutDigit j).bind fun bad =>
    if bad then .syntaxError j.cursor
    else
      (numberDigitsLoop (j.jsonLen - (j.cursor + 1)) j (j.cursor + 1) false).bind fun i =>
        (numberExponent j i).bind fun i =>
          .ok (.number (slice j.json j.cursor i), { j with cursor := i })

/-! ## String and escape lexer -/

/-- Go's `utf16.IsSurrogate`. -/
def IsSurrogate (r : Nat) : Bool := decide (0xd800 ≤ r ∧ r < 0xe000)

/-- Go's `utf16.DecodeRune`. -/
def DecodeRune (r1 r2 : Nat) : Nat :=
  if 0xd800 ≤ r1 ∧ r1 < 0xdc00 ∧ 0xdc00 ≤ r2 ∧ r2 < 0xe000 then
    (((r1 - 0xd800) <<< 10) ||| (r2 - 0xdc00)) + 0x10000
  else 0xFFFD

/-- Go's `utf8.AppendRune` for a non-negative rune; `byte(x)` is `x % 256`. -/
def AppendRune (p : List Nat) (r : Nat) : List Nat :=
  if r ≤ 0x7F then p ++ [r % 256]
  else if r ≤ 0x7FF then p ++ [0xC0 ||| ((r >>> 6) % 256), 0x80 ||| ((r % 256) &&& 0x3F)]
  else if r > 0x10FFFF ∨ (0xD800 ≤ r ∧ r ≤ 0xDFFF) then p ++ [0xEF, 0xBF, 0xBD]
  else if r ≤ 0xFFFF then
    p ++ [0xE0 ||| ((r >>> 12) % 256), 0x80 ||| (((r >>> 6) % 256) &&& 0x3F),
      0x80 ||| ((r % 256) &&& 0x3F)]
  else
    p ++ [0xF0 ||| ((r >>> 18) % 256), 0x80 ||| (((r >>> 12) % 256) &&& 0x3F),
      0x80 ||| (((r >>> 6) % 256) &&& 0x3F), 0x80 ||| ((r % 256) &&& 0x3F)]

/-- The value of one hex digit in `hexToRune` (`c - '0'`, `c - 'a' + 10`, `c - 'A' + 10`; the
byte arithmetic cannot wrap inside these ranges), `none` for the `default` case. -/
def hexDigit (c : Nat) : Option Nat :=
  if 48 ≤ c ∧ c ≤ 57 then some (c - 48)
  else if 97 ≤ c ∧ c ≤ 102 then some (c - 97 + 10)
  else if 65 ≤ c ∧ c ≤ 70 then some (c - 65 + 10)
  else none

/-- The `range` loop of `hexToRune` over the four bytes, accumulating `r = r*16 + rune(c)`;
`none` when a byte is not a hex digit. -/
def hexToRuneLoop : List Nat → Nat → Option Nat
  | [], r => some r
  | c :: cs, r =>
    match hexDigit c with
    | some d => hexToRuneLoop cs (r * 16 + d)
    | none => none

/-- `hexToRune`: reads four hex digits at the cursor and leaves the cursor on the last. -/
def hexToRune (j : Json) : Res (Nat × Json) :=
  if j.jsonLen < j.cursor + 4 then .syntaxError j.cursor
  else
    match hexToRuneLoop (slice j.json j.cursor (j.cursor + 4)) 0 with
    | some r => .ok (r, { j with cursor := j.cursor + 3 })
    | none => .syntaxError j.cursor

/-- `parseUnicode`: entered with the cursor on the `u`. -/
def parseUnicode (j : Json) : Res (Nat × Json) :=
  (hexToRune { j with cursor := j.cursor + 1 }).bind fun p =>
    if IsSurrogate p.1 then
      match p.2.json[p.2.cursor + 1]? with
      | none => .panic
      | some a =>
        if a ≠ 92 then .ok (0xFFFD, p.2)
        else
          match p.2.json[p.2.cursor + 2]? with
          | none => .panic
          | some b =>
            if b ≠ 117 then .ok (0xFFFD, p.2)
            else
              (hexToRune { p.2 with cursor := p.2.cursor + 3 }).bind fun q =>
                .ok (DecodeRune p.1 q.1, q.2)
    else .ok (p.1, p.2)

/-- The inner `switch` of `parseString` on the byte `e` after a backslash (the cursor is on
`e`); an unlisted byte appends nothing. -/
def parseEscape (e : Nat) (j : Json) : Res Json :=
  if e = 34 ∨ e = 92 ∨ e = 47 ∨ e = 39 then .ok { j with buffer := j.buffer ++ [e] }
  else if e = 114 then .ok { j with buffer := j.buffer ++ [13] }
  else if e = 110 then .ok { j with buffer := j.buffer ++ [10] }
  else if e = 116 then .ok { j with buffer := j.buffer ++ [9] }
  else if e = 98 then .ok { j with buffer := j.buffer ++ [8] }
  else if e = 102 then .ok { j with buffer := j.buffer ++ [12] }
  else if e = 117 then
    (parseUnicode j).bind fun p => .ok { p.2 with buffer := AppendRune p.2.buffer p.1 }
  else .ok j

/-- The `for` loop of `parseString`; the result is `string(j.buffer)` at the closing quote.
The first argument bounds the iterations and is `jsonLen - cursor` at the call, so it reaches
0 only when the loop condition fails. -/
def parseStringLoop : Nat → Json → Res (List Nat × Json)
  | 0, j => .syntaxError j.cursor
  | n + 1, j =>
    if j.cursor < j.jsonLen then
      match j.json[j.cursor]? with
      | none => .panic
      | some c =>
        if c = 34 then .ok (j.buffer, { j with cursor := j.cursor + 1 })
        else if c = 92 then
          match j.json[j.cursor + 1]? with
          | none => .panic
          | some e =>
            (parseEscape e { j with cursor := j.cursor + 1 }).bind fun j2 =>
              parseStringLoop n { j2 with cursor := j2.cursor + 1 }
        else parseStringLoop n { j with cursor := j.cursor + 1, buffer := j.buffer ++ [c] }
    else .syntaxError j.cursor

/-- `parseString`: entered with the cursor on the opening quote; the deferred function
empties the scratch buffer on return. -/
def parseString (j : Json) : Res (List Nat × Json) :=
  (parseStringLoop (j.jsonLen - (j.cursor + 1)) { j with cursor := j.cursor + 1 }).bind fun p =>
    .ok (p.1, { p.2 with buffer := [] })

/-! ## Value dispatcher and containers -/

/-- `makeObject`. -/
def makeObject (j : Json) : Value :=
  match j.objectBuilder with
  | none => .object []
  | some mk => mk ()

/-- The item construction of `parseList` after an item `v` was parsed: `listItemPusher` when a
builder is registered (a nil pusher panics), `append` otherwise. -/
def pushListItem (j : Json) (l : List Value) (cl : Value) (key : Nat) (v : Value) :
    Res (List Value × Value) :=
  match j.listBuilder with
  | some _ =>
    match j.listItemPusher with
    | some push => .ok (l, push cl key v)
    | none => .panic
  | none => .ok (l ++ [v], cl)

/-- The item construction of `parseObject`: `objectItemPusher` when a builder is registered,
`m.(map[string]any)[k] = v` otherwise (a failed type assertion panics). -/
def pushObjectItem (j : Json) (m : Value) (k : List Nat) (v : Value) : Res Value :=
  match j.objectBuilder with
  | some _ =>
    match j.objectItemPusher with
    | some push => .ok (push m k v)
    | none => .panic
  | none =>
    match m with
    | .object ms => .ok (.object (mapSet ms k v))
    | _ => .panic

mutual

/-- `parseValue`, the dispatcher. -/
def parseValue : Nat → Json → Res (Value × Json)
  | 0, _ => .outOfFuel
  | fuel + 1, j =>
    if (skipWhitespaces j).cursor < (skipWhitespaces j).jsonLen then
      match (skipWhitespaces j).json[(skipWhitespaces j).cursor]? with
      | none => .panic
      | some c =>
        (if c = 45 ∨ isDigit c then parseNumber (skipWhitespaces j)
          else if c = 34 then
            (parseString (skipWhitespaces j)).bind fun p => .ok (.string p.1, p.2)
          else if c = 116 then parseTrue (skipWhitespaces j)
          else if c = 102 then parseFalse (skipWhitespaces j)
          else if c = 110 then parseNull (skipWhitespaces j)
          else if c = 91 then parseList fuel (skipWhitespaces j)
          else if c = 123 then parseObject fuel (skipWhitespaces j)
          else .syntaxError (skipWhitespaces j).cursor).bind fun p =>
            .ok (p.1, skipWhitespaces p.2)
    else .syntaxError (skipWhitespaces j).cursor

/-- `parseList`: entered with the cursor on `[`. -/
def parseList : Nat → Json → Res (Value × Json)
  | 0, _ => .outOfFuel
  | fuel + 1, j =>
    parseListLoop fuel (skipWhitespaces { j with cursor := j.cursor + 1 }) 0 false []
      (match j.listBuilder with
        | some mk => mk ()
        | none => .null)

/-- The `for` loop of `parseList`, with its locals `key`, `expectValue`, `l` and `cl`. -/
def parseListLoop : Nat → Json → Nat → Bool → List Value → Value → Res (Value × Json)
  | 0, _, _, _, _, _ => .outOfFuel
  | fuel + 1, j, key, expectValue, l, cl =>
    if j.cursor < j.jsonLen then
      match j.json[j.cursor]? with
      | none => .panic
      | some c =>
        if c = 44 then
          if key = 0 ∨ expectValue = true then .syntaxError j.cursor
          else parseListLoop fuel { j with cursor := j.cursor + 1 } key true l cl
        else if c = 93 then
          if expectValue = true then .syntaxError j.cursor
          else if j.listBuilder.isNone then .ok (.list l, { j with cursor := j.cursor + 1 })
          else .ok (cl, { j with cursor := j.cursor + 1 })
        else
          (parseValue fuel j).bind fun p =>
            (pushListItem p.2 l cl key p.1).bind fun q =>
              parseListLoop fuel p.2 (key + 1) false q.1 q.2
    else .syntaxError j.cursor

/-- `parseObject`: entered with the cursor on `{`. -/
def parseObject : Nat → Json → Res (Value × Json)
  | 0, _ => .outOfFuel
  | fuel + 1, j =>
    parseObjectLoop fuel (skipWhitespaces { j with cursor := j.cursor + 1 }) 0 false
      (makeObject j)

/-- The `for` loop of `parseObject`, with its locals `counter`, `expectItem` and `m`. -/
def parseObjectLoop : Nat → Json → Nat → Bool → Value → Res (Value × Json)
  | 0, _, _, _, _ => .outOfFuel
  | fuel + 1, j, counter, expectItem, m =>
    if j.cursor < j.jsonLen then
      match j.json[j.cursor]? with
      | none => .panic
      | some c =>
        if c = 34 then
          (parseString j).bind fun k =>
            if (skipWhitespaces k.2).cursor ≥ (skipWhitespaces k.2).jsonLen then
              .syntaxError (skipWhitespaces k.2).cursor
            else
              match (skipWhitespaces k.2).json[(skipWhitespaces k.2).cursor]? with
              | none => .panic
              | some colon =>
                if colon ≠ 58 then .syntaxError (skipWhitespaces k.2).cursor
                else
                  (parseValue fuel
                    { skipWhitespaces k.2 with cursor := (skipWhitespaces k.2).cursor + 1 }).bind
                    fun p =>
                      (pushObjectItem p.2 m k.1 p.1).bind fun m2 =>
                        parseObjectLoop fuel p.2 (counter + 1) false m2
        else if c = 44 then
          if counter = 0 ∨ expectItem = true then .syntaxError j.cursor
          else
            parseObjectLoop fuel (skipWhitespaces { j with cursor := j.cursor + 1 }) counter true m
        else if c = 125 then
          if expectItem = true then .syntaxError j.cursor
          else .ok (m, { j with cursor := j.cursor + 1 })
        else .syntaxError j.cursor
    else .syntaxError j.cursor

end

/-- The recursion fuel `Decode` gives the dispatcher: three units for every input byte and
one more. -/
def decodeFuel (j : Json) : Nat := 3 * j.jsonLen + 1

/-- `Decode`. -/
def Decode (j : Json) : Res Value :=
  (parseValue (decodeFuel j) j).bind fun p =>
    if p.2.cursor ≥ p.2.jsonLen then .ok p.1 else .syntaxError p.2.cursor

/-! ## Auxiliary notions for the statements -/

/-- The number of leading whitespace bytes of a byte sequence. -/
def wsLen (l : List Nat) : Nat := (l.takeWhile isWhitespace).length

/-- What a successful parsing operation does to the decoder: `j2` is `j` with the cursor
moved strictly forward, inside the input, and the scratch buffer still empty if it was. -/
def Advanced (j j2 : Json) : Prop :=
  ∃ c b, j2 = { j with cursor := c, buffer := b } ∧ j.cursor < c ∧ c ≤ j.jsonLen ∧
    (j.buffer = [] → b = [])

/-- A call of one of the mutually recursive parsing operations, with its arguments (for the
two loops: an iteration, with the values of the locals). -/
inductive Call where
  | value (fuel : Nat) (j : Json)
  | list (fuel : Nat) (j : Json)
  | listLoop (fuel : Nat) (j : Json) (key : Nat) (expectValue : Bool) (l : List Value)
      (cl : Value)
  | object (fuel : Nat) (j : Json)
  | objectLoop (fuel : Nat) (j : Json) (counter : Nat) (expectItem : Bool) (m : Value)

/-- The outcome of a call. -/
def Call.result : Call → Res (Value × Json)
  | .value fuel j => parseValue fuel j
  | .list fuel j => parseList fuel j
  | .listLoop fuel j key expectValue l cl => parseListLoop fuel j key expectValue l cl
  | .object fuel j => parseObject fuel j
  | .objectLoop fuel j counter expectItem m => parseObjectLoop fuel j counter expectItem m

/-- The decoder state a call starts from. -/
def Call.state : Call → Json
  | .value _ j => j
  | .list _ j => j
  | .listLoop _ j _ _ _ _ => j
  | .object _ j => j
  | .objectLoop _ j _ _ _ => j

/-- The fuel of a call. -/
def Call.fuel : Call → Nat
  | .value fuel _ => fuel
  | .list fuel _ => fuel
  | .listLoop fuel _ _ _ _ _ => fuel
  | .object fuel _ => fuel
  | .objectLoop fuel _ _ _ _ => fuel

/-- `Invokes a b`: while it runs, the call `a` makes the call `b` (for a loop: also goes on
to the iteration `b`), as written in the source.  One constructor for each call site of
`parseValue`, `parseList`, `parseObject` and for each way a loop iteration continues. -/
inductive Invokes : Call → Call → Prop
  /-- `parseValue`: `case '[': v, err = j.parseList()`. -/
  | value_list (fuel : Nat) (j : Json) :
    (skipWhitespaces j).json[(skipWhitespaces j).cursor]? = some 91 →
    Invokes (.value (fuel + 1) j) (.list fuel (skipWhitespaces j))
  /-- `parseValue`: `case '{': v, err = j.parseObject()`. -/
  | value_object (fuel : Nat) (j : Json) :
    (skipWhitespaces j).json[(skipWhitespaces j).cursor]? = some 123 →
    Invokes (.value (fuel + 1) j) (.object fuel (skipWhitespaces j))
  /-- `parseList` enters its loop with `key = 0`, `expectValue = false`. -/
  | list_loop (fuel : Nat) (j : Json) :
    Invokes (.list (fuel + 1) j)
      (.listLoop fuel (skipWhitespaces { j with cursor := j.cursor + 1 }) 0 false []
        (match j.listBuilder with
          | some mk => mk ()
          | none => .null))
  /-- The list loop, `case ','` accepted: `expectValue = true; j.cursor++; continue`. -/
  | listLoop_comma (fuel : Nat) (j : Json) (key : Nat) (l : List Value) (cl : Value) :
    j.json[j.cursor]? = some 44 → key ≠ 0 →
    Invokes (.listLoop (fuel + 1) j key false l cl)
      (.listLoop fuel { j with cursor := j.cursor + 1 } key true l cl)
  /-- The list loop, `default: v, err = j.parseValue()`. -/
  | listLoop_item (fuel : Nat) (j : Json) (key : Nat) (expectValue : Bool) (l : List Value)
      (cl : Value) (c : Nat) :
    j.json[j.cursor]? = some c → c ≠ 44 → c ≠ 93 →
    Invokes (.listLoop (fuel + 1) j key expectValue l cl) (.value fuel j)
  /-- The list loop after an item was parsed and pushed:
  `expectValue = false; key++; continue`. -/
  | listLoop_next (fuel : Nat) (j : Json) (key : Nat) (expectValue : Bool) (l : List Value)
      (cl : Value) (c : Nat) (p : Value × Json) (q : List Value × Value) :
    j.json[j.cursor]? = some c → c ≠ 44 → c ≠ 93 → parseValue fuel j = .ok p →
    pushListItem p.2 l cl key p.1 = .ok q →
    Invokes (.listLoop (fuel + 1) j key expectValue l cl)
      (.listLoop fuel p.2 (key + 1) false q.1 q.2)
  /-- `parseObject` enters its loop with `counter = 0`, `expectItem = false`. -/
  | object_loop (fuel : Nat) (j : Json) :
    Invokes (.object (fuel + 1) j)
      (.objectLoop fuel (skipWhitespaces { j with cursor := j.cursor + 1 }) 0 false
        (makeObject j))
  /-- The object loop, after a key and its `:`: `v, err = j.parseValue()`. -/
  | objectLoop_value (fuel : Nat) (j : Json) (counter : Nat) (expectItem : Bool) (m : Value)
      (k : List Nat × Json) :
    j.json[j.cursor]? = some 34 → parseString j = .ok k →
    (skipWhitespaces k.2).json[(skipWhitespaces k.2).cursor]? = some 58 →
    Invokes (.objectLoop (fuel + 1) j counter expectItem m)
      (.value fuel { skipWhitespaces k.2 with cursor := (skipWhitespaces k.2).cursor + 1 })
  /-- The object loop after a member was parsed and pushed:
  `counter++; expectItem = false; continue`. -/
  | objectLoop_next (fuel : Nat) (j : Json) (counter : Nat) (expectItem : Bool) (m : Value)
      (k : List Nat × Json) (p : Value × Json) (m2 : Value) :
    j.json[j.cursor]? = some 34 → parseString j = .ok k →
    (skipWhitespaces k.2).json[(skipWhitespaces k.2).cursor]? = some 58 →
    parseValue fuel
      { skipWhitespaces k.2 with cursor := (skipWhitespaces k.2).cursor + 1 } = .ok p →
    pushObjectItem p.2 m k.1 p.1 = .ok m2 →
    Invokes (.objectLoop (fuel + 1) j counter expectItem m)
      (.objectLoop fuel p.2 (counter + 1) false m2)
  /-- The object loop, `case ','` accepted:
  `expectItem = true; j.cursor++; j.skipWhitespaces(); continue`. -/
  | objectLoop_comma (fuel : Nat) (j : Json) (counter : Nat) (m : Value) :
    j.json[j.cursor]? = some 44 → counter ≠ 0 →
    Invokes (.objectLoop (fuel + 1) j counter false m)
      (.objectLoop fuel (skipWhitespaces { j with cursor := j.cursor + 1 }) counter true m)

/-- `Reaches a b`: the call `b` occurs during the call `a` (`a` itself, or a call made,
directly or through further calls, while `a` runs). -/
inductive Reaches : Call → Call → Prop
  | refl (a : Call) : Reaches a a
  | step {a b c : Call} : Reaches a b → Invokes b c → Reaches a c

/-- The call with which `Decode` starts. -/
def Decode.call (j : Json) : Call := .value (decodeFuel j) j

/-- The fuel that is enough for a call (see `parse_fuel_enough`). -/
def Call.fuelOk : Call → Prop
  | .value fuel j => 3 * (j.jsonLen - j.cursor) + 1 ≤ fuel
  | .list fuel j => j.cursor < j.jsonLen ∧ 3 * (j.jsonLen - j.cursor) ≤ fuel
  | .listLoop fuel j _ _ _ _ => 3 * (j.jsonLen - j.cursor) + 2 ≤ fuel
  | .object fuel j => j.cursor < j.jsonLen ∧ 3 * (j.jsonLen - j.cursor) ≤ fuel
  | .objectLoop fuel j _ _ _ => 3 * (j.jsonLen - j.cursor) + 2 ≤ fuel

/-- Calls of the object loop start at a significant byte: no whitespace at the cursor. -/
def Call.skipped : Call → Prop
  | .objectLoop _ j _ _ _ => wsLen (j.json.drop j.cursor) = 0
  | _ => True

/-- All bytes of the input at the offsets `a ≤ i < b` are whitespace. -/
def OnlyWhitespace (json : List Nat) (a b : Nat) : Prop :=
  ∀ i, a ≤ i → i < b → ∃ w, json[i]? = some w ∧ isWhitespace w = true

/-- The items of a list text, as the decoder `j` reads them: `ListItems j c vs e` says that
from offset `c` (just after the `[` or after a `,`) the dispatcher decodes an item, that the
item is followed by a `,` and further items or by the closing `]`, that the items decode in
source order to the values `vs`, and that the `]` is at offset `e`. -/
inductive ListItems (j : Json) : Nat → List Value → Nat → Prop
  | last (c : Nat) (v : Value) (j2 : Json) :
    (∃ fuel, parseValue fuel { j with cursor := c } = .ok (v, j2)) →
    j.json[j2.cursor]? = some 93 → ListItems j c [v] j2.cursor
  | cons (c : Nat) (v : Value) (j2 : Json) (vs : List Value) (e : Nat) :
    (∃ fuel, parseValue fuel { j with cursor := c } = .ok (v, j2)) →
    j.json[j2.cursor]? = some 44 → ListItems j (j2.cursor + 1) vs e →
    ListItems j c (v :: vs) e

/-- The input of the decoder `j` is a well-formed list text whose items decode to `vs`:
whitespace, `[`, then either whitespace and `]` (no item) or items separated by `,` and the
`]`, then whitespace to the end of the input. -/
def ListText (j : Json) (vs : List Value) : Prop :=
  ∃ a e, OnlyWhitespace j.json 0 a ∧ j.json[a]? = some 91 ∧
    ((vs = [] ∧ a + 1 ≤ e ∧ OnlyWhitespace j.json (a + 1) e ∧ j.json[e]? = some 93) ∨
      ListItems j (a + 1) vs e) ∧
    OnlyWhitespace j.json (e + 1) j.json.length

/-- The calls `push(...push(push(cl, key, v0), key+1, v1)..., key+n-1, v(n-1))` of a list
item pusher, each receiving the result of the previous one. -/
def pushItems (push : Value → Nat → Value → Value) : Value → Nat → List Value → Value
  | cl, _, [] => cl
  | cl, key, v :: vs => pushItems push (push cl key v) (key + 1) vs

/-- The members of an object text, as the decoder `j` reads them: `ObjectMembers j c kvs e`
says that at offset `c` a key (a string literal, read by the string lexer) starts, followed
by optional whitespace, a `:` and a value decoded by the dispatcher, that the member is
followed by a `,`, optional whitespace and further members or by the closing `}`, that keys
and values are `kvs` in source order, and that the `}` is at offset `e`. -/
inductive ObjectMembers (j : Json) : Nat → List (List Nat × Value) → Nat → Prop
  | last (c : Nat) (k : List Nat) (j1 : Json) (a : Nat) (v : Value) (j2 : Json) :
    j.json[c]? = some 34 → parseString { j with cursor := c } = .ok (k, j1) →
    j1.cursor ≤ a → OnlyWhitespace j.json j1.cursor a → j.json[a]? = some 58 →
    (∃ fuel, parseValue fuel { j with cursor := a + 1 } = .ok (v, j2)) →
    j.json[j2.cursor]? = some 125 → ObjectMembers j c [(k, v)] j2.cursor
  | cons (c : Nat) (k : List Nat) (j1 : Json) (a : Nat) (v : Value) (j2 : Json) (c2 : Nat)
      (kvs : List (List Nat × Value)) (e : Nat) :
    j.json[c]? = some 34 → parseString { j with cursor := c } = .ok (k, j1) →
    j1.cursor ≤ a → OnlyWhitespace j.json j1.cursor a → j.json[a]? = some 58 →
    (∃ fuel, parseValue fuel { j with cursor := a + 1 } = .ok (v, j2)) →
    j.json[j2.cursor]? = some 44 → j2.cursor + 1 ≤ c2 →
    OnlyWhitespace j.json (j2.cursor + 1) c2 → ObjectMembers j c2 kvs e →
    ObjectMembers j c ((k, v) :: kvs) e

/-- The input of the decoder `j` is a well-formed object text with the members `kvs`:
whitespace, `{`, whitespace, then either `}` (no member) or members separated by `,` and the
`}`, then whitespace to the end of the input. -/
def ObjectText (j : Json) (kvs : List (List Nat × Value)) : Prop :=
  ∃ a c e, OnlyWhitespace j.json 0 a ∧ j.json[a]? = some 123 ∧ a + 1 ≤ c ∧
    OnlyWhitespace j.json (a + 1) c ∧
    ((kvs = [] ∧ c = e ∧ j.json[e]? = some 125) ∨ ObjectMembers j c kvs e) ∧
    OnlyWhitespace j.json (e + 1) j.json.length

/-- The calls `push(...push(push(m, k1, v1), k2, v2)..., kn, vn)` of an object item pusher,
each receiving the result of the previous one. -/
def pushMembers (push : Value → List Nat → Value → Value) :
    Value → List (List Nat × Value) → Value
  | m, [] => m
  | m, kv :: kvs => pushMembers push (push m kv.1 kv.2) kvs

/-- The built-in object construction: `m[k] = v` for the members in source order. -/
def setMembers : List (List Nat × Value) → List (List Nat × Value) → List (List Nat × Value)
  | m, [] => m
  | m, kv :: kvs => setMembers (mapSet m kv.1 kv.2) kvs

/-- The value of the last member with key `k` in a member sequence. -/
def lastValue : List (List Nat × Value) → List Nat → Option Value
  | [], _ => none
  | kv :: kvs, k =>
    match lastValue kvs k with
    | some v => some v
    | none => if kv.1 = k then some kv.2 else none

/-- The item constructions of `parseList` for the items `vs` in order (`pushListItem` for
each, with the keys `key`, `key + 1`, ...). -/
def pushListItems (j : Json) : List Value → Value → Nat → List Value → Res (List Value × Value)
  | l, cl, _, [] => .ok (l, cl)
  | l, cl, key, v :: vs =>
    (pushListItem j l cl key v).bind fun q => pushListItems j q.1 q.2 (key + 1) vs

/-- The item constructions of `parseObject` for the members `kvs` in order. -/
def pushObjectItems (j : Json) : Value → List (List Nat × Value) → Res Value
  | m, [] => .ok m
  | m, kv :: kvs => (pushObjectItem j m kv.1 kv.2).bind fun m2 => pushObjectItems j m2 kvs

/-! ## The builder hooks of `json_test.go`

`customSlice` is `.custom 0 items`, `customMap` is `.custom 1 [.object members]`. -/

/-- `makeList` of the tests: an empty `customSlice`. -/
def testMakeList : Unit → Value := fun _ => .custom 0 []

/-- `pushListItem` of the tests: `l.(*customSlice).Push(value)`, the index is not used. -/
def testPushListItem : Value → Nat → Value → Value
  | .custom 0 items, _, v => .custom 0 (items ++ [v])
  | l, _, _ => l

/-- `makeObject` of the tests: an empty `customMap`. -/
def testMakeObject : Unit → Value := fun _ => .custom 1 [.object []]

/-- `pushObjectItem` of the tests: `o.(*customMap).Push(key, value)`. -/
def testPushObjectItem : Value → List Nat → Value → Value
  | .custom 1 [.object members], k, v => .custom 1 [.object (mapSet members k v)]
  | o, _, _ => o

/-- The decoder `j` with its input placed between the byte sequences `w1` and `w2`, and its
cursor moved along by the length of `w1`. -/
def Json.embed (w1 w2 : List Nat) (j : Json) : Json :=
  { j with json := w1 ++ j.json ++ w2, cursor := w1.length + j.cursor }

/-! ## The RFC 8259 grammar and the reference value of a JSON text

The grammar is written on bytes, as RFC 8259 gives it, together with the value a reference
decoder returns: `JsonText g t v` says that the text `t` is well-formed and denotes the value
`v`.  The grammar reads the bytes of the UTF-8 encoding of the text and does not check that
encoding: an unescaped byte of a string denotes itself.  A number denotes its literal text
(the text that is converted to a double), a string
its bytes with the escapes replaced (a `\u` escape by the UTF-8 encoding of its code point, a
surrogate pair by the encoding of the code point of the pair, an unpaired surrogate by
U+FFFD, as Go's `encoding/json` does), an array the list of its elements, an object the
mapping built by `m[k] = v` in source order.

The parameter `g` selects the whole grammar (`Dialect.rfc8259`) or the part of it that the
decoder reads as the RFC says (`Dialect.restricted`): there an exponent has an explicit sign
and the `\u` escape of an unpaired surrogate is not directly followed by another `\u`
escape. -/

/-- The whole RFC 8259 grammar, or the restricted one. -/
inductive Dialect where
  | rfc8259
  | restricted
  deriving DecidableEq

/-- RFC 8259 `ws`: space, horizontal tab, line feed, carriage return. -/
def Ws (w : List Nat) : Prop := ∀ b ∈ w, b = 0x20 ∨ b = 0x09 ∨ b = 0x0A ∨ b = 0x0D

/-- RFC 8259 `DIGIT`: `0`-`9`. -/
def Digit (d : Nat) : Prop := 0x30 ≤ d ∧ d ≤ 0x39

/-- RFC 8259 `1*DIGIT`. -/
def Digits (ds : List Nat) : Prop := ds ≠ [] ∧ ∀ d ∈ ds, Digit d

/-- RFC 8259 `int = zero / ( digit1-9 *DIGIT )`. -/
inductive IntPart : List Nat → Prop
  | zero : IntPart [0x30]
  | digits (d : Nat) (ds : List Nat) : 0x31 ≤ d → d ≤ 0x39 → (∀ x ∈ ds, Digit x) →
    IntPart (d :: ds)

/-- RFC 8259 `[ frac ]`, `frac = decimal-point 1*DIGIT`. -/
inductive FracPart : List Nat → Prop
  | absent : FracPart []
  | present (ds : List Nat) : Digits ds → FracPart (0x2E :: ds)

/-- RFC 8259 `[ exp ]`, `exp = e [ minus / plus ] 1*DIGIT`; without a sign only in the whole
grammar. -/
inductive ExpPart (g : Dialect) : List Nat → Prop
  | absent : ExpPart g []
  | signed (e s : Nat) (ds : List Nat) : (e = 0x65 ∨ e = 0x45) → (s = 0x2B ∨ s = 0x2D) →
    Digits ds → ExpPart g (e :: s :: ds)
  | unsigned (e : Nat) (ds : List Nat) : g = .rfc8259 → (e = 0x65 ∨ e = 0x45) → Digits ds →
    ExpPart g (e :: ds)

/-- RFC 8259 `number = [ minus ] int [ frac ] [ exp ]`. -/
def Number (g : Dialect) (t : List Nat) : Prop :=
  ∃ m i f e, t = m ++ i ++ f ++ e ∧ (m = [] ∨ m = [0x2D]) ∧ IntPart i ∧ FracPart f ∧
    ExpPart g e

/-- The value of a hex digit (`HEXDIG`, either case). -/
def hexDigitValue (c : Nat) : Option Nat :=
  if 0x30 ≤ c ∧ c ≤ 0x39 then some (c - 0x30)
  else if 0x41 ≤ c ∧ c ≤ 0x46 then some (c - 0x41 + 10)
  else if 0x61 ≤ c ∧ c ≤ 0x66 then some (c - 0x61 + 10)
  else none

/-- The code unit written by four hex digits (`4HEXDIG`). -/
def hex4 : List Nat → Option Nat
  | [a, b, c, d] =>
    match hexDigitValue a, hexDigitValue b, hexDigitValue c, hexDigitValue d with
    | some x, some y, some z, some w => some (((x * 16 + y) * 16 + z) * 16 + w)
    | _, _, _, _ => none
  | _ => none

/-- The two-character escapes of RFC 8259 and the byte each stands for. -/
def simpleEscape (e : Nat) : Option Nat :=
  if e = 0x22 then some 0x22
  else if e = 0x5C then some 0x5C
  else if e = 0x2F then some 0x2F
  else if e = 0x62 then some 0x08
  else if e = 0x66 then some 0x0C
  else if e = 0x6E then some 0x0A
  else if e = 0x72 then some 0x0D
  else if e = 0x74 then some 0x09
  else none

/-- The text starts with a `\u` escape. -/
def StartsEscapeU (t : List Nat) : Prop := ∃ t2, t = 0x5C :: 0x75 :: t2

/-- The text starts with the `\u` escape of a low surrogate. -/
def StartsLowSurrogate (t : List Nat) : Prop :=
  ∃ h r t2, t = 0x5C :: 0x75 :: h ++ t2 ∧ hex4 h = some r ∧ 0xDC00 ≤ r ∧ r < 0xE000

/-- RFC 8259 `*char` with the bytes denoted: `Chars g t s` says that `t` is a sequence of
unescaped characters and escapes and `s` the bytes of the string it denotes. -/
inductive Chars (g : Dialect) : List Nat → List Nat → Prop
  | nil : Chars g [] []
  /-- `unescaped`: any byte from `0x20` on except `"` and `\`. -/
  | unescaped (c : Nat) (t s : List Nat) : 0x20 ≤ c → c ≠ 0x22 → c ≠ 0x5C → Chars g t s →
    Chars g (c :: t) (c :: s)
  /-- A two-character escape. -/
  | escape (e d : Nat) (t s : List Nat) : simpleEscape e = some d → Chars g t s →
    Chars g (0x5C :: e :: t) (d :: s)
  /-- `\uXXXX` for a code unit that is not a surrogate. -/
  | unicode (h : List Nat) (r : Nat) (t s : List Nat) : hex4 h = some r →
    ¬ (0xD800 ≤ r ∧ r < 0xE000) → Chars g t s →
    Chars g (0x5C :: 0x75 :: h ++ t) (AppendRune [] r ++ s)
  /-- A surrogate pair `\uHHHH\uLLLL`. -/
  | pair (h1 h2 : List Nat) (r1 r2 : Nat) (t s : List Nat) : hex4 h1 = some r1 →
    hex4 h2 = some r2 → 0xD800 ≤ r1 → r1 < 0xDC00 → 0xDC00 ≤ r2 → r2 < 0xE000 → Chars g t s →
    Chars g (0x5C :: 0x75 :: h1 ++ 0x5C :: 0x75 :: h2 ++ t)
      (AppendRune [] (DecodeRune r1 r2) ++ s)
  /-- `\uXXXX` for a surrogate that is not part of a pair: U+FFFD. -/
  | lone (h : List Nat) (r : Nat) (t s : List Nat) : hex4 h = some r → 0xD800 ≤ r →
    r < 0xE000 → ¬ (r < 0xDC00 ∧ StartsLowSurrogate t) →
    (g = .restricted → ¬ StartsEscapeU t) → Chars g t s →
    Chars g (0x5C :: 0x75 :: h ++ t) ([0xEF, 0xBF, 0xBD] ++ s)

/-- RFC 8259 `string = quotation-mark *char quotation-mark`, with the bytes denoted. -/
def Str (g : Dialect) (t s : List Nat) : Prop := ∃ cs, t = 0x22 :: cs ++ [0x22] ∧ Chars g cs s

/-- What a piece of text denotes: a value, the elements of an array, or the members of an
object. -/
inductive Sem where
  | value (v : Value)
  | elements (vs : List Value)
  | members (kvs : List (List Nat × Value))

/-- RFC 8259 `value`, and the element and member sequences of arrays and objects, with what
they denote. -/
inductive Derives (g : Dialect) : Sem → List Nat → Prop
  | null : Derives g (.value .null) [0x6E, 0x75, 0x6C, 0x6C]
  | true : Derives g (.value (.bool true)) [0x74, 0x72, 0x75, 0x65]
  | false : Derives g (.value (.bool false)) [0x66, 0x61, 0x6C, 0x73, 0x65]
  | number (t : List Nat) : Number g t → Derives g (.value (.number t)) t
  | string (t s : List Nat) : Str g t s → Derives g (.value (.string s)) t
  /-- `[ ws ]`. -/
  | emptyArray (w : List Nat) : Ws w → Derives g (.value (.list [])) (0x5B :: w ++ [0x5D])
  /-- `[ elements ]`. -/
  | array (vs : List Value) (t : List Nat) : Derives g (.elements vs) t →
    Derives g (.value (.list vs)) (0x5B :: t ++ [0x5D])
  /-- The last element: `ws value ws`. -/
  | element (w1 t w2 : List Nat) (v : Value) : Ws w1 → Ws w2 → Derives g (.value v) t →
    Derives g (.elements [v]) (w1 ++ t ++ w2)
  /-- `ws value ws , elements`. -/
  | elements (w1 t w2 ts : List Nat) (v : Value) (vs : List Value) : Ws w1 → Ws w2 →
    Derives g (.value v) t → Derives g (.elements vs) ts →
    Derives g (.elements (v :: vs)) (w1 ++ t ++ w2 ++ 0x2C :: ts)
  /-- `{ ws }`. -/
  | emptyObject (w : List Nat) : Ws w → Derives g (.value (.object [])) (0x7B :: w ++ [0x7D])
  /-- `{ members }`. -/
  | object (kvs : List (List Nat × Value)) (t : List Nat) : Derives g (.members kvs) t →
    Derives g (.value (.object (setMembers [] kvs))) (0x7B :: t ++ [0x7D])
  /-- The last member: `ws string ws : ws value ws`. -/
  | member (w1 k w2 w3 t w4 s : List Nat) (v : Value) : Ws w1 → Ws w2 → Ws w3 → Ws w4 →
    Str g k s → Derives g (.value v) t →
    Derives g (.members [(s, v)]) (w1 ++ k ++ w2 ++ 0x3A :: w3 ++ t ++ w4)
  /-- `ws string ws : ws value ws , members`. -/
  | members (w1 k w2 w3 t w4 s ts : List Nat) (v : Value) (kvs : List (List Nat × Value)) :
    Ws w1 → Ws w2 → Ws w3 → Ws w4 → Str g k s → Derives g (.value v) t →
    Derives g (.members kvs) ts →
    Derives g (.members ((s, v) :: kvs)) (w1 ++ k ++ w2 ++ 0x3A :: w3 ++ t ++ w4 ++ 0x2C :: ts)

/-- RFC 8259 `JSON-text = ws value ws`: the text `t` is well-formed and denotes `v`. -/
def JsonText (g : Dialect) (t : List Nat) (v : Value) : Prop :=
  ∃ w1 t2 w2, t = w1 ++ t2 ++ w2 ∧ Ws w1 ∧ Ws w2 ∧ Derives g (.value v) t2

/-- What may follow a number: nothing, or a byte that is not a digit, `.`, `e` or `E`. -/
def Terminates (post : List Nat) : Prop :=
  ∀ c, post.head? = some c → isDigit c = false ∧ c ≠ 46 ∧ c ≠ 101 ∧ c ≠ 69

/-- A decoder without hooks and with an empty scratch buffer. -/
def Plain (j : Json) : Prop :=
  j.buffer = [] ∧ j.listBuilder = none ∧ j.objectBuilder = none

/-- The dispatcher reads the text `t` as the value `v` wherever it stands in the input of a
decoder without hooks: started at the first byte of `t` it returns `v` and stops after `t`
and the whitespace that follows. -/
def ReadsValue (t : List Nat) (v : Value) : Prop :=
  ∀ (j : Json) (c : Nat) (post : List Nat), j.json.drop c = t ++ post → Plain j →
    Terminates post →
    ∃ fuel, parseValue fuel { j with cursor := c } =
      .ok (v, skipWhitespaces { j with cursor := c + t.length })

/-- What the decoder does with a piece of text of the grammar: a value is read by the
dispatcher, the elements of an array are the items of the list loop up to the `]`, the
members of an object are the members of the object loop up to the `}`. -/
def Reads : Sem → List Nat → Prop
  | .value v, t => ReadsValue t v
  | .elements vs, ts =>
    ∀ (j : Json) (c : Nat) (post : List Nat), j.json.drop c = ts ++ 93 :: post → Plain j →
      ListItems j c vs (c + ts.length)
  | .members kvs, ts =>
    ∀ (j : Json) (c : Nat) (post : List Nat), j.json.drop c = ts ++ 125 :: post → Plain j →
      ∃ c1, c ≤ c1 ∧ OnlyWhitespace j.json c c1 ∧ ObjectMembers j c1 kvs (c + ts.length)

/-- The UTF-8 encoding of a code point as the standard gives it: one byte below `0x80`, two
bytes below `0x800`, three bytes below `0x10000`, four bytes from there on, the leading byte
carrying the length marker and every further byte six bits of the code point. -/
def utf8 (c : Nat) : List Nat :=
  if c < 0x80 then [c]
  else if c < 0x800 then [0xC0 + c / 0x40, 0x80 + c % 0x40]
  else if c < 0x10000 then [0xE0 + c / 0x1000, 0x80 + c / 0x40 % 0x40, 0x80 + c % 0x40]
  else [0xF0 + c / 0x40000, 0x80 + c / 0x1000 % 0x40, 0x80 + c / 0x40 % 0x40, 0x80 + c % 0x40]

/-- The byte `b` is the byte `a`, or `a` is a hex letter (`a`-`f`, `A`-`F`) and `b` is the same
letter in the other case. -/
def SameHexLetter (a b : Nat) : Prop :=
  a = b ∨ (0x61 ≤ a ∧ a ≤ 0x66 ∧ b + 0x20 = a) ∨ (0x41 ≤ a ∧ a ≤ 0x46 ∧ b = a + 0x20)

/-- One iteration of the `for` loop of `parseString` after which the loop goes on:
`StringStep j j2` says that the iteration that starts in the state `j` ends, its `j.cursor++`
included, in the state `j2`.  Either a byte other than `"` and backslash is appended to the
scratch buffer, or the inner `switch` handles the byte after a backslash. -/
inductive StringStep : Json → Json → Prop
  | plain (j : Json) (c : Nat) : j.json[j.cursor]? = some c → c ≠ 34 → c ≠ 92 →
    StringStep j { j with cursor := j.cursor + 1, buffer := j.buffer ++ [c] }
  | escape (j : Json) (e : Nat) (j2 : Json) : j.json[j.cursor]? = some 92 →
    j.json[j.cursor + 1]? = some e → parseEscape e { j with cursor := j.cursor + 1 } = .ok j2 →
    StringStep j { j2 with cursor := j2.cursor + 1 }

/-- `StringSteps j j2`: the loop of `parseString`, entered in the state `j`, comes to an
iteration that starts in the state `j2`. -/
inductive StringSteps : Json → Json → Prop
  | refl (j : Json) : StringSteps j j
  | step {j j2 j3 : Json} : StringSteps j j2 → StringStep j2 j3 → StringSteps j j3

/-- `CallsString c j`: the call `c` calls `parseString` with the decoder in the state `j`, the
cursor on the opening quote: the dispatcher for a string value, the object loop for a key. -/
inductive CallsString : Call → Json → Prop
  /-- `parseValue`: `case '"': v, err = j.parseString()`. -/
  | value (fuel : Nat) (j : Json) :
    (skipWhitespaces j).json[(skipWhitespaces j).cursor]? = some 34 →
    CallsString (.value (fuel + 1) j) (skipWhitespaces j)
  /-- The object loop: `case '"': k, err = j.parseString()`. -/
  | key (fuel : Nat) (j : Json) (counter : Nat) (expectItem : Bool) (m : Value) :
    j.json[j.cursor]? = some 34 → CallsString (.objectLoop (fuel + 1) j counter expectItem m) j

/-- `InString j0 j`: while `Decode` runs on the decoder `j0`, a string literal is lexed and the
loop of `parseString` comes to an iteration that starts in the state `j`. -/
def InString (j0 j : Json) : Prop :=
  ∃ c js, Reaches (Decode.call j0) c ∧ CallsString c js ∧
    StringSteps { js with cursor := js.cursor + 1 } j

/-! ## Basic facts: results, lists, the cursor -/

theorem view_cons {l : List Nat} {i c : Nat} {r : List Nat} (h : l.drop i = c :: r) :
    i < l.length ∧ l[i]? = some c ∧ l.drop (i + 1) = r := by
  have hlt : i < l.length := by
    by_contra hge
    rw [List.drop_eq_nil_of_le (by omega)] at h
    cases h
  have h2 := List.drop_eq_getElem_cons hlt
  rw [h] at h2
  injection h2 with h3 h4
  refine ⟨hlt, ?_, h4.symm⟩
  rw [List.getElem?_eq_getElem hlt, h3]

theorem view_nil {l : List Nat} {i : Nat} (h : l.drop i = []) :
    l.length ≤ i ∧ l[i]? = none := by
  have hle : l.length ≤ i := List.drop_eq_nil_iff.mp h
  exact ⟨hle, List.getElem?_eq_none hle⟩

theorem skipWhitespacesLoop_eq (n : Nat) (j : Json) (h : j.jsonLen - j.cursor ≤ n) :
    skipWhitespacesLoop n j = { j with cursor := j.cursor + wsLen (j.json.drop j.cursor) } := by
  induction n generalizing j with
  | zero =>
    have hle : j.json.length ≤ j.cursor := by simp [Json.jsonLen] at h; omega
    simp [skipWhitespacesLoop, List.drop_eq_nil_of_le hle, wsLen]
  | succ n ih =>
    rw [skipWhitespacesLoop]
    rcases hd : j.json.drop j.cursor with _ | ⟨c, r⟩
    · obtain ⟨h1, h2⟩ := view_nil hd
      have : ¬ j.cursor < j.jsonLen := by simp [Json.jsonLen]; omega
      simp [this, wsLen]
    · obtain ⟨h1, h2, h3⟩ := view_cons hd
      have : j.cursor < j.jsonLen := h1
      simp only [this, if_true, h2]
      by_cases hw : isWhitespace c = true
      · simp only [hw, if_true]
        rw [ih]
        · simp [h3, wsLen, List.takeWhile_cons, hw]; omega
        · simp [Json.jsonLen] at *; omega
      · simp [hw, wsLen, List.takeWhile_cons]

theorem skipWhitespaces_eq (j : Json) :
    skipWhitespaces j = { j with cursor := j.cursor + wsLen (j.json.drop j.cursor) } :=
  skipWhitespacesLoop_eq _ j (Nat.le_refl _)

@[simp] theorem Res.bind_ok {α β : Type} (a : α) (f : α → Res β) : (Res.ok a).bind f = f a := rfl
@[simp] theorem Res.bind_syntaxError {α β : Type} (p : Nat) (f : α → Res β) :
    (Res.syntaxError p : Res α).bind f = .syntaxError p := rfl
@[simp] theorem Res.bind_panic {α β : Type} (f : α → Res β) :
    (Res.panic : Res α).bind f = .panic := rfl
@[simp] theorem Res.bind_outOfFuel {α β : Type} (f : α → Res β) :
    (Res.outOfFuel : Res α).bind f = .outOfFuel := rfl

theorem Res.bind_eq_ok {α β : Type} {r : Res α} {f : α → Res β} {b : β} :
    r.bind f = .ok b ↔ ∃ a, r = .ok a ∧ f a = .ok b := by
  cases r <;> simp [Res.bind]

theorem Res.bind_eq_outOfFuel {α β : Type} {r : Res α} {f : α → Res β} :
    r.bind f = .outOfFuel ↔ r = .outOfFuel ∨ ∃ a, r = .ok a ∧ f a = .outOfFuel := by
  cases r <;> simp [Res.bind]

theorem parseTrue_ok {j j' : Json} {v : Value} (h : parseTrue j = .ok (v, j')) :
    v = .bool true ∧ j' = { j with cursor := j.cursor + 4 } ∧ j.cursor + 4 ≤ j.jsonLen := by
  unfold parseTrue at h
  split at h
  · cases h
  · split at h
    · split at h
      · simp at h; refine ⟨h.1.symm, h.2.symm, by omega⟩
      · cases h
    · cases h

theorem parseFalse_ok {j j' : Json} {v : Value} (h : parseFalse j = .ok (v, j')) :
    v = .bool false ∧ j' = { j with cursor := j.cursor + 5 } ∧ j.cursor + 5 ≤ j.jsonLen := by
  unfold parseFalse at h
  split at h
  · cases h
  · split at h
    · split at h
      · simp at h; refine ⟨h.1.symm, h.2.symm, by omega⟩
      · cases h
    · cases h

theorem parseNull_ok {j j' : Json} {v : Value} (h : parseNull j = .ok (v, j')) :
    v = .null ∧ j' = { j with cursor := j.cursor + 4 } ∧ j.cursor + 4 ≤ j.jsonLen := by
  unfold parseNull at h
  split at h
  · cases h
  · split at h
    · split at h
      · simp at h; refine ⟨h.1.symm, h.2.symm, by omega⟩
      · cases h
    · cases h

theorem numberDigitsLoop_bounds (n : Nat) (j : Json) (i : Nat) (a : Bool) {k : Nat}
    (h : numberDigitsLoop n j i a = .ok k) : i ≤ k ∧ k ≤ max i j.jsonLen := by
  induction n generalizing i a with
  | zero => simp [numberDigitsLoop] at h; omega
  | succ n ih =>
    rw [numberDigitsLoop] at h
    split at h
    · split at h
      · cases h
      · split at h
        · have := ih _ _ h; omega
        · split at h
          · split at h
            · cases h
            · have := ih _ _ h; omega
          · simp at h; omega
    · simp at h; omega

theorem exponentDigitsLoop_bounds (n : Nat) (j : Json) (i : Nat) {k : Nat}
    (h : exponentDigitsLoop n j i = .ok k) : i ≤ k ∧ k ≤ max i j.jsonLen := by
  induction n generalizing i with
  | zero => simp [exponentDigitsLoop] at h; omega
  | succ n ih =>
    rw [exponentDigitsLoop] at h
    split at h
    · split at h
      · cases h
      · split at h
        · have := ih _ h; omega
        · simp at h; omega
    · simp at h; omega

theorem numberExponent_bounds (j : Json) (i : Nat) {k : Nat}
    (h : numberExponent j i = .ok k) : i ≤ k ∧ k ≤ max i j.jsonLen := by
  unfold numberExponent at h
  split at h
  · split at h
    · cases h
    · split at h
      · split at h
        · cases h
        · split at h
          · split at h
            · cases h
            · split at h
              · have := exponentDigitsLoop_bounds _ _ _ h; omega
              · simp at h; omega
          · simp at h; omega
      · simp at h; omega
  · simp at h; omega

theorem parseNumber_ok {j j' : Json} {v : Value} (h : parseNumber j = .ok (v, j')) :
    ∃ i, v = .number (slice j.json j.cursor i) ∧ j' = { j with cursor := i } ∧
      j.cursor < i ∧ i ≤ j.jsonLen := by
  unfold parseNumber at h
  obtain ⟨bad, h1, h⟩ := Res.bind_eq_ok.mp h
  have hlt : j.cursor < j.jsonLen := by
    unfold minusWithoutDigit at h1
    split at h1
    · cases h1
    · rename_i c0 hc0
      have := (List.getElem?_eq_some_iff.mp hc0).1
      exact this
  split at h
  · cases h
  · obtain ⟨i, h2, h⟩ := Res.bind_eq_ok.mp h
    obtain ⟨k, h3, h⟩ := Res.bind_eq_ok.mp h
    simp at h
    have b1 := numberDigitsLoop_bounds _ _ _ _ h2
    have b2 := numberExponent_bounds _ _ h3
    refine ⟨k, h.1.symm, h.2.symm, by omega, by omega⟩

theorem hexToRune_ok {j : Json} {p : Nat × Json} (h : hexToRune j = .ok p) :
    p.2 = { j with cursor := j.cursor + 3 } ∧ j.cursor + 4 ≤ j.jsonLen := by
  unfold hexToRune at h
  split at h
  · cases h
  · split at h
    · simp at h; subst h; exact ⟨rfl, by omega⟩
    · cases h

theorem parseUnicode_ok {j : Json} {p : Nat × Json} (h : parseUnicode j = .ok p) :
    ∃ c, p.2 = { j with cursor := c } ∧ j.cursor + 4 ≤ c ∧ c < j.jsonLen := by
  unfold parseUnicode at h
  obtain ⟨q, h1, h⟩ := Res.bind_eq_ok.mp h
  obtain ⟨e1, b1⟩ := hexToRune_ok h1
  simp [Json.jsonLen] at b1
  split at h
  · split at h
    · cases h
    · split at h
      · simp at h; subst h
        exact ⟨j.cursor + 4, by simp [e1], by omega, by simp [Json.jsonLen]; omega⟩
      · split at h
        · cases h
        · split at h
          · simp at h; subst h
            exact ⟨j.cursor + 4, by simp [e1], by omega, by simp [Json.jsonLen]; omega⟩
          · obtain ⟨q2, h2, h⟩ := Res.bind_eq_ok.mp h
            obtain ⟨e2, b2⟩ := hexToRune_ok h2
            simp at h; subst h
            simp [Json.jsonLen, e1] at b2
            exact ⟨j.cursor + 10, by simp [e2, e1], by omega, by simp [Json.jsonLen]; omega⟩
  · simp at h; subst h
    exact ⟨j.cursor + 4, by simp [e1], by omega, by simp [Json.jsonLen]; omega⟩

theorem parseEscape_ok {e : Nat} {j j2 : Json} (h : parseEscape e j = .ok j2) :
    ∃ c b, j2 = { j with cursor := c, buffer := b } ∧ j.cursor ≤ c ∧
      (c = j.cursor ∨ c < j.jsonLen) := by
  unfold parseEscape at h
  repeat' split at h
  all_goals first
    | (simp at h; subst h; exact ⟨j.cursor, _, rfl, Nat.le_refl _, Or.inl rfl⟩)
    | (obtain ⟨p, h1, h⟩ := Res.bind_eq_ok.mp h
       obtain ⟨c, e1, b1, b2⟩ := parseUnicode_ok h1
       simp at h; subst h
       exact ⟨c, _, by rw [e1], by omega, Or.inr b2⟩)

theorem parseStringLoop_ok (n : Nat) {j : Json} {p : List Nat × Json}
    (h : parseStringLoop n j = .ok p) :
    ∃ c b, p.2 = { j with cursor := c, buffer := b } ∧ j.cursor < c ∧ c ≤ j.jsonLen := by
  induction n generalizing j with
  | zero => simp [parseStringLoop] at h
  | succ n ih =>
    rw [parseStringLoop] at h
    split at h
    · rename_i hlt
      split at h
      · cases h
      · split at h
        · simp at h; subst h; exact ⟨j.cursor + 1, j.buffer, rfl, by omega, by omega⟩
        · split at h
          · split at h
            · cases h
            · rename_i e he
              have hlt2 : j.cursor + 1 < j.jsonLen := (List.getElem?_eq_some_iff.mp he).1
              obtain ⟨j2, h1, h⟩ := Res.bind_eq_ok.mp h
              obtain ⟨c, b, e1, b1, b2⟩ := parseEscape_ok h1
              obtain ⟨c2, b3, e2, b4, b5⟩ := ih h
              subst e1
              simp [Json.jsonLen] at b1 b2 b4 b5 hlt hlt2 e2
              exact ⟨c2, b3, e2, by omega, by simp [Json.jsonLen]; omega⟩
          · obtain ⟨c2, b3, e2, b4, b5⟩ := ih h
            simp [Json.jsonLen] at b4 b5 hlt e2
            exact ⟨c2, b3, e2, by omega, by simp [Json.jsonLen]; omega⟩
    · cases h

theorem parseString_ok {j : Json} {p : List Nat × Json} (h : parseString j = .ok p) :
    ∃ c, p.2 = { j with cursor := c, buffer := [] } ∧ j.cursor + 1 < c ∧ c ≤ j.jsonLen := by
  unfold parseString at h
  obtain ⟨q, h1, h⟩ := Res.bind_eq_ok.mp h
  obtain ⟨c, b, e1, b1, b2⟩ := parseStringLoop_ok _ h1
  simp at h; subst h
  simp [Json.jsonLen] at b1 b2
  exact ⟨c, by simp [e1], by omega, by simp [Json.jsonLen]; omega⟩

theorem parseValue_zero (j : Json) : parseValue 0 j = .outOfFuel := rfl

theorem parseValue_succ (f : Nat) (j : Json) : parseValue (f + 1) j =
    if (skipWhitespaces j).cursor < (skipWhitespaces j).jsonLen then
      match (skipWhitespaces j).json[(skipWhitespaces j).cursor]? with
      | none => .panic
      | some c =>
        (if c = 45 ∨ isDigit c then parseNumber (skipWhitespaces j)
          else if c = 34 then
            (parseString (skipWhitespaces j)).bind fun p => .ok (.string p.1, p.2)
          else if c = 116 then parseTrue (skipWhitespaces j)
          else if c = 102 then parseFalse (skipWhitespaces j)
          else if c = 110 then parseNull (skipWhitespaces j)
          else if c = 91 then parseList f (skipWhitespaces j)
          else if c = 123 then parseObject f (skipWhitespaces j)
          else .syntaxError (skipWhitespaces j).cursor).bind fun p =>
            .ok (p.1, skipWhitespaces p.2)
    else .syntaxError (skipWhitespaces j).cursor := rfl

theorem parseList_zero (j : Json) : parseList 0 j = .outOfFuel := rfl

theorem parseList_succ (f : Nat) (j : Json) : parseList (f + 1) j =
    parseListLoop f (skipWhitespaces { j with cursor := j.cursor + 1 }) 0 false []
      (match j.listBuilder with
        | some mk => mk ()
        | none => .null) := rfl

theorem parseListLoop_zero (j : Json) (key : Nat) (ev : Bool) (l : List Value) (cl : Value) :
    parseListLoop 0 j key ev l cl = .outOfFuel := rfl

theorem parseListLoop_succ (f : Nat) (j : Json) (key : Nat) (expectValue : Bool)
    (l : List Value) (cl : Value) : parseListLoop (f + 1) j key expectValue l cl =
    if j.cursor < j.jsonLen then
      match j.json[j.cursor]? with
      | none => .panic
      | some c =>
        if c = 44 then
          if key = 0 ∨ expectValue = true then .syntaxError j.cursor
          else parseListLoop f { j with cursor := j.cursor + 1 } key true l cl
        else if c = 93 then
          if expectValue = true then .syntaxError j.cursor
          else if j.listBuilder.isNone then .ok (.list l, { j with cursor := j.cursor + 1 })
          else .ok (cl, { j with cursor := j.cursor + 1 })
        else
          (parseValue f j).bind fun p =>
            (pushListItem p.2 l cl key p.1).bind fun q =>
              parseListLoop f p.2 (key + 1) false q.1 q.2
    else .syntaxError j.cursor := rfl

theorem parseObject_zero (j : Json) : parseObject 0 j = .outOfFuel := rfl

theorem parseObject_succ (f : Nat) (j : Json) : parseObject (f + 1) j =
    parseObjectLoop f (skipWhitespaces { j with cursor := j.cursor + 1 }) 0 false
      (makeObject j) := rfl

theorem parseObjectLoop_zero (j : Json) (counter : Nat) (ei : Bool) (m : Value) :
    parseObjectLoop 0 j counter ei m = .outOfFuel := rfl

theorem parseObjectLoop_succ (f : Nat) (j : Json) (counter : Nat) (expectItem : Bool)
    (m : Value) : parseObjectLoop (f + 1) j counter expectItem m =
    if j.cursor < j.jsonLen then
      match j.json[j.cursor]? with
      | none => .panic
      | some c =>
        if c = 34 then
          (parseString j).bind fun k =>
            if (skipWhitespaces k.2).cursor ≥ (skipWhitespaces k.2).jsonLen then
              .syntaxError (skipWhitespaces k.2).cursor
            else
              match (skipWhitespaces k.2).json[(skipWhitespaces k.2).cursor]? with
              | none => .panic
              | some colon =>
                if colon ≠ 58 then .syntaxError (skipWhitespaces k.2).cursor
                else
                  (parseValue f
                    { skipWhitespaces k.2 with cursor := (skipWhitespaces k.2).cursor + 1 }).bind
                    fun p =>
                      (pushObjectItem p.2 m k.1 p.1).bind fun m2 =>
                        parseObjectLoop f p.2 (counter + 1) false m2
        else if c = 44 then
          if counter = 0 ∨ expectItem = true then .syntaxError j.cursor
          else
            parseObjectLoop f (skipWhitespaces { j with cursor := j.cursor + 1 }) counter true m
        else if c = 125 then
          if expectItem = true then .syntaxError j.cursor
          else .ok (m, { j with cursor := j.cursor + 1 })
        else .syntaxError j.cursor
    else .syntaxError j.cursor := rfl

theorem wsLen_le (l : List Nat) : wsLen l ≤ l.length := by
  unfold wsLen
  exact (List.takeWhile_sublist _).length_le

theorem skipWhitespaces_cursor_le (j : Json) (h : j.cursor ≤ j.jsonLen) :
    (skipWhitespaces j).cursor ≤ j.jsonLen := by
  rw [skipWhitespaces_eq]
  have := wsLen_le (j.json.drop j.cursor)
  simp [Json.jsonLen] at *
  omega

theorem Advanced.trans_le {j j1 j2 : Json} {c : Nat}
    (h1 : j1 = { j with cursor := c }) (hc : j.cursor ≤ c) (h2 : Advanced j1 j2) :
    Advanced j j2 := by
  obtain ⟨c2, b2, e, hlt, hle, hb⟩ := h2
  subst h1
  exact ⟨c2, b2, e, by simp at hlt; omega, hle, hb⟩

theorem Advanced.trans {j j1 j2 : Json} (h1 : Advanced j j1) (h2 : Advanced j1 j2) :
    Advanced j j2 := by
  obtain ⟨c1, b1, e1, hlt1, hle1, hb1⟩ := h1
  obtain ⟨c2, b2, e2, hlt2, hle2, hb2⟩ := h2
  subst e1
  refine ⟨c2, b2, e2, by simp at hlt2; omega, hle2, fun h => hb2 (hb1 h)⟩

theorem Advanced.skip {j j1 : Json} (h : Advanced j j1) : Advanced j (skipWhitespaces j1) := by
  obtain ⟨c1, b1, e1, hlt1, hle1, hb1⟩ := h
  subst e1
  rw [skipWhitespaces_eq]
  have := wsLen_le (List.drop c1 j.json)
  refine ⟨_, b1, rfl, by simp; omega, ?_, hb1⟩
  simp [Json.jsonLen] at *
  omega

theorem Advanced.of_skip {j j2 : Json} (h : Advanced (skipWhitespaces j) j2) :
    Advanced j j2 := by
  rw [skipWhitespaces_eq] at h
  exact Advanced.trans_le rfl (Nat.le_add_right _ _) h

theorem Advanced.of_number {j : Json} {p : Value × Json} (h : parseNumber j = .ok p) :
    Advanced j p.2 := by
  obtain ⟨i, _, e, h1, h2⟩ := @parseNumber_ok j p.2 p.1 h
  exact ⟨i, j.buffer, e, h1, h2, fun h => h⟩

theorem Advanced.of_string {j : Json} {p : List Nat × Json} (h : parseString j = .ok p) :
    Advanced j p.2 := by
  obtain ⟨c, e, h1, h2⟩ := parseString_ok h
  exact ⟨c, [], e, by omega, h2, fun _ => rfl⟩

theorem Advanced.of_true {j : Json} {p : Value × Json} (h : parseTrue j = .ok p) :
    Advanced j p.2 := by
  obtain ⟨_, e, h1⟩ := @parseTrue_ok j p.2 p.1 h
  exact ⟨_, j.buffer, e, by omega, h1, fun h => h⟩

theorem Advanced.of_false {j : Json} {p : Value × Json} (h : parseFalse j = .ok p) :
    Advanced j p.2 := by
  obtain ⟨_, e, h1⟩ := @parseFalse_ok j p.2 p.1 h
  exact ⟨_, j.buffer, e, by omega, h1, fun h => h⟩

theorem Advanced.of_null {j : Json} {p : Value × Json} (h : parseNull j = .ok p) :
    Advanced j p.2 := by
  obtain ⟨_, e, h1⟩ := @parseNull_ok j p.2 p.1 h
  exact ⟨_, j.buffer, e, by omega, h1, fun h => h⟩

theorem Advanced.step {j : Json} (h : j.cursor < j.jsonLen) :
    Advanced j { j with cursor := j.cursor + 1 } :=
  ⟨j.cursor + 1, j.buffer, rfl, by omega, by omega, fun h => h⟩

/-- Every successful parsing operation moves the cursor strictly forward and keeps it inside
the input; it changes nothing of the decoder but the cursor and the scratch buffer. -/
theorem parse_advanced (f : Nat) :
    (∀ j p, parseValue f j = .ok p → Advanced j p.2) ∧
    (∀ j p, parseList f j = .ok p → Advanced j p.2) ∧
    (∀ j key ev l cl p, parseListLoop f j key ev l cl = .ok p → Advanced j p.2) ∧
    (∀ j p, parseObject f j = .ok p → Advanced j p.2) ∧
    (∀ j c ei m p, parseObjectLoop f j c ei m = .ok p → Advanced j p.2) := by
  induction f with
  | zero =>
    refine ⟨?_, ?_, ?_, ?_, ?_⟩ <;> intros <;> rename_i h <;> cases h
  | succ f ih =>
    obtain ⟨ihV, ihL, ihLL, ihO, ihOL⟩ := ih
    refine ⟨?_, ?_, ?_, ?_, ?_⟩
    · intro j p h
      rw [parseValue_succ] at h
      split at h
      · split at h
        · cases h
        · obtain ⟨q, h1, h⟩ := Res.bind_eq_ok.mp h
          simp at h; subst h
          apply Advanced.of_skip
          apply Advanced.skip
          repeat' split at h1
          · exact Advanced.of_number h1
          · obtain ⟨s, h2, h1⟩ := Res.bind_eq_ok.mp h1
            simp at h1; subst h1
            exact Advanced.of_string h2
          · exact Advanced.of_true h1
          · exact Advanced.of_false h1
          · exact Advanced.of_null h1
          · exact ihL _ _ h1
          · exact ihO _ _ h1
          · cases h1
      · cases h
    · intro j p h
      rw [parseList_succ] at h
      have := ihLL _ _ _ _ _ _ h
      have h2 := Advanced.of_skip this
      exact Advanced.trans_le rfl (Nat.le_succ _) h2
    · intro j key ev l cl p h
      rw [parseListLoop_succ] at h
      split at h
      · rename_i hlt
        split at h
        · cases h
        · repeat' split at h
          · cases h
          · exact Advanced.trans_le rfl (Nat.le_succ _) (ihLL _ _ _ _ _ _ h)
          · cases h
          · simp at h; subst h; exact Advanced.step hlt
          · simp at h; subst h; exact Advanced.step hlt
          · obtain ⟨q, h1, h⟩ := Res.bind_eq_ok.mp h
            obtain ⟨q2, h2, h⟩ := Res.bind_eq_ok.mp h
            exact Advanced.trans (ihV _ _ h1) (ihLL _ _ _ _ _ _ h)
      · cases h
    · intro j p h
      rw [parseObject_succ] at h
      have := ihOL _ _ _ _ _ h
      have h2 := Advanced.of_skip this
      exact Advanced.trans_le rfl (Nat.le_succ _) h2
    · intro j c ei m p h
      rw [parseObjectLoop_succ] at h
      split at h
      · rename_i hlt
        split at h
        · cases h
        · repeat' split at h
          · obtain ⟨k, h1, h⟩ := Res.bind_eq_ok.mp h
            repeat' split at h
            · cases h
            · cases h
            · cases h
            · obtain ⟨q, h2, h⟩ := Res.bind_eq_ok.mp h
              obtain ⟨m2, h3, h⟩ := Res.bind_eq_ok.mp h
              have a1 := Advanced.skip (Advanced.of_string h1)
              have a2 := ihV _ _ h2
              have a3 := ihOL _ _ _ _ _ h
              have a4 := Advanced.trans_le rfl (Nat.le_succ _) a2
              exact Advanced.trans a1 (Advanced.trans a4 a3)
          · cases h
          · exact Advanced.trans_le rfl (Nat.le_succ _) (Advanced.of_skip (ihOL _ _ _ _ _ h))
          · cases h
          · simp at h; subst h; exact Advanced.step hlt
          · cases h
      · cases h

theorem Res.bind_mono {α β : Type} {r r2 : Res α} {g g2 : α → Res β}
    (hr : r ≠ .outOfFuel → r2 = r) (hg : ∀ a, r = .ok a → g a ≠ .outOfFuel → g2 a = g a)
    (h : r.bind g ≠ .outOfFuel) : r2.bind g2 = r.bind g := by
  cases r with
  | ok a =>
    rw [hr (by simp)]
    exact hg a rfl h
  | syntaxError p => rw [hr (by simp)]; rfl
  | panic => rw [hr (by simp)]; rfl
  | outOfFuel => exact absurd rfl h

theorem Res.ne_outOfFuel_of_bind {α β : Type} {r : Res α} {g : α → Res β}
    (h : r.bind g ≠ .outOfFuel) : r ≠ .outOfFuel := by
  intro h2; rw [h2] at h; exact h rfl

/-- Surplus fuel does not change a result: one more unit of fuel gives the same outcome
whenever the outcome is not fuel exhaustion. -/
theorem parse_fuel_succ (f : Nat) :
    (∀ j, parseValue f j ≠ .outOfFuel → parseValue (f + 1) j = parseValue f j) ∧
    (∀ j, parseList f j ≠ .outOfFuel → parseList (f + 1) j = parseList f j) ∧
    (∀ j key ev l cl, parseListLoop f j key ev l cl ≠ .outOfFuel →
      parseListLoop (f + 1) j key ev l cl = parseListLoop f j key ev l cl) ∧
    (∀ j, parseObject f j ≠ .outOfFuel → parseObject (f + 1) j = parseObject f j) ∧
    (∀ j c ei m, parseObjectLoop f j c ei m ≠ .outOfFuel →
      parseObjectLoop (f + 1) j c ei m = parseObjectLoop f j c ei m) := by
  induction f with
  | zero =>
    refine ⟨?_, ?_, ?_, ?_, ?_⟩ <;> intros <;> rename_i h <;> exact absurd rfl h
  | succ f ih =>
    obtain ⟨ihV, ihL, ihLL, ihO, ihOL⟩ := ih
    refine ⟨?_, ?_, ?_, ?_, ?_⟩
    · intro j h
      rw [parseValue_succ f] at h
      rw [parseValue_succ (f + 1), parseValue_succ f]
      split
      · rename_i hlt
        simp only [hlt, if_true] at h
        split
        · rfl
        · rename_i c hc
          simp only [hc] at h
          apply Res.bind_mono _ (fun _ _ _ => rfl) h
          intro h2
          repeat' split
          all_goals first
            | rfl
            | (rename_i h91 ; simp only [*, if_true, if_false] at h2 ; first
                | exact ihL _ h2
                | exact ihO _ h2)
      · rfl
    · intro j h
      rw [parseList_succ f] at h
      rw [parseList_succ (f + 1), parseList_succ f]
      exact ihLL _ _ _ _ _ h
    · intro j key ev l cl h
      rw [parseListLoop_succ f] at h
      rw [parseListLoop_succ (f + 1), parseListLoop_succ f j key ev l cl]
      split
      · rename_i hlt
        simp only [hlt, if_true] at h
        split
        · rfl
        · rename_i c hc
          simp only [hc] at h
          repeat' split
          all_goals first
            | rfl
            | (simp only [*, if_true, if_false] at h
               first
               | exact ihLL _ _ _ _ _ h
               | (apply Res.bind_mono (ihV _) _ h
                  intro a _ h3
                  apply Res.bind_mono (fun _ => rfl) _ h3
                  intro b _ h4
                  exact ihLL _ _ _ _ _ h4))
      · rfl
    · intro j h
      rw [parseObject_succ f] at h
      rw [parseObject_succ (f + 1), parseObject_succ f]
      exact ihOL _ _ _ _ h
    · intro j c ei m h
      rw [parseObjectLoop_succ f] at h
      rw [parseObjectLoop_succ (f + 1), parseObjectLoop_succ f j c ei m]
      split
      · rename_i hlt
        simp only [hlt, if_true] at h
        split
        · rfl
        · rename_i c hc
          simp only [hc] at h
          repeat' split
          all_goals first
            | rfl
            | (simp only [*, if_true, if_false] at h
               first
               | exact ihOL _ _ _ _ h
               | (apply Res.bind_mono (fun _ => rfl) _ h
                  intro k _ h3
                  repeat' split
                  all_goals first
                    | rfl
                    | (simp only [*, if_true, if_false] at h3
                       apply Res.bind_mono (ihV _) _ h3
                       intro a _ h4
                       apply Res.bind_mono (fun _ => rfl) _ h4
                       intro b _ h5
                       exact ihOL _ _ _ _ h5)))
      · rfl

theorem Res.bind_ne_outOfFuel {α β : Type} {r : Res α} {g : α → Res β}
    (hr : r ≠ .outOfFuel) (hg : ∀ a, r = .ok a → g a ≠ .outOfFuel) :
    r.bind g ≠ .outOfFuel := by
  cases r with
  | ok a => exact hg a rfl
  | syntaxError p => simp
  | panic => simp
  | outOfFuel => exact absurd rfl hr

theorem parseTrue_ne_outOfFuel (j : Json) : parseTrue j ≠ .outOfFuel := by
  unfold parseTrue; repeat' split
  all_goals simp

theorem parseFalse_ne_outOfFuel (j : Json) : parseFalse j ≠ .outOfFuel := by
  unfold parseFalse; repeat' split
  all_goals simp

theorem parseNull_ne_outOfFuel (j : Json) : parseNull j ≠ .outOfFuel := by
  unfold parseNull; repeat' split
  all_goals simp

theorem numberDigitsLoop_ne_outOfFuel (n : Nat) (j : Json) (i : Nat) (a : Bool) :
    numberDigitsLoop n j i a ≠ .outOfFuel := by
  induction n generalizing i a with
  | zero => simp [numberDigitsLoop]
  | succ n ih =>
    rw [numberDigitsLoop]; repeat' split
    all_goals first
      | exact ih _ _
      | simp

theorem exponentDigitsLoop_ne_outOfFuel (n : Nat) (j : Json) (i : Nat) :
    exponentDigitsLoop n j i ≠ .outOfFuel := by
  induction n generalizing i with
  | zero => simp [exponentDigitsLoop]
  | succ n ih =>
    rw [exponentDigitsLoop]; repeat' split
    all_goals first
      | exact ih _
      | simp

theorem numberExponent_ne_outOfFuel (j : Json) (i : Nat) : numberExponent j i ≠ .outOfFuel := by
  unfold numberExponent; repeat' split
  all_goals first
    | exact exponentDigitsLoop_ne_outOfFuel _ _ _
    | simp

theorem parseNumber_ne_outOfFuel (j : Json) : parseNumber j ≠ .outOfFuel := by
  unfold parseNumber
  apply Res.bind_ne_outOfFuel
  · unfold minusWithoutDigit; repeat' split
    all_goals simp
  · intro bad _
    split
    · simp
    · apply Res.bind_ne_outOfFuel (numberDigitsLoop_ne_outOfFuel _ _ _ _)
      intro i _
      apply Res.bind_ne_outOfFuel (numberExponent_ne_outOfFuel _ _)
      intro k _
      simp

theorem hexToRune_ne_outOfFuel (j : Json) : hexToRune j ≠ .outOfFuel := by
  unfold hexToRune; repeat' split
  all_goals simp

theorem parseUnicode_ne_outOfFuel (j : Json) : parseUnicode j ≠ .outOfFuel := by
  unfold parseUnicode
  apply Res.bind_ne_outOfFuel (hexToRune_ne_outOfFuel _)
  intro p _
  repeat' split
  all_goals first
    | (apply Res.bind_ne_outOfFuel (hexToRune_ne_outOfFuel _); intro q _; simp)
    | simp

theorem parseEscape_ne_outOfFuel (e : Nat) (j : Json) : parseEscape e j ≠ .outOfFuel := by
  unfold parseEscape; repeat' split
  all_goals first
    | (apply Res.bind_ne_outOfFuel (parseUnicode_ne_outOfFuel _); intro q _; simp)
    | simp

theorem parseStringLoop_ne_outOfFuel (n : Nat) (j : Json) :
    parseStringLoop n j ≠ .outOfFuel := by
  induction n generalizing j with
  | zero => simp [parseStringLoop]
  | succ n ih =>
    rw [parseStringLoop]; repeat' split
    all_goals first
      | exact ih _
      | (apply Res.bind_ne_outOfFuel (parseEscape_ne_outOfFuel _ _); intro q _; exact ih _)
      | simp

theorem parseString_ne_outOfFuel (j : Json) : parseString j ≠ .outOfFuel := by
  unfold parseString
  apply Res.bind_ne_outOfFuel (parseStringLoop_ne_outOfFuel _ _)
  intro q _; simp

theorem pushListItem_ne_outOfFuel (j : Json) (l : List Value) (cl : Value) (key : Nat)
    (v : Value) : pushListItem j l cl key v ≠ .outOfFuel := by
  unfold pushListItem; repeat' split
  all_goals simp

theorem pushObjectItem_ne_outOfFuel (j : Json) (m : Value) (k : List Nat) (v : Value) :
    pushObjectItem j m k v ≠ .outOfFuel := by
  unfold pushObjectItem; repeat' split
  all_goals simp

theorem Advanced.fuel {j j2 : Json} (h : Advanced j j2) :
    j2.jsonLen = j.jsonLen ∧ j.cursor < j2.cursor ∧ j2.cursor ≤ j.jsonLen := by
  obtain ⟨c, b, e, h1, h2, _⟩ := h
  subst e
  exact ⟨rfl, h1, h2⟩

theorem skipWhitespaces_fuel (j : Json) :
    (skipWhitespaces j).jsonLen = j.jsonLen ∧ j.cursor ≤ (skipWhitespaces j).cursor := by
  rw [skipWhitespaces_eq]
  exact ⟨rfl, Nat.le_add_right _ _⟩

/-- Fuel that is enough: no parsing operation runs out of fuel when it has three units for
every byte from the cursor to the end of the input (and one or two more). -/
theorem parse_fuel_enough (f : Nat) :
    (∀ j, 3 * (j.jsonLen - j.cursor) + 1 ≤ f → parseValue f j ≠ .outOfFuel) ∧
    (∀ j, j.cursor < j.jsonLen → 3 * (j.jsonLen - j.cursor) ≤ f →
      parseList f j ≠ .outOfFuel) ∧
    (∀ j key ev l cl, 3 * (j.jsonLen - j.cursor) + 2 ≤ f →
      parseListLoop f j key ev l cl ≠ .outOfFuel) ∧
    (∀ j, j.cursor < j.jsonLen → 3 * (j.jsonLen - j.cursor) ≤ f →
      parseObject f j ≠ .outOfFuel) ∧
    (∀ j c ei m, 3 * (j.jsonLen - j.cursor) + 2 ≤ f →
      parseObjectLoop f j c ei m ≠ .outOfFuel) := by
  induction f with
  | zero =>
    refine ⟨?_, ?_, ?_, ?_, ?_⟩ <;> intros <;> omega
  | succ f ih =>
    obtain ⟨ihV, ihL, ihLL, ihO, ihOL⟩ := ih
    refine ⟨?_, ?_, ?_, ?_, ?_⟩
    · intro j hf
      rw [parseValue_succ]
      obtain ⟨s1, s2⟩ := skipWhitespaces_fuel j
      split
      · rename_i hlt
        split
        · simp
        · apply Res.bind_ne_outOfFuel _ (fun _ _ => by simp)
          repeat' split
          · exact parseNumber_ne_outOfFuel _
          · exact Res.bind_ne_outOfFuel (parseString_ne_outOfFuel _) (fun _ _ => by simp)
          · exact parseTrue_ne_outOfFuel _
          · exact parseFalse_ne_outOfFuel _
          · exact parseNull_ne_outOfFuel _
          · exact ihL _ hlt (by omega)
          · exact ihO _ hlt (by omega)
          · simp
      · simp
    · intro j hlt hf
      rw [parseList_succ]
      apply ihLL
      obtain ⟨s1, s2⟩ := skipWhitespaces_fuel { j with cursor := j.cursor + 1 }
      simp only [Json.jsonLen] at s1 s2 hlt hf ⊢
      rw [s1]
      omega
    · intro j key ev l cl hf
      rw [parseListLoop_succ]
      split
      · rename_i hlt
        split
        · simp
        · repeat' split
          · simp
          · apply ihLL
            simp only [Json.jsonLen] at hlt hf ⊢
            omega
          · simp
          · simp
          · simp
          · apply Res.bind_ne_outOfFuel (ihV _ (by omega))
            intro p hp
            apply Res.bind_ne_outOfFuel (pushListItem_ne_outOfFuel _ _ _ _ _)
            intro q _
            apply ihLL
            obtain ⟨a1, a2, a3⟩ := ((parse_advanced f).1 _ _ hp).fuel
            omega
      · simp
    · intro j hlt hf
      rw [parseObject_succ]
      apply ihOL
      obtain ⟨s1, s2⟩ := skipWhitespaces_fuel { j with cursor := j.cursor + 1 }
      simp only [Json.jsonLen] at s1 s2 hlt hf ⊢
      rw [s1]
      omega
    · intro j c ei m hf
      rw [parseObjectLoop_succ]
      split
      · rename_i hlt
        split
        · simp
        · repeat' split
          · apply Res.bind_ne_outOfFuel (parseString_ne_outOfFuel _)
            intro k hk
            obtain ⟨a1, a2, a3⟩ := (Advanced.of_string hk).skip.fuel
            repeat' split
            · simp
            · simp
            · simp
            · apply Res.bind_ne_outOfFuel (ihV _ (by simp only [Json.jsonLen] at *; omega))
              intro p hp
              apply Res.bind_ne_outOfFuel (pushObjectItem_ne_outOfFuel _ _ _ _)
              intro q _
              apply ihOL
              obtain ⟨b1, b2, b3⟩ := ((parse_advanced f).1 _ _ hp).fuel
              simp only [Json.jsonLen] at *
              omega
          · simp
          · apply ihOL
            obtain ⟨s1, s2⟩ := skipWhitespaces_fuel { j with cursor := j.cursor + 1 }
            simp only [Json.jsonLen] at s1 s2 hlt hf ⊢
            rw [s1]
            omega
          · simp
          · simp
          · simp
      · simp

/-- Results do not depend on surplus fuel. -/
theorem parseValue_fuel_mono {f f2 : Nat} {j : Json} (h : parseValue f j ≠ .outOfFuel)
    (hle : f ≤ f2) : parseValue f2 j = parseValue f j := by
  induction f2 with
  | zero =>
    have : f = 0 := by omega
    subst this; rfl
  | succ n ih =>
    by_cases hn : f ≤ n
    · have e := ih hn
      rw [← e]
      exact (parse_fuel_succ n).1 j (by rw [e]; exact h)
    · have : f = n + 1 := by omega
      subst this; rfl

theorem parseListLoop_fuel_mono {f f2 : Nat} {j : Json} {key : Nat} {ev : Bool}
    {l : List Value} {cl : Value} (h : parseListLoop f j key ev l cl ≠ .outOfFuel)
    (hle : f ≤ f2) : parseListLoop f2 j key ev l cl = parseListLoop f j key ev l cl := by
  induction f2 with
  | zero =>
    have : f = 0 := by omega
    subst this; rfl
  | succ n ih =>
    by_cases hn : f ≤ n
    · have e := ih hn
      rw [← e]
      exact (parse_fuel_succ n).2.2.1 j key ev l cl (by rw [e]; exact h)
    · have : f = n + 1 := by omega
      subst this; rfl

theorem parseObjectLoop_fuel_mono {f f2 : Nat} {j : Json} {c : Nat} {ei : Bool}
    {m : Value} (h : parseObjectLoop f j c ei m ≠ .outOfFuel)
    (hle : f ≤ f2) : parseObjectLoop f2 j c ei m = parseObjectLoop f j c ei m := by
  induction f2 with
  | zero =>
    have : f = 0 := by omega
    subst this; rfl
  | succ n ih =>
    by_cases hn : f ≤ n
    · have e := ih hn
      rw [← e]
      exact (parse_fuel_succ n).2.2.2.2 j c ei m (by rw [e]; exact h)
    · have : f = n + 1 := by omega
      subst this; rfl

/-- The fuel `Decode` supplies is enough for every input. -/
theorem parseValue_fuel_enough (j : Json) : parseValue (decodeFuel j) j ≠ .outOfFuel := by
  apply (parse_fuel_enough _).1
  unfold decodeFuel
  have : j.jsonLen - j.cursor ≤ j.jsonLen := Nat.sub_le _ _
  omega

/-- Any two amounts of fuel that do not run out give the same result. -/
theorem parseValue_fuel_indep {f f2 : Nat} {j : Json} (h : parseValue f j ≠ .outOfFuel)
    (h2 : parseValue f2 j ≠ .outOfFuel) : parseValue f2 j = parseValue f j := by
  rcases Nat.le_total f f2 with hle | hle
  · exact parseValue_fuel_mono h hle
  · exact (parseValue_fuel_mono h2 hle).symm

theorem parseValue_decodeFuel {f : Nat} {j : Json} {p : Value × Json}
    (h : parseValue f j = .ok p) : parseValue (decodeFuel j) j = .ok p := by
  rw [parseValue_fuel_indep (by rw [h]; simp) (parseValue_fuel_enough j), h]

/-- `Decode` is total: it never runs out of fuel. -/
theorem Decode_ne_outOfFuel (j : Json) : Decode j ≠ .outOfFuel := by
  unfold Decode
  apply Res.bind_ne_outOfFuel (parseValue_fuel_enough j)
  intro p _
  split <;> simp

theorem wsLen_append_cons {ws : List Nat} (hws : ∀ b ∈ ws, isWhitespace b = true) {c : Nat}
    (hc : isWhitespace c = false) (rest : List Nat) : wsLen (ws ++ c :: rest) = ws.length := by
  induction ws with
  | nil => simp [wsLen, List.takeWhile_cons, hc]
  | cons a ws ih =>
    have ha : isWhitespace a = true := hws a (by simp)
    have := ih (fun b hb => hws b (by simp [hb]))
    simp only [wsLen] at this ⊢
    simp [List.takeWhile_cons, ha, this]

theorem wsLen_all {ws : List Nat} (hws : ∀ b ∈ ws, isWhitespace b = true) :
    wsLen ws = ws.length := by
  induction ws with
  | nil => rfl
  | cons a ws ih =>
    have ha : isWhitespace a = true := hws a (by simp)
    have := ih (fun b hb => hws b (by simp [hb]))
    simp only [wsLen] at this ⊢
    simp [List.takeWhile_cons, ha, this]

/-! ## The claims -/

/-- C1 (defect of the code): `Decode` does not always return a value or a syntax error.  On an
input that ends inside a number (`1e+`, `-`), inside an escape sequence (a string ending in a
backslash) or right after a surrogate escape (`"\ud83e`), the decoder reads the input outside
its bounds and stops with a runtime panic. -/
theorem C1_decode_panics_on_truncated_input :
    Decode (Bytes (ascii "1e+")) = .panic ∧ Decode (Bytes (ascii "-")) = .panic ∧
    Decode (Bytes (ascii "\"\\")) = .panic ∧ Decode (Bytes (ascii "\"\\ud83e")) = .panic ∧
    Decode (Bytes (ascii "[1e-")) = .panic := by
  decide!

/-- C4: when the dispatcher parses one value `v` from the decoder `j` and stops, trailing
whitespace skipped, at offset `c` (the cursor of `j2`): if `c` is the input length, `Decode`
returns `v`, and if `c` is smaller, `Decode` returns a syntax error at offset `c`. -/
theorem C4_decode_after_value (j : Json) (fuel : Nat) (v : Value) (j2 : Json)
    (h : parseValue fuel j = .ok (v, j2)) :
    (j2.cursor = j.jsonLen → Decode j = .ok v) ∧
    (j2.cursor < j.jsonLen → Decode j = .syntaxError j2.cursor) := by
  have hd := parseValue_decodeFuel h
  obtain ⟨e, _, _⟩ := ((parse_advanced fuel).1 _ _ h).fuel
  simp only [] at e
  unfold Decode
  rw [hd]
  simp only [Res.bind_ok, e]
  constructor
  · intro hc
    simp [hc]
  · intro hc
    have : ¬ j2.cursor ≥ j.jsonLen := by omega
    simp [this]

/-- C4, at the inputs `{}{}` (a value, then a syntax error at 2), `true false` (error at 5)
and `true` followed by a blank (the value is returned). -/
theorem C4_decode_after_value_witness :
    (parseValue 13 (Bytes (ascii "\x7b\x7d\x7b\x7d")) =
        .ok (.object [], { Bytes (ascii "\x7b\x7d\x7b\x7d") with cursor := 2 }) ∧
      Decode (Bytes (ascii "\x7b\x7d\x7b\x7d")) = .syntaxError 2) ∧
    (parseValue 1 (Bytes (ascii "true false")) =
        .ok (.bool true, { Bytes (ascii "true false") with cursor := 5 }) ∧
      Decode (Bytes (ascii "true false")) = .syntaxError 5) ∧
    (parseValue 1 (Bytes (ascii "true ")) =
        .ok (.bool true, { Bytes (ascii "true ") with cursor := 5 }) ∧
      Decode (Bytes (ascii "true ")) = .ok (.bool true)) :=
  ⟨⟨rfl, (C4_decode_after_value (Bytes (ascii "\x7b\x7d\x7b\x7d")) 13 (.object [])
      { Bytes (ascii "\x7b\x7d\x7b\x7d") with cursor := 2 } rfl).2 (by decide)⟩,
    ⟨rfl, (C4_decode_after_value (Bytes (ascii "true false")) 1 (.bool true)
      { Bytes (ascii "true false") with cursor := 5 } rfl).2 (by decide)⟩,
    ⟨rfl, (C4_decode_after_value (Bytes (ascii "true ")) 1 (.bool true)
      { Bytes (ascii "true ") with cursor := 5 } rfl).1 (by decide)⟩⟩

/-- C5 (defect of the code): after a completed item the decoder accepts the first byte of a
further item where only `,` or the closer should be accepted: `[1 2]`, `[true false]` and
an object with two members and no comma between them decode without an error. -/
theorem C5_missing_comma_is_accepted :
    Decode (Bytes (ascii "[1 2]")) = .ok (.list [.number (ascii "1"), .number (ascii "2")]) ∧
    Decode (Bytes (ascii "[true false]")) = .ok (.list [.bool true, .bool false]) ∧
    Decode (Bytes (ascii "\x7b\"a\":1 \"b\":2\x7d")) =
      .ok (.object [(ascii "a", .number (ascii "1")), (ascii "b", .number (ascii "2"))]) := by
  decide!

/-- C9: for a decoder at cursor 0 whose input is whitespace `ws` followed by a byte `c` that
is not whitespace, not a digit and none of `-`, `"`, `t`, `f`, `n`, `[`, `{`, `Decode` returns
a syntax error at the offset of `c`; and when the input is only whitespace (or empty),
`Decode` returns a syntax error at the input length. -/
theorem C9_no_value_start (j : Json) (ws : List Nat) (hcur : j.cursor = 0)
    (hws : ∀ b ∈ ws, isWhitespace b = true) :
    (∀ c rest, j.json = ws ++ c :: rest → isWhitespace c = false → isDigit c = false →
      c ≠ 45 → c ≠ 34 → c ≠ 116 → c ≠ 102 → c ≠ 110 → c ≠ 91 → c ≠ 123 →
      Decode j = .syntaxError ws.length) ∧
    (j.json = ws → Decode j = .syntaxError j.json.length) := by
  constructor
  · intro c rest hj hw hd h1 h2 h3 h4 h5 h6 h7
    have hget : (ws ++ c :: rest)[ws.length]? = some c := by
      rw [List.getElem?_append_right (Nat.le_refl _)]; simp
    have hlen : ws.length < (ws ++ c :: rest).length := by simp
    unfold Decode decodeFuel
    rw [parseValue_succ, skipWhitespaces_eq]
    simp only [hcur, List.drop_zero, hj, wsLen_append_cons hws hw, Nat.zero_add, Json.jsonLen,
      hget, hlen, if_true]
    simp [hd, h1, h2, h3, h4, h5, h6, h7]
  · intro hj
    unfold Decode decodeFuel
    rw [parseValue_succ, skipWhitespaces_eq]
    simp only [hcur, List.drop_zero, hj, wsLen_all hws, Nat.zero_add, Json.jsonLen]
    simp

/-- C9, at the inputs `  asd` (error at 2) and the empty input (error at 0). -/
theorem C9_no_value_start_witness :
    Decode (Bytes (ascii "  asd")) = .syntaxError 2 ∧ Decode (Bytes []) = .syntaxError 0 :=
  ⟨(C9_no_value_start (Bytes (ascii "  asd")) (ascii "  ") rfl (by decide)).1 97 (ascii "sd")
      rfl (by decide) (by decide) (by decide) (by decide) (by decide) (by decide) (by decide)
      (by decide) (by decide),
    (C9_no_value_start (Bytes []) [] rfl (by decide)).2 rfl⟩

/-- C10 (defect of the code): a `-` that is the last byte of the input is not reported as a
syntax error at its offset: the number lexer reads the byte after it, outside the input, and
the decoder panics (at top level, after whitespace, and inside a list). -/
theorem C10_trailing_minus_panics :
    Decode (Bytes (ascii "-")) = .panic ∧ Decode (Bytes (ascii " -")) = .panic ∧
    Decode (Bytes (ascii "[1,-")) = .panic := by
  decide!

theorem lt_of_getElem? {l : List Nat} {i c : Nat} (h : l[i]? = some c) : i < l.length :=
  (List.getElem?_eq_some_iff.mp h).1

/-- A syntax error (or panic) of a call made while another call runs is the outcome of that
call: errors propagate unchanged to the caller. -/
theorem Invokes.error_up {a b : Call} (h : Invokes a b) {r : Res (Value × Json)}
    (hb : b.result = r) (hr : ∀ p, r ≠ .ok p) : a.result = r := by
  cases h with
  | value_list fuel j hc =>
    simp only [Call.result] at hb ⊢
    have hlt : (skipWhitespaces j).cursor < (skipWhitespaces j).jsonLen := lt_of_getElem? hc
    rw [parseValue_succ]
    simp only [hlt, if_true, hc, hb]
    have : isDigit 91 = false := by decide
    simp [this]
    cases r <;> simp_all
  | value_object fuel j hc =>
    simp only [Call.result] at hb ⊢
    have hlt : (skipWhitespaces j).cursor < (skipWhitespaces j).jsonLen := lt_of_getElem? hc
    rw [parseValue_succ]
    simp only [hlt, if_true, hc, hb]
    have : isDigit 123 = false := by decide
    simp [this]
    cases r <;> simp_all
  | list_loop fuel j =>
    simp only [Call.result] at hb ⊢
    rw [parseList_succ]; exact hb
  | listLoop_comma fuel j key l cl hc hk =>
    simp only [Call.result] at hb ⊢
    have hlt : j.cursor < j.jsonLen := lt_of_getElem? hc
    rw [parseListLoop_succ]
    simp [hlt, hc, hk, hb]
  | listLoop_item fuel j key ev l cl c hc h1 h2 =>
    simp only [Call.result] at hb ⊢
    have hlt : j.cursor < j.jsonLen := lt_of_getElem? hc
    rw [parseListLoop_succ]
    simp only [hlt, if_true, hc, h1, h2, if_false, hb]
    cases r <;> simp_all
  | listLoop_next fuel j key ev l cl c p q hc h1 h2 hp hq =>
    simp only [Call.result] at hb ⊢
    have hlt : j.cursor < j.jsonLen := lt_of_getElem? hc
    rw [parseListLoop_succ]
    simp only [hlt, if_true, hc, h1, h2, if_false, hp, Res.bind_ok, hq, hb]
  | object_loop fuel j =>
    simp only [Call.result] at hb ⊢
    rw [parseObject_succ]; exact hb
  | objectLoop_value fuel j counter ei m k hc hk hcolon =>
    simp only [Call.result] at hb ⊢
    have hlt : j.cursor < j.jsonLen := lt_of_getElem? hc
    have hlt2 : (skipWhitespaces k.2).cursor < (skipWhitespaces k.2).jsonLen :=
      lt_of_getElem? hcolon
    have hlt3 : ¬ (skipWhitespaces k.2).cursor ≥ (skipWhitespaces k.2).jsonLen := by omega
    rw [parseObjectLoop_succ]
    simp only [hlt, if_true, hc, hk, Res.bind_ok, hlt3, if_false, hcolon, hb]
    cases r <;> simp_all
  | objectLoop_next fuel j counter ei m k p m2 hc hk hcolon hp hm =>
    simp only [Call.result] at hb ⊢
    have hlt : j.cursor < j.jsonLen := lt_of_getElem? hc
    have hlt2 : (skipWhitespaces k.2).cursor < (skipWhitespaces k.2).jsonLen :=
      lt_of_getElem? hcolon
    have hlt3 : ¬ (skipWhitespaces k.2).cursor ≥ (skipWhitespaces k.2).jsonLen := by omega
    rw [parseObjectLoop_succ]
    simp only [hlt, if_true, hc, hk, Res.bind_ok, hlt3, if_false, hcolon, hp, hm, hb]
    simp
  | objectLoop_comma fuel j counter m hc hk =>
    simp only [Call.result] at hb ⊢
    have hlt : j.cursor < j.jsonLen := lt_of_getElem? hc
    rw [parseObjectLoop_succ]
    simp [hlt, hc, hk, hb]

theorem Reaches.error_to_top {a b : Call} (h : Reaches a b) {r : Res (Value × Json)}
    (hb : b.result = r) (hr : ∀ p, r ≠ .ok p) : a.result = r := by
  induction h with
  | refl => exact hb
  | step _ hinv ih => exact ih (hinv.error_up hb hr)

/-- A syntax error of any call that occurs while decoding is what `Decode` returns. -/
theorem Decode_of_reached_error {j : Json} {b : Call} (h : Reaches (Decode.call j) b)
    {pos : Nat} (hb : b.result = .syntaxError pos) : Decode j = .syntaxError pos := by
  have := h.error_to_top hb (by simp)
  simp only [Decode.call, Call.result] at this
  unfold Decode
  rw [this]; rfl

theorem Advanced.json {j j2 : Json} (h : Advanced j j2) : j2.json = j.json := by
  obtain ⟨c, b, e, _⟩ := h
  subst e; rfl

theorem skipWhitespaces_json (j : Json) : (skipWhitespaces j).json = j.json := by
  rw [skipWhitespaces_eq]

theorem Invokes.same_json {a b : Call} (h : Invokes a b) : b.state.json = a.state.json := by
  cases h with
  | value_list fuel j hc => exact skipWhitespaces_json j
  | value_object fuel j hc => exact skipWhitespaces_json j
  | list_loop fuel j => exact skipWhitespaces_json _
  | listLoop_comma fuel j key l cl hc hk => rfl
  | listLoop_item fuel j key ev l cl c hc h1 h2 => rfl
  | listLoop_next fuel j key ev l cl c p q hc h1 h2 hp hq =>
    exact ((parse_advanced fuel).1 _ _ hp).json
  | object_loop fuel j => exact skipWhitespaces_json _
  | objectLoop_value fuel j counter ei m k hc hk hcolon =>
    exact (Advanced.of_string hk).skip.json
  | objectLoop_next fuel j counter ei m k p m2 hc hk hcolon hp hm =>
    have a1 := (Advanced.of_string hk).skip
    have a2 := (parse_advanced fuel).1 _ _ hp
    simp only [Call.state]
    rw [a2.json]
    exact a1.json
  | objectLoop_comma fuel j counter m hc hk => exact skipWhitespaces_json _

theorem Reaches.same_input {a b : Call} (h : Reaches a b) : b.state.json = a.state.json := by
  induction h with
  | refl => rfl
  | step _ hinv ih => rw [hinv.same_json, ih]

theorem Invokes.keeps_fuelOk {a b : Call} (h : Invokes a b) (ha : a.fuelOk) : b.fuelOk := by
  cases h with
  | value_list fuel j hc =>
    have hlt := lt_of_getElem? hc
    obtain ⟨s1, s2⟩ := skipWhitespaces_fuel j
    simp only [Call.fuelOk] at ha ⊢
    refine ⟨hlt, ?_⟩
    rw [s1]; omega
  | value_object fuel j hc =>
    have hlt := lt_of_getElem? hc
    obtain ⟨s1, s2⟩ := skipWhitespaces_fuel j
    simp only [Call.fuelOk] at ha ⊢
    refine ⟨hlt, ?_⟩
    rw [s1]; omega
  | list_loop fuel j =>
    obtain ⟨s1, s2⟩ := skipWhitespaces_fuel { j with cursor := j.cursor + 1 }
    simp only [Call.fuelOk] at ha ⊢
    simp only [Json.jsonLen] at s1 s2 ha ⊢
    rw [s1]; omega
  | listLoop_comma fuel j key l cl hc hk =>
    have hlt := lt_of_getElem? hc
    simp only [Call.fuelOk, Json.jsonLen] at ha ⊢
    omega
  | listLoop_item fuel j key ev l cl c hc h1 h2 =>
    simp only [Call.fuelOk] at ha ⊢
    omega
  | listLoop_next fuel j key ev l cl c p q hc h1 h2 hp hq =>
    obtain ⟨a1, a2, a3⟩ := ((parse_advanced fuel).1 _ _ hp).fuel
    simp only [Call.fuelOk] at ha ⊢
    omega
  | object_loop fuel j =>
    obtain ⟨s1, s2⟩ := skipWhitespaces_fuel { j with cursor := j.cursor + 1 }
    simp only [Call.fuelOk] at ha ⊢
    simp only [Json.jsonLen] at s1 s2 ha ⊢
    rw [s1]; omega
  | objectLoop_value fuel j counter ei m k hc hk hcolon =>
    obtain ⟨a1, a2, a3⟩ := (Advanced.of_string hk).skip.fuel
    simp only [Call.fuelOk, Json.jsonLen] at ha a1 a2 a3 ⊢
    omega
  | objectLoop_next fuel j counter ei m k p m2 hc hk hcolon hp hm =>
    obtain ⟨a1, a2, a3⟩ := (Advanced.of_string hk).skip.fuel
    obtain ⟨b1, b2, b3⟩ := ((parse_advanced fuel).1 _ _ hp).fuel
    simp only [Call.fuelOk, Json.jsonLen] at ha a1 a2 a3 b1 b2 b3 ⊢
    omega
  | objectLoop_comma fuel j counter m hc hk =>
    have hlt := lt_of_getElem? hc
    obtain ⟨s1, s2⟩ := skipWhitespaces_fuel { j with cursor := j.cursor + 1 }
    simp only [Call.fuelOk] at ha ⊢
    simp only [Json.jsonLen] at s1 s2 ha hlt ⊢
    rw [s1]; omega

theorem Reaches.has_fuelOk {a b : Call} (h : Reaches a b) (ha : a.fuelOk) : b.fuelOk := by
  induction h with
  | refl => exact ha
  | step _ hinv ih => exact hinv.keeps_fuelOk ih

theorem Decode.call_fuelOk (j : Json) : (Decode.call j).fuelOk := by
  simp only [Decode.call, Call.fuelOk, decodeFuel]
  have : j.jsonLen - j.cursor ≤ j.jsonLen := Nat.sub_le _ _
  omega

theorem wsLen_takeWhile_drop (l : List Nat) : wsLen (l.drop (wsLen l)) = 0 := by
  induction l with
  | nil => rfl
  | cons a l ih =>
    by_cases ha : isWhitespace a = true
    · have : wsLen (a :: l) = wsLen l + 1 := by simp [wsLen, List.takeWhile_cons, ha]
      rw [this]; simpa using ih
    · have : wsLen (a :: l) = 0 := by simp [wsLen, List.takeWhile_cons, ha]
      rw [this]; simpa using this

theorem skipWhitespaces_skipped (j : Json) :
    wsLen ((skipWhitespaces j).json.drop (skipWhitespaces j).cursor) = 0 := by
  rw [skipWhitespaces_eq]
  simp only []
  rw [← List.drop_drop]
  exact wsLen_takeWhile_drop _

theorem parseValue_skipped {f : Nat} {j : Json} {p : Value × Json}
    (h : parseValue f j = .ok p) : wsLen (p.2.json.drop p.2.cursor) = 0 := by
  cases f with
  | zero => cases h
  | succ f =>
    rw [parseValue_succ] at h
    split at h
    · split at h
      · cases h
      · obtain ⟨q, _, h⟩ := Res.bind_eq_ok.mp h
        simp at h; subst h
        exact skipWhitespaces_skipped _
    · cases h

theorem Invokes.target_skipped {a b : Call} (h : Invokes a b) : b.skipped := by
  cases h with
  | object_loop fuel j => exact skipWhitespaces_skipped _
  | objectLoop_next fuel j counter ei m k p m2 hc hk hcolon hp hm => exact parseValue_skipped hp
  | objectLoop_comma fuel j counter m hc hk => exact skipWhitespaces_skipped _
  | _ => trivial

theorem Reaches.is_skipped {a b : Call} (h : Reaches a b) (ha : a.skipped) : b.skipped := by
  cases h with
  | refl => exact ha
  | step _ hinv => exact hinv.target_skipped

theorem wsLen_cons_pos {a : Nat} (l : List Nat) (ha : isWhitespace a = true) :
    wsLen (a :: l) = wsLen l + 1 := by
  simp [wsLen, List.takeWhile_cons, ha]

theorem wsLen_cons_neg {a : Nat} (l : List Nat) (ha : isWhitespace a = false) :
    wsLen (a :: l) = 0 := by
  simp [wsLen, List.takeWhile_cons, ha]

theorem drop_of_getElem? {l : List Nat} {i c : Nat} (h : l[i]? = some c) :
    l.drop i = c :: l.drop (i + 1) := by
  obtain ⟨hlt, he⟩ := List.getElem?_eq_some_iff.mp h
  rw [List.drop_eq_getElem_cons hlt, he]

theorem wsLen_of_onlyWhitespace {json : List Nat} {a p c : Nat} (hap : a ≤ p)
    (hws : OnlyWhitespace json a p) (hc : json[p]? = some c) (hn : isWhitespace c = false) :
    wsLen (json.drop a) = p - a := by
  obtain ⟨k, rfl⟩ : ∃ k, p = a + k := ⟨p - a, by omega⟩
  induction k generalizing a with
  | zero =>
    simp only [Nat.add_zero] at hc
    rw [drop_of_getElem? hc, wsLen_cons_neg _ hn]; simp
  | succ k ih =>
    obtain ⟨w, hw, hww⟩ := hws a (Nat.le_refl _) (by omega)
    rw [drop_of_getElem? hw, wsLen_cons_pos _ hww]
    have := @ih (a + 1) (by omega) (fun i h1 h2 => hws i (by omega) (by omega))
      (by rw [← hc]; congr 1; omega)
    rw [this]; omega

/-- The dispatcher at a byte that starts no value: a syntax error at that byte. -/
theorem parseValue_no_start {f : Nat} {j : Json} {p c : Nat} (hp : j.cursor ≤ p)
    (hws : OnlyWhitespace j.json j.cursor p) (hc : j.json[p]? = some c)
    (hw : isWhitespace c = false) (hd : isDigit c = false) (h1 : c ≠ 45) (h2 : c ≠ 34)
    (h3 : c ≠ 116) (h4 : c ≠ 102) (h5 : c ≠ 110) (h6 : c ≠ 91) (h7 : c ≠ 123) :
    parseValue (f + 1) j = .syntaxError p := by
  have hlt : p < j.jsonLen := lt_of_getElem? hc
  rw [parseValue_succ, skipWhitespaces_eq]
  have e : j.cursor + wsLen (j.json.drop j.cursor) = p := by
    rw [wsLen_of_onlyWhitespace hp hws hc hw]; omega
  simp only [e, Json.jsonLen] at hlt ⊢
  simp only [hlt, if_true, hc]
  simp [hd, h1, h2, h3, h4, h5, h6, h7]

theorem comma_or_bracket_no_start {c : Nat} (h : c = 44 ∨ c = 93) :
    isWhitespace c = false ∧ isDigit c = false ∧ c ≠ 45 ∧ c ≠ 34 ∧ c ≠ 116 ∧ c ≠ 102 ∧
      c ≠ 110 ∧ c ≠ 91 ∧ c ≠ 123 := by
  rcases h with rfl | rfl <;> decide

/-- C6: while a list or an object is parsed, a `,` met (after optional whitespace) before any
item of that container or directly after another `,`, and a closer `]` or `}` met directly
after a `,`, make `Decode` return a syntax error at the offset `p` of that byte.  The
container being parsed is a loop iteration `b` that occurs while `Decode` runs, with its
locals: `key`/`counter` count the items parsed so far, `expectValue`/`expectItem` is true
exactly after a `,`. -/
theorem C6_misplaced_comma_or_closer (j0 : Json) (b : Call)
    (hreach : Reaches (Decode.call j0) b) (p : Nat) (hp : b.state.cursor ≤ p)
    (hws : OnlyWhitespace j0.json b.state.cursor p) :
    (∀ fuel j key ev l cl, b = .listLoop fuel j key ev l cl →
      ((j0.json[p]? = some 44 ∧ (key = 0 ∨ ev = true)) ∨ (j0.json[p]? = some 93 ∧ ev = true)) →
      Decode j0 = .syntaxError p) ∧
    (∀ fuel j counter ei m, b = .objectLoop fuel j counter ei m →
      ((j0.json[p]? = some 44 ∧ (counter = 0 ∨ ei = true)) ∨
        (j0.json[p]? = some 125 ∧ ei = true)) →
      Decode j0 = .syntaxError p) := by
  have hjson := hreach.same_input
  have hfuel := hreach.has_fuelOk (Decode.call_fuelOk j0)
  have hskip := hreach.is_skipped trivial
  simp only [Decode.call, Call.state] at hjson
  constructor
  · intro fuel j key ev l cl hb hcase
    subst hb
    simp only [Call.state] at hjson hp hws
    simp only [Call.fuelOk] at hfuel
    rw [← hjson] at hws hcase
    apply Decode_of_reached_error hreach
    simp only [Call.result]
    obtain ⟨f, rfl⟩ : ∃ f, fuel = f + 2 := ⟨fuel - 2, by omega⟩
    obtain ⟨c, hc, hcc⟩ : ∃ c, j.json[p]? = some c ∧ (c = 44 ∨ c = 93) := by
      rcases hcase with ⟨h, _⟩ | ⟨h, _⟩
      · exact ⟨44, h, Or.inl rfl⟩
      · exact ⟨93, h, Or.inr rfl⟩
    have hplt : p < j.jsonLen := lt_of_getElem? hc
    rcases Nat.eq_or_lt_of_le hp with heq | hlt
    · subst heq
      rw [parseListLoop_succ]
      simp only [hplt, if_true]
      rcases hcase with ⟨h, hk⟩ | ⟨h, hk⟩
      · simp [h, hk]
      · simp [h, hk]
    · obtain ⟨w, hw, hww⟩ := hws j.cursor (Nat.le_refl _) hlt
      have hcl : j.cursor < j.jsonLen := lt_of_getElem? hw
      have hw1 : w ≠ 44 := by rintro rfl; simp [isWhitespace] at hww
      have hw2 : w ≠ 93 := by rintro rfl; simp [isWhitespace] at hww
      obtain ⟨n1, n2, n3, n4, n5, n6, n7, n8, n9⟩ := comma_or_bracket_no_start hcc
      rw [parseListLoop_succ]
      simp only [hcl, if_true, hw, hw1, hw2, if_false]
      rw [parseValue_no_start (Nat.le_of_lt hlt) hws hc n1 n2 n3 n4 n5 n6 n7 n8 n9]
      rfl
  · intro fuel j counter ei m hb hcase
    subst hb
    simp only [Call.state] at hjson hp hws
    simp only [Call.fuelOk] at hfuel
    simp only [Call.skipped] at hskip
    rw [← hjson] at hws hcase
    apply Decode_of_reached_error hreach
    simp only [Call.result]
    obtain ⟨f, rfl⟩ : ∃ f, fuel = f + 1 := ⟨fuel - 1, by omega⟩
    have heq : j.cursor = p := by
      rcases Nat.eq_or_lt_of_le hp with heq | hlt
      · exact heq
      · obtain ⟨w, hw, hww⟩ := hws j.cursor (Nat.le_refl _) hlt
        rw [drop_of_getElem? hw, wsLen_cons_pos _ hww] at hskip
        omega
    subst heq
    have hcl : j.cursor < j.jsonLen := by
      rcases hcase with ⟨h, _⟩ | ⟨h, _⟩ <;> exact lt_of_getElem? h
    rw [parseObjectLoop_succ]
    simp only [hcl, if_true]
    rcases hcase with ⟨h, hk⟩ | ⟨h, hk⟩
    · simp [h, hk]
    · simp [h, hk]

/-- C6, at the input `[1, ]` (the `]` after the `,` and a blank: error at 4) and at an object
with a `}` directly after a `,` (error at 7): the loop iterations named are reached while
`Decode` runs, and `Decode` returns the syntax errors. -/
theorem C6_misplaced_comma_or_closer_witness :
    (Reaches (Decode.call (Bytes (ascii "[1, ]")))
        (.listLoop 12 { Bytes (ascii "[1, ]") with cursor := 3 } 1 true
          [.number (ascii "1")] .null) ∧
      Decode (Bytes (ascii "[1, ]")) = .syntaxError 4) ∧
    (Reaches (Decode.call (Bytes (ascii "\x7b\"a\":1,\x7d")))
        (.objectLoop 21 { Bytes (ascii "\x7b\"a\":1,\x7d") with cursor := 7 } 1 true
          (.object [(ascii "a", .number (ascii "1"))])) ∧
      Decode (Bytes (ascii "\x7b\"a\":1,\x7d")) = .syntaxError 7) := by
  have r1 : Reaches (Decode.call (Bytes (ascii "[1, ]")))
      (.listLoop 12 { Bytes (ascii "[1, ]") with cursor := 3 } 1 true
        [.number (ascii "1")] .null) :=
    Reaches.step
      (Reaches.step
        (Reaches.step
          (Reaches.step (Reaches.refl _) (Invokes.value_list 15 (Bytes (ascii "[1, ]")) rfl))
          (Invokes.list_loop 14 _))
        (Invokes.listLoop_next 13 { Bytes (ascii "[1, ]") with cursor := 1 } 0 false [] .null 49
          (.number (ascii "1"), { Bytes (ascii "[1, ]") with cursor := 2 })
          ([.number (ascii "1")], .null) rfl (by decide) (by decide) rfl rfl))
      (Invokes.listLoop_comma 12 { Bytes (ascii "[1, ]") with cursor := 2 } 1
        [.number (ascii "1")] .null rfl (by decide))
  have r2 : Reaches (Decode.call (Bytes (ascii "\x7b\"a\":1,\x7d")))
      (.objectLoop 21 { Bytes (ascii "\x7b\"a\":1,\x7d") with cursor := 7 } 1 true
        (.object [(ascii "a", .number (ascii "1"))])) :=
    Reaches.step
      (Reaches.step
        (Reaches.step
          (Reaches.step (Reaches.refl _)
            (Invokes.value_object 24 (Bytes (ascii "\x7b\"a\":1,\x7d")) rfl))
          (Invokes.object_loop 23 _))
        (Invokes.objectLoop_next 22 { Bytes (ascii "\x7b\"a\":1,\x7d") with cursor := 1 } 0 false
          (.object [])
          (ascii "a", { Bytes (ascii "\x7b\"a\":1,\x7d") with cursor := 4 })
          (.number (ascii "1"), { Bytes (ascii "\x7b\"a\":1,\x7d") with cursor := 6 })
          (.object [(ascii "a", .number (ascii "1"))]) rfl rfl rfl rfl rfl))
      (Invokes.objectLoop_comma 21 { Bytes (ascii "\x7b\"a\":1,\x7d") with cursor := 6 } 1
        (.object [(ascii "a", .number (ascii "1"))]) rfl (by decide))
  refine ⟨⟨r1, ?_⟩, ⟨r2, ?_⟩⟩
  · exact (C6_misplaced_comma_or_closer (Bytes (ascii "[1, ]")) _ r1 4 (by decide)
      (fun i h1 h2 => by
        have : i = 3 := by simp only [Call.state] at h1; omega
        subst this; exact ⟨32, rfl, rfl⟩)).1 _ _ _ _ _ _ rfl (Or.inr ⟨rfl, rfl⟩)
  · exact (C6_misplaced_comma_or_closer (Bytes (ascii "\x7b\"a\":1,\x7d")) _ r2 7 (by decide)
      (fun i h1 h2 => by simp only [Call.state] at h1; omega)).2 _ _ _ _ _ rfl
        (Or.inr ⟨rfl, rfl⟩)

theorem skipWhitespaces_idem (j : Json) :
    skipWhitespaces (skipWhitespaces j) = skipWhitespaces j := by
  have h := skipWhitespaces_skipped j
  rw [skipWhitespaces_eq (skipWhitespaces j), h]
  rfl

theorem parseValue_skip (f : Nat) (j : Json) :
    parseValue f (skipWhitespaces j) = parseValue f j := by
  cases f with
  | zero => rfl
  | succ f => rw [parseValue_succ, parseValue_succ, skipWhitespaces_idem]

theorem skipWhitespaces_of_not_ws {j : Json} {b : Nat} (hb : j.json[j.cursor]? = some b)
    (hw : isWhitespace b = false) : skipWhitespaces j = j := by
  rw [skipWhitespaces_eq, drop_of_getElem? hb, wsLen_cons_neg _ hw]
  rfl

/-- A successful dispatch starts at whitespace or at the first byte of a value, so not at a
separator or closer. -/
theorem parseValue_first_byte {f : Nat} {j : Json} {p : Value × Json}
    (h : parseValue f j = .ok p) :
    ∃ b, j.json[j.cursor]? = some b ∧ b ≠ 44 ∧ b ≠ 93 ∧ b ≠ 125 ∧ b ≠ 58 := by
  cases f with
  | zero => cases h
  | succ f =>
    rcases hd : j.json.drop j.cursor with _ | ⟨b, r⟩
    · rw [parseValue_succ, skipWhitespaces_eq, hd] at h
      have := (view_nil hd).1
      have hn : ¬ j.cursor < j.jsonLen := by simp only [Json.jsonLen]; omega
      simp [wsLen, hn] at h
    · obtain ⟨_, hb, _⟩ := view_cons hd
      refine ⟨b, hb, ?_⟩
      by_cases hw : isWhitespace b = true
      · refine ⟨?_, ?_, ?_, ?_⟩ <;> rintro rfl <;> simp [isWhitespace] at hw
      · have hw2 : isWhitespace b = false := by simpa using hw
        rw [parseValue_succ, skipWhitespaces_of_not_ws hb hw2] at h
        split at h
        · rw [hb] at h
          simp only [] at h
          obtain ⟨q, h1, _⟩ := Res.bind_eq_ok.mp h
          refine ⟨?_, ?_, ?_, ?_⟩ <;> rintro rfl <;> simp [isDigit] at h1
        · cases h

/-- The outcome of the dispatcher at an item, for any fuel that is enough. -/
theorem parseValue_of_exists {j : Json} {p : Value × Json}
    (h : ∃ fuel, parseValue fuel j = .ok p) {f : Nat}
    (hf : 3 * (j.jsonLen - j.cursor) + 1 ≤ f) : parseValue f j = .ok p := by
  obtain ⟨fuel, h⟩ := h
  rw [parseValue_fuel_indep (by rw [h]; simp) ((parse_fuel_enough f).1 j hf), h]

theorem pushListItem_frame (j : Json) (c : Nat) (b : List Nat) (l : List Value) (cl : Value)
    (key : Nat) (v : Value) :
    pushListItem { j with cursor := c, buffer := b } l cl key v = pushListItem j l cl key v :=
  rfl

theorem Advanced.eq_of_buffer {j j2 : Json} (h : Advanced j j2) (hb : j.buffer = []) :
    j2 = { j with cursor := j2.cursor } ∧ j.cursor < j2.cursor ∧ j2.cursor ≤ j.jsonLen := by
  obtain ⟨c, b, e, h1, h2, h3⟩ := h
  subst e
  have := h3 hb
  subst this
  simp only []
  refine ⟨?_, h1, h2⟩
  rw [← hb]

/-- The list loop over well-formed items: every item is parsed by the dispatcher and handed
to `pushListItem`, and the loop returns at the `]`. -/
theorem parseListLoop_items {j : Json} (hbuf : j.buffer = []) {c : Nat} {vs : List Value}
    {e : Nat} (h : ListItems j c vs e) :
    ∀ (s : Json), (s = { j with cursor := c } ∨ s = skipWhitespaces { j with cursor := c }) →
    ∀ (key : Nat) (ev : Bool) (l : List Value) (cl : Value) (fuel : Nat),
      3 * (j.jsonLen - c) + 2 ≤ fuel →
      parseListLoop fuel s key ev l cl =
        (pushListItems j l cl key vs).bind fun q =>
          .ok (if j.listBuilder.isNone then .list q.1 else q.2, { j with cursor := e + 1 }) := by
  induction h with
  | last c v j2 hpv hclose =>
    intro s hs key ev l cl fuel hfuel
    obtain ⟨f, rfl⟩ : ∃ f, fuel = f + 2 := ⟨fuel - 2, by omega⟩
    have hv : parseValue (f + 1) { j with cursor := c } = .ok (v, j2) :=
      parseValue_of_exists hpv (by simp only [Json.jsonLen] at hfuel ⊢; omega)
    have hvs : parseValue (f + 1) s = .ok (v, j2) := by
      rcases hs with rfl | rfl
      · exact hv
      · rw [parseValue_skip]; exact hv
    have hsj : s.json = j.json ∧ s.jsonLen = j.jsonLen := by
      rcases hs with rfl | rfl
      · exact ⟨rfl, rfl⟩
      · rw [skipWhitespaces_eq]; exact ⟨rfl, rfl⟩
    obtain ⟨b, hb, hb1, hb2, _⟩ := parseValue_first_byte hvs
    have hlt : s.cursor < s.jsonLen := lt_of_getElem? hb
    obtain ⟨e2, a1, a2⟩ := ((parse_advanced _).1 _ _ hv).eq_of_buffer hbuf
    simp only [] at e2 a1 a2
    have hlt2 : j2.cursor < j.jsonLen := lt_of_getElem? hclose
    rw [parseListLoop_succ]
    simp only [hlt, if_true, hb, hb1, hb2, if_false, hvs, Res.bind_ok]
    rw [e2, pushListItem_frame]
    simp only [pushListItems]
    cases hq : pushListItem j l cl key v with
    | ok q =>
      simp only [Res.bind_ok]
      rw [parseListLoop_succ]
      simp only [Json.jsonLen] at hlt2 ⊢
      simp only [hlt2, if_true, hclose]
      simp
      split <;> rfl
    | syntaxError p => rfl
    | panic => rfl
    | outOfFuel => rfl
  | cons c v j2 vs e hpv hcomma _ ih =>
    intro s hs key ev l cl fuel hfuel
    obtain ⟨f, rfl⟩ : ∃ f, fuel = f + 2 := ⟨fuel - 2, by omega⟩
    have hv : parseValue (f + 1) { j with cursor := c } = .ok (v, j2) :=
      parseValue_of_exists hpv (by simp only [Json.jsonLen] at hfuel ⊢; omega)
    have hvs : parseValue (f + 1) s = .ok (v, j2) := by
      rcases hs with rfl | rfl
      · exact hv
      · rw [parseValue_skip]; exact hv
    obtain ⟨b, hb, hb1, hb2, _⟩ := parseValue_first_byte hvs
    have hlt : s.cursor < s.jsonLen := lt_of_getElem? hb
    obtain ⟨e2, a1, a2⟩ := ((parse_advanced _).1 _ _ hv).eq_of_buffer hbuf
    simp only [] at e2 a1 a2
    have hlt2 : j2.cursor < j.jsonLen := lt_of_getElem? hcomma
    rw [parseListLoop_succ]
    simp only [hlt, if_true, hb, hb1, hb2, if_false, hvs, Res.bind_ok]
    rw [e2, pushListItem_frame]
    simp only [pushListItems]
    cases hq : pushListItem j l cl key v with
    | ok q =>
      simp only [Res.bind_ok]
      rw [parseListLoop_succ]
      simp only [Json.jsonLen] at hlt2 hfuel ⊢
      simp only [hlt2, if_true, hcomma]
      simp only [Nat.succ_ne_zero, false_or, if_true, if_false]
      simpa using ih _ (Or.inl rfl) (key + 1) true q.1 q.2 f (by simp only [Json.jsonLen]; omega)
    | syntaxError p => rfl
    | panic => rfl
    | outOfFuel => rfl

theorem skipWhitespaces_to {j : Json} {p c : Nat} (hp : j.cursor ≤ p)
    (hws : OnlyWhitespace j.json j.cursor p) (hc : j.json[p]? = some c)
    (hn : isWhitespace c = false) : skipWhitespaces j = { j with cursor := p } := by
  rw [skipWhitespaces_eq, wsLen_of_onlyWhitespace hp hws hc hn]
  have : j.cursor + (p - j.cursor) = p := by omega
  rw [this]

theorem wsLen_to_end {json : List Nat} {a : Nat} (h : OnlyWhitespace json a json.length) :
    wsLen (json.drop a) = json.length - a := by
  have hall : ∀ b ∈ json.drop a, isWhitespace b = true := by
    intro b hb
    obtain ⟨i, hi⟩ := List.mem_iff_getElem?.mp hb
    rw [List.getElem?_drop] at hi
    have hlt : a + i < json.length := lt_of_getElem? hi
    obtain ⟨w, hw, hww⟩ := h (a + i) (by omega) hlt
    rw [hi] at hw
    cases hw
    exact hww
  rw [wsLen_all hall, List.length_drop]

theorem skipWhitespaces_to_end {j : Json} (hle : j.cursor ≤ j.json.length)
    (hws : OnlyWhitespace j.json j.cursor j.json.length) :
    skipWhitespaces j = { j with cursor := j.json.length } := by
  rw [skipWhitespaces_eq, wsLen_to_end hws]
  have : j.cursor + (j.json.length - j.cursor) = j.json.length := by omega
  rw [this]

theorem pushListItems_builtin {j : Json} (h : j.listBuilder = none) (l : List Value)
    (cl : Value) (key : Nat) (vs : List Value) :
    pushListItems j l cl key vs = .ok (l ++ vs, cl) := by
  induction vs generalizing l key with
  | nil => simp [pushListItems]
  | cons v vs ih => simp [pushListItems, pushListItem, h, ih]

theorem pushListItems_hook {j : Json} {mk : Unit → Value} {push : Value → Nat → Value → Value}
    (h : j.listBuilder = some mk) (h2 : j.listItemPusher = some push) (l : List Value)
    (cl : Value) (key : Nat) (vs : List Value) :
    pushListItems j l cl key vs = .ok (l, pushItems push cl key vs) := by
  induction vs generalizing cl key with
  | nil => simp [pushListItems, pushItems]
  | cons v vs ih => simp [pushListItems, pushListItem, h, h2, ih, pushItems]

theorem ListItems.close_lt {j : Json} {c : Nat} {vs : List Value} {e : Nat}
    (h : ListItems j c vs e) : e < j.json.length := by
  induction h with
  | last c v j2 _ hclose => exact lt_of_getElem? hclose
  | cons _ _ _ _ _ _ _ _ ih => exact ih

/-- `Decode` on a well-formed list text: the dispatcher enters `parseList`, whose loop hands
every item to `pushListItem`; the value built is returned. -/
theorem Decode_listText {j : Json} (hcur : j.cursor = 0) (hbuf : j.buffer = [])
    {vs : List Value} (h : ListText j vs) :
    Decode j = (pushListItems j [] (match j.listBuilder with
        | some mk => mk ()
        | none => .null) 0 vs).bind fun q =>
      .ok (if j.listBuilder.isNone then .list q.1 else q.2) := by
  obtain ⟨a, e, hws, hopen, hbody, htail⟩ := h
  have hlen : a < j.json.length := lt_of_getElem? hopen
  have hs : skipWhitespaces j = { j with cursor := a } :=
    skipWhitespaces_to (by omega) (by rw [hcur]; exact hws) hopen (by decide)
  have helt : e < j.json.length := by
    rcases hbody with ⟨_, _, _, hc⟩ | hi
    · exact lt_of_getElem? hc
    · exact hi.close_lt
  have hend : skipWhitespaces { j with cursor := e + 1 } = { j with cursor := j.json.length } :=
    @skipWhitespaces_to_end { j with cursor := e + 1 } (by simp only []; omega) htail
  obtain ⟨f, hf⟩ : ∃ f, decodeFuel j = f + 3 := ⟨decodeFuel j - 3, by
    simp only [decodeFuel, Json.jsonLen]; omega⟩
  have hf2 : 3 * j.json.length = f + 2 := by
    simp only [decodeFuel, Json.jsonLen] at hf; omega
  unfold Decode
  rw [hf, parseValue_succ, hs]
  simp only [Json.jsonLen, hlen, if_true, hopen]
  have hd : isDigit 91 = false := by decide
  simp only [hd]
  simp only [show ¬ ((91 : Nat) = 45 ∨ false = true) by decide, show ¬ (91 : Nat) = 34 by decide,
    show ¬ (91 : Nat) = 116 by decide, show ¬ (91 : Nat) = 102 by decide,
    show ¬ (91 : Nat) = 110 by decide, if_false, if_true]
  rw [parseList_succ]
  simp only []
  rcases hbody with ⟨rfl, hae, hws2, hclose⟩ | hitems
  · have hs2 : skipWhitespaces { j with cursor := a + 1 } = { j with cursor := e } :=
      @skipWhitespaces_to { j with cursor := a + 1 } _ _ hae hws2 hclose (by decide)
    rw [hs2, parseListLoop_succ]
    simp only [Json.jsonLen, helt, if_true, hclose]
    simp only [show ¬ (93 : Nat) = 44 by decide, if_false, if_true, pushListItems, Res.bind_ok]
    by_cases hb : j.listBuilder.isNone = true
    · simp [hb, hend]
    · simp [hb, hend]
  · rw [parseListLoop_items hbuf hitems _ (Or.inr rfl) 0 false [] _ (f + 1)
      (by simp only [Json.jsonLen]; omega)]
    cases pushListItems j [] (match j.listBuilder with
        | some mk => mk ()
        | none => .null) 0 vs with
    | ok q => simp [hend]
    | syntaxError p => rfl
    | panic => rfl
    | outOfFuel => rfl

/-- C7: for a well-formed list text whose items decode, by the dispatcher and in source
order, to `vs`: with a list hook `(mk, push)` registered `Decode` returns
`push(...push(push(mk(), 0, v0), 1, v1)..., n-1, v(n-1))` (`mk()` itself for no item), and
with no list hook it returns the sequence `vs`. -/
theorem C7_list_construction (j : Json) (hcur : j.cursor = 0) (hbuf : j.buffer = [])
    (vs : List Value) (h : ListText j vs) :
    (∀ mk push, j.listBuilder = some mk → j.listItemPusher = some push →
      Decode j = .ok (pushItems push (mk ()) 0 vs)) ∧
    (j.listBuilder = none → Decode j = .ok (.list vs)) := by
  constructor
  · intro mk push h1 h2
    rw [Decode_listText hcur hbuf h, pushListItems_hook h1 h2]
    simp [h1]
  · intro h1
    rw [Decode_listText hcur hbuf h, pushListItems_builtin h1]
    simp [h1]

theorem pushObjectItem_frame (j : Json) (c : Nat) (b : List Nat) (m : Value) (k : List Nat)
    (v : Value) :
    pushObjectItem { j with cursor := c, buffer := b } m k v = pushObjectItem j m k v :=
  rfl

theorem ObjectMembers.start {j : Json} {c : Nat} {kvs : List (List Nat × Value)} {e : Nat}
    (h : ObjectMembers j c kvs e) : j.json[c]? = some 34 := by
  cases h with
  | last _ _ _ _ _ _ hq => exact hq
  | cons _ _ _ _ _ _ _ _ _ hq => exact hq

theorem ObjectMembers.end_lt {j : Json} {c : Nat} {kvs : List (List Nat × Value)} {e : Nat}
    (h : ObjectMembers j c kvs e) : e < j.json.length := by
  induction h with
  | last _ _ _ _ _ _ _ _ _ _ _ _ hclose => exact lt_of_getElem? hclose
  | cons _ _ _ _ _ _ _ _ _ _ _ _ _ _ _ _ _ _ _ ih => exact ih

/-- The object loop over well-formed members: every key is read by the string lexer, every
value by the dispatcher, each member is handed to `pushObjectItem`, and the loop returns at
the `}`. -/
theorem parseObjectLoop_members {j : Json} (hbuf : j.buffer = []) {c : Nat}
    {kvs : List (List Nat × Value)} {e : Nat} (h : ObjectMembers j c kvs e) :
    ∀ (counter : Nat) (ei : Bool) (m : Value) (fuel : Nat),
      3 * (j.jsonLen - c) + 2 ≤ fuel →
      parseObjectLoop fuel { j with cursor := c } counter ei m =
        (pushObjectItems j m kvs).bind fun m2 => .ok (m2, { j with cursor := e + 1 }) := by
  induction h with
  | last c k j1 a v j2 hq hk hle hws hcolon hpv hclose =>
    intro counter ei m fuel hfuel
    obtain ⟨f, rfl⟩ : ∃ f, fuel = f + 2 := ⟨fuel - 2, by omega⟩
    have hclt : c < j.json.length := lt_of_getElem? hq
    have halt : a < j.json.length := lt_of_getElem? hcolon
    obtain ⟨c1, e1, b1, b2⟩ := parseString_ok hk
    simp only [] at e1 b1 b2
    rw [← hbuf] at e1
    have e1' : j1 = { j with cursor := c1 } := e1
    subst e1'
    simp only [] at hle hws
    have hs : skipWhitespaces { j with cursor := c1 } = { j with cursor := a } :=
      @skipWhitespaces_to { j with cursor := c1 } _ _ hle hws hcolon (by decide)
    have hv : parseValue (f + 1) { j with cursor := a + 1 } = .ok (v, j2) :=
      parseValue_of_exists hpv (by simp only [Json.jsonLen] at hfuel ⊢; omega)
    obtain ⟨e2, a1, a2⟩ := ((parse_advanced _).1 _ _ hv).eq_of_buffer hbuf
    simp only [] at e2 a1 a2
    have hlt2 : j2.cursor < j.json.length := lt_of_getElem? hclose
    rw [parseObjectLoop_succ]
    simp only [Json.jsonLen, hclt, if_true, hq, hk, Res.bind_ok, hs]
    have hge : ¬ a ≥ j.json.length := by omega
    simp only [hge, if_false, hcolon, ne_eq, not_true_eq_false, hv, Res.bind_ok]
    rw [e2, pushObjectItem_frame]
    simp only [pushObjectItems]
    cases hm : pushObjectItem j m k v with
    | ok m2 =>
      simp only [Res.bind_ok]
      rw [parseObjectLoop_succ]
      simp only [Json.jsonLen, hlt2, if_true, hclose]
      simp
    | syntaxError p => rfl
    | panic => rfl
    | outOfFuel => rfl
  | cons c k j1 a v j2 c2 kvs e hq hk hle hws hcolon hpv hcomma hle2 hws2 hrest ih =>
    intro counter ei m fuel hfuel
    obtain ⟨f, rfl⟩ : ∃ f, fuel = f + 2 := ⟨fuel - 2, by omega⟩
    have hclt : c < j.json.length := lt_of_getElem? hq
    have halt : a < j.json.length := lt_of_getElem? hcolon
    obtain ⟨c1, e1, b1, b2⟩ := parseString_ok hk
    simp only [] at e1 b1 b2
    rw [← hbuf] at e1
    have e1' : j1 = { j with cursor := c1 } := e1
    subst e1'
    simp only [] at hle hws
    have hs : skipWhitespaces { j with cursor := c1 } = { j with cursor := a } :=
      @skipWhitespaces_to { j with cursor := c1 } _ _ hle hws hcolon (by decide)
    have hv : parseValue (f + 1) { j with cursor := a + 1 } = .ok (v, j2) :=
      parseValue_of_exists hpv (by simp only [Json.jsonLen] at hfuel ⊢; omega)
    obtain ⟨e2, a1, a2⟩ := ((parse_advanced _).1 _ _ hv).eq_of_buffer hbuf
    simp only [] at e2 a1 a2
    have hlt2 : j2.cursor < j.json.length := lt_of_getElem? hcomma
    have hs2 : skipWhitespaces { j with cursor := j2.cursor + 1 } = { j with cursor := c2 } :=
      @skipWhitespaces_to { j with cursor := j2.cursor + 1 } _ _ hle2 hws2 hrest.start
        (by decide)
    rw [parseObjectLoop_succ]
    simp only [Json.jsonLen, hclt, if_true, hq, hk, Res.bind_ok, hs]
    have hge : ¬ a ≥ j.json.length := by omega
    simp only [hge, if_false, hcolon, ne_eq, not_true_eq_false, hv, Res.bind_ok]
    rw [e2, pushObjectItem_frame]
    simp only [pushObjectItems]
    cases hm : pushObjectItem j m k v with
    | ok m2 =>
      simp only [Res.bind_ok]
      rw [parseObjectLoop_succ]
      simp only [Json.jsonLen, hlt2, if_true, hcomma]
      simp only [show ¬ (44 : Nat) = 34 by decide, if_false, if_true, Nat.succ_ne_zero,
        false_or, hs2]
      simpa using ih (counter + 1) true m2 f (by simp only [Json.jsonLen] at hfuel ⊢; omega)
    | syntaxError p => rfl
    | panic => rfl
    | outOfFuel => rfl

theorem pushObjectItems_builtin {j : Json} (h : j.objectBuilder = none)
    (ms kvs : List (List Nat × Value)) :
    pushObjectItems j (.object ms) kvs = .ok (.object (setMembers ms kvs)) := by
  induction kvs generalizing ms with
  | nil => simp [pushObjectItems, setMembers]
  | cons kv kvs ih => simp [pushObjectItems, pushObjectItem, h, ih, setMembers]

theorem pushObjectItems_hook {j : Json} {mk : Unit → Value}
    {push : Value → List Nat → Value → Value} (h : j.objectBuilder = some mk)
    (h2 : j.objectItemPusher = some push) (m : Value) (kvs : List (List Nat × Value)) :
    pushObjectItems j m kvs = .ok (pushMembers push m kvs) := by
  induction kvs generalizing m with
  | nil => simp [pushObjectItems, pushMembers]
  | cons kv kvs ih => simp [pushObjectItems, pushObjectItem, h, h2, ih, pushMembers]

theorem mapGet_mapSet (m : List (List Nat × Value)) (k : List Nat) (v : Value) (k2 : List Nat) :
    mapGet (mapSet m k v) k2 = if k = k2 then some v else mapGet m k2 := by
  induction m with
  | nil => simp [mapSet, mapGet]
  | cons a m ih =>
    obtain ⟨ka, va⟩ := a
    simp only [mapSet]
    by_cases h : ka = k
    · subst h
      simp only [if_true, mapGet]
      by_cases h2 : ka = k2 <;> simp [h2]
    · simp only [h, if_false, mapGet, ih]
      by_cases h2 : ka = k2
      · subst h2; simp [Ne.symm h]
      · simp [h2]

/-- After the built-in construction a key maps to the value of its last occurrence (or to
what it mapped to before, if it does not occur). -/
theorem mapGet_setMembers (m kvs : List (List Nat × Value)) (k : List Nat) :
    mapGet (setMembers m kvs) k =
      match lastValue kvs k with
      | some v => some v
      | none => mapGet m k := by
  induction kvs generalizing m with
  | nil => simp [setMembers, lastValue]
  | cons kv kvs ih =>
    simp only [setMembers, lastValue]
    rw [ih]
    cases lastValue kvs k with
    | some v => rfl
    | none =>
      simp only [mapGet_mapSet]
      by_cases h : kv.1 = k <;> simp [h]

/-- `Decode` on a well-formed object text: the dispatcher enters `parseObject`, whose loop
hands every member to `pushObjectItem`; the value built is returned. -/
theorem Decode_objectText {j : Json} (hcur : j.cursor = 0) (hbuf : j.buffer = [])
    {kvs : List (List Nat × Value)} (h : ObjectText j kvs) :
    Decode j = pushObjectItems j (makeObject j) kvs := by
  obtain ⟨a, c, e, hws, hopen, hac, hws1, hbody, htail⟩ := h
  have hlen : a < j.json.length := lt_of_getElem? hopen
  have hs : skipWhitespaces j = { j with cursor := a } :=
    skipWhitespaces_to (by omega) (by rw [hcur]; exact hws) hopen (by decide)
  have helt : e < j.json.length := by
    rcases hbody with ⟨_, _, hc⟩ | hi
    · exact lt_of_getElem? hc
    · exact hi.end_lt
  have hend : skipWhitespaces { j with cursor := e + 1 } = { j with cursor := j.json.length } :=
    @skipWhitespaces_to_end { j with cursor := e + 1 } (by simp only []; omega) htail
  obtain ⟨f, hf⟩ : ∃ f, decodeFuel j = f + 3 := ⟨decodeFuel j - 3, by
    simp only [decodeFuel, Json.jsonLen]; omega⟩
  have hf2 : 3 * j.json.length = f + 2 := by
    simp only [decodeFuel, Json.jsonLen] at hf; omega
  have hcq : ∃ q, j.json[c]? = some q ∧ isWhitespace q = false := by
    rcases hbody with ⟨_, rfl, hc⟩ | hi
    · exact ⟨125, hc, by decide⟩
    · exact ⟨34, hi.start, by decide⟩
  obtain ⟨q, hq, hqw⟩ := hcq
  have hs2 : skipWhitespaces { j with cursor := a + 1 } = { j with cursor := c } :=
    @skipWhitespaces_to { j with cursor := a + 1 } _ _ hac hws1 hq hqw
  unfold Decode
  rw [hf, parseValue_succ, hs]
  simp only [Json.jsonLen, hlen, if_true, hopen]
  have hd : isDigit 123 = false := by decide
  simp only [hd]
  simp only [show ¬ ((123 : Nat) = 45 ∨ false = true) by decide,
    show ¬ (123 : Nat) = 34 by decide,
    show ¬ (123 : Nat) = 116 by decide, show ¬ (123 : Nat) = 102 by decide,
    show ¬ (123 : Nat) = 110 by decide, show ¬ (123 : Nat) = 91 by decide, if_false, if_true]
  rw [parseObject_succ]
  simp only [hs2]
  have hmk : makeObject { j with cursor := a } = makeObject j := rfl
  rw [hmk]
  rcases hbody with ⟨rfl, rfl, hclose⟩ | hmembers
  · rw [parseObjectLoop_succ]
    simp only [Json.jsonLen, helt, if_true, hclose]
    simp only [show ¬ (125 : Nat) = 34 by decide, show ¬ (125 : Nat) = 44 by decide, if_false,
      if_true, pushObjectItems, Res.bind_ok]
    simp [hend]
  · rw [parseObjectLoop_members hbuf hmembers 0 false _ (f + 1)
      (by simp only [Json.jsonLen]; omega)]
    cases pushObjectItems j (makeObject j) kvs with
    | ok q => simp [hend]
    | syntaxError p => rfl
    | panic => rfl
    | outOfFuel => rfl

/-- C8: for a well-formed object text whose members have, in source order, the keys and
(dispatcher-decoded) values `kvs`: with an object hook `(mk, push)` registered `Decode` returns
`push(...push(push(mk(), k1, v1), k2, v2)..., kn, vn)` (`mk()` itself for no member); with no
object hook it returns the mapping built from the empty one by `m[k] = v` in source order,
in which every key maps to the value of its last occurrence. -/
theorem C8_object_construction (j : Json) (hcur : j.cursor = 0) (hbuf : j.buffer = [])
    (kvs : List (List Nat × Value)) (h : ObjectText j kvs) :
    (∀ mk push, j.objectBuilder = some mk → j.objectItemPusher = some push →
      Decode j = .ok (pushMembers push (mk ()) kvs)) ∧
    (j.objectBuilder = none →
      Decode j = .ok (.object (setMembers [] kvs)) ∧
      ∀ k, mapGet (setMembers [] kvs) k = lastValue kvs k) := by
  constructor
  · intro mk push h1 h2
    rw [Decode_objectText hcur hbuf h, pushObjectItems_hook h1 h2]
    simp [makeObject, h1]
  · intro h1
    constructor
    · rw [Decode_objectText hcur hbuf h]
      have : makeObject j = .object [] := by simp [makeObject, h1]
      rw [this, pushObjectItems_builtin h1]
    · intro k
      rw [mapGet_setMembers]
      cases lastValue kvs k <;> simp [mapGet]

theorem OnlyWhitespace.empty (json : List Nat) (a : Nat) : OnlyWhitespace json a a :=
  fun i h1 h2 => by omega

/-- C7, at the input `[1, 2]`: with the list hook of the tests `Decode` returns the
`customSlice` of both items, and without a hook the list of both. -/
theorem C7_list_construction_witness :
    (ListText ((Bytes (ascii "[1, 2]")).WithListBuilder (some testMakeList)
        (some testPushListItem)) [.number (ascii "1"), .number (ascii "2")] ∧
      Decode ((Bytes (ascii "[1, 2]")).WithListBuilder (some testMakeList)
        (some testPushListItem)) = .ok (.custom 0 [.number (ascii "1"), .number (ascii "2")])) ∧
    (ListText (Bytes (ascii "[1, 2]")) [.number (ascii "1"), .number (ascii "2")] ∧
      Decode (Bytes (ascii "[1, 2]")) = .ok (.list [.number (ascii "1"), .number (ascii "2")])) := by
  have t1 : ListText ((Bytes (ascii "[1, 2]")).WithListBuilder (some testMakeList)
      (some testPushListItem)) [.number (ascii "1"), .number (ascii "2")] :=
    ⟨0, 5, OnlyWhitespace.empty _ _, rfl,
      Or.inr (ListItems.cons 1 (.number (ascii "1"))
        { (Bytes (ascii "[1, 2]")).WithListBuilder (some testMakeList)
            (some testPushListItem) with cursor := 2 } _ 5 ⟨1, rfl⟩ rfl
        (ListItems.last 3 (.number (ascii "2"))
          { (Bytes (ascii "[1, 2]")).WithListBuilder (some testMakeList)
              (some testPushListItem) with cursor := 5 } ⟨1, rfl⟩ rfl)),
      fun i h1 h2 => by simp [Bytes, Json.WithListBuilder, ascii] at h2; omega⟩
  have t2 : ListText (Bytes (ascii "[1, 2]")) [.number (ascii "1"), .number (ascii "2")] :=
    ⟨0, 5, OnlyWhitespace.empty _ _, rfl,
      Or.inr (ListItems.cons 1 (.number (ascii "1"))
        { Bytes (ascii "[1, 2]") with cursor := 2 } _ 5 ⟨1, rfl⟩ rfl
        (ListItems.last 3 (.number (ascii "2"))
          { Bytes (ascii "[1, 2]") with cursor := 5 } ⟨1, rfl⟩ rfl)),
      fun i h1 h2 => by simp [Bytes, ascii] at h2; omega⟩
  exact ⟨⟨t1, (C7_list_construction _ rfl rfl _ t1).1 testMakeList testPushListItem rfl rfl⟩,
    ⟨t2, (C7_list_construction _ rfl rfl _ t2).2 rfl⟩⟩

/-- C8, at an object text with the key `a` twice (values 1 and 2): with the object hook of
the tests `Decode` returns the `customMap` built by both pushes, and without a hook the
mapping in which `a` maps to 2, the value of its last occurrence. -/
theorem C8_object_construction_witness :
    (ObjectText ((Bytes (ascii "\x7b\"a\":1,\"a\":2\x7d")).WithObjectBuilder
        (some testMakeObject) (some testPushObjectItem))
        [(ascii "a", .number (ascii "1")), (ascii "a", .number (ascii "2"))] ∧
      Decode ((Bytes (ascii "\x7b\"a\":1,\"a\":2\x7d")).WithObjectBuilder
        (some testMakeObject) (some testPushObjectItem)) =
        .ok (.custom 1 [.object [(ascii "a", .number (ascii "2"))]])) ∧
    (ObjectText (Bytes (ascii "\x7b\"a\":1,\"a\":2\x7d"))
        [(ascii "a", .number (ascii "1")), (ascii "a", .number (ascii "2"))] ∧
      Decode (Bytes (ascii "\x7b\"a\":1,\"a\":2\x7d")) =
        .ok (.object [(ascii "a", .number (ascii "2"))])) := by
  have t1 : ObjectText ((Bytes (ascii "\x7b\"a\":1,\"a\":2\x7d")).WithObjectBuilder
      (some testMakeObject) (some testPushObjectItem))
      [(ascii "a", .number (ascii "1")), (ascii "a", .number (ascii "2"))] :=
    ⟨0, 1, 12, OnlyWhitespace.empty _ _, rfl, Nat.le_refl _, OnlyWhitespace.empty _ _,
      Or.inr (ObjectMembers.cons 1 (ascii "a")
        { (Bytes (ascii "\x7b\"a\":1,\"a\":2\x7d")).WithObjectBuilder
            (some testMakeObject) (some testPushObjectItem) with cursor := 4 } 4
        (.number (ascii "1"))
        { (Bytes (ascii "\x7b\"a\":1,\"a\":2\x7d")).WithObjectBuilder
            (some testMakeObject) (some testPushObjectItem) with cursor := 6 } 7 _ 12
        rfl rfl (Nat.le_refl _) (OnlyWhitespace.empty _ _) rfl ⟨1, rfl⟩ rfl (Nat.le_refl _)
        (OnlyWhitespace.empty _ _)
        (ObjectMembers.last 7 (ascii "a")
          { (Bytes (ascii "\x7b\"a\":1,\"a\":2\x7d")).WithObjectBuilder
              (some testMakeObject) (some testPushObjectItem) with cursor := 10 } 10
          (.number (ascii "2"))
          { (Bytes (ascii "\x7b\"a\":1,\"a\":2\x7d")).WithObjectBuilder
              (some testMakeObject) (some testPushObjectItem) with cursor := 12 }
          rfl rfl (Nat.le_refl _) (OnlyWhitespace.empty _ _) rfl ⟨1, rfl⟩ rfl)),
      fun i h1 h2 => by simp [Bytes, Json.WithObjectBuilder, ascii] at h2; omega⟩
  have t2 : ObjectText (Bytes (ascii "\x7b\"a\":1,\"a\":2\x7d"))
      [(ascii "a", .number (ascii "1")), (ascii "a", .number (ascii "2"))] :=
    ⟨0, 1, 12, OnlyWhitespace.empty _ _, rfl, Nat.le_refl _, OnlyWhitespace.empty _ _,
      Or.inr (ObjectMembers.cons 1 (ascii "a")
        { Bytes (ascii "\x7b\"a\":1,\"a\":2\x7d") with cursor := 4 } 4
        (.number (ascii "1"))
        { Bytes (ascii "\x7b\"a\":1,\"a\":2\x7d") with cursor := 6 } 7 _ 12
        rfl rfl (Nat.le_refl _) (OnlyWhitespace.empty _ _) rfl ⟨1, rfl⟩ rfl (Nat.le_refl _)
        (OnlyWhitespace.empty _ _)
        (ObjectMembers.last 7 (ascii "a")
          { Bytes (ascii "\x7b\"a\":1,\"a\":2\x7d") with cursor := 10 } 10
          (.number (ascii "2"))
          { Bytes (ascii "\x7b\"a\":1,\"a\":2\x7d") with cursor := 12 }
          rfl rfl (Nat.le_refl _) (OnlyWhitespace.empty _ _) rfl ⟨1, rfl⟩ rfl)),
      fun i h1 h2 => by simp [Bytes, ascii] at h2; omega⟩
  exact ⟨⟨t1, (C8_object_construction _ rfl rfl _ t1).1 testMakeObject testPushObjectItem
      rfl rfl⟩,
    ⟨t2, ((C8_object_construction _ rfl rfl _ t2).2 rfl).1⟩⟩

theorem embed_get (w1 w2 : List Nat) (j : Json) {i : Nat} (h : i < j.json.length) :
    (j.embed w1 w2).json[w1.length + i]? = j.json[i]? := by
  simp only [Json.embed]
  rw [List.append_assoc, List.getElem?_append_right (Nat.le_add_right _ _),
    Nat.add_sub_cancel_left, List.getElem?_append_left h]

theorem embed_get_some (w1 w2 : List Nat) (j : Json) {i c : Nat} (h : j.json[i]? = some c) :
    (j.embed w1 w2).json[w1.length + i]? = some c := by
  rw [embed_get w1 w2 j (lt_of_getElem? h), h]

theorem embed_get_beyond (w1 : List Nat) {w2 : List Nat}
    (hw2 : ∀ b ∈ w2, isWhitespace b = true) (j : Json) {i b : Nat} (h : j.json.length ≤ i)
    (hb : (j.embed w1 w2).json[w1.length + i]? = some b) : isWhitespace b = true := by
  simp only [Json.embed] at hb
  rw [List.append_assoc, List.getElem?_append_right (Nat.le_add_right _ _),
    Nat.add_sub_cancel_left, List.getElem?_append_right h] at hb
  exact hw2 b (List.mem_iff_getElem?.mpr ⟨_, hb⟩)

theorem embed_jsonLen (w1 w2 : List Nat) (j : Json) :
    (j.embed w1 w2).jsonLen = w1.length + j.jsonLen + w2.length := by
  simp [Json.embed, Json.jsonLen, Nat.add_assoc]

theorem embed_drop (w1 w2 : List Nat) (j : Json) (k : Nat) :
    (j.embed w1 w2).json.drop (w1.length + k) = j.json.drop k ++ w2.drop (k - j.json.length) := by
  simp only [Json.embed]
  rw [List.append_assoc, List.drop_append, List.drop_append_eq_append_drop]

theorem wsLen_append_of_lt {l : List Nat} (r : List Nat) (h : wsLen l < l.length) :
    wsLen (l ++ r) = wsLen l := by
  induction l with
  | nil => simp at h
  | cons a l ih =>
    by_cases ha : isWhitespace a = true
    · rw [wsLen_cons_pos _ ha] at h ⊢
      rw [List.cons_append, wsLen_cons_pos _ ha, ih (by simpa using h)]
    · have ha2 : isWhitespace a = false := by simpa using ha
      rw [List.cons_append, wsLen_cons_neg _ ha2, wsLen_cons_neg _ ha2]

theorem wsLen_append_of_eq {l : List Nat} (r : List Nat) (h : wsLen l = l.length) :
    wsLen (l ++ r) = l.length + wsLen r := by
  induction l with
  | nil => simp
  | cons a l ih =>
    by_cases ha : isWhitespace a = true
    · rw [wsLen_cons_pos _ ha] at h
      rw [List.cons_append, wsLen_cons_pos _ ha, ih (by simpa using h)]
      simp; omega
    · have ha2 : isWhitespace a = false := by simpa using ha
      rw [wsLen_cons_neg _ ha2] at h
      simp at h

/-- Skipping whitespace commutes with embedding, as long as it stops inside the input. -/
theorem skipWhitespaces_embed (w1 w2 : List Nat) (j : Json)
    (h : (skipWhitespaces j).cursor < j.jsonLen) :
    skipWhitespaces (j.embed w1 w2) = (skipWhitespaces j).embed w1 w2 := by
  rw [skipWhitespaces_eq] at h
  simp only [Json.jsonLen] at h
  rw [skipWhitespaces_eq, skipWhitespaces_eq j]
  have e1 : (j.embed w1 w2).cursor = w1.length + j.cursor := rfl
  rw [e1, embed_drop]
  have hlt : wsLen (j.json.drop j.cursor) < (j.json.drop j.cursor).length := by
    rw [List.length_drop]; omega
  rw [wsLen_append_of_lt _ hlt]
  simp only [Json.embed]
  rw [Nat.add_assoc]

/-- Skipping whitespace in the embedded decoder, when whitespace follows the input: from the
end of the input it runs to the end of the whole. -/
theorem skipWhitespaces_embed_end (w1 : List Nat) {w2 : List Nat}
    (hw2 : ∀ b ∈ w2, isWhitespace b = true) (j : Json) (h : j.cursor = j.jsonLen) :
    skipWhitespaces (j.embed w1 w2) =
      { j.embed w1 w2 with cursor := (j.embed w1 w2).jsonLen } := by
  rw [skipWhitespaces_eq]
  have e1 : (j.embed w1 w2).cursor = w1.length + j.cursor := rfl
  rw [e1, embed_drop, h]
  simp only [Json.jsonLen, List.drop_length, List.nil_append, Nat.sub_self, List.drop_zero]
  rw [wsLen_all hw2]
  simp [Json.embed, Json.jsonLen, Nat.add_assoc]

theorem parseTrue_embed (w1 w2 : List Nat) {j : Json} {p : Value × Json}
    (h : parseTrue j = .ok p) : parseTrue (j.embed w1 w2) = .ok (p.1, p.2.embed w1 w2) := by
  unfold parseTrue at h ⊢
  split at h
  · cases h
  · rename_i hlen
    simp only [Json.jsonLen, Nat.not_lt] at hlen
    have g1 := embed_get w1 w2 j (show j.cursor + 1 < j.json.length by omega)
    have g2 := embed_get w1 w2 j (show j.cursor + 2 < j.json.length by omega)
    have g3 := embed_get w1 w2 j (show j.cursor + 3 < j.json.length by omega)
    have hl : ¬ (j.embed w1 w2).jsonLen < (j.embed w1 w2).cursor + 4 := by
      rw [embed_jsonLen]; simp only [Json.embed, Json.jsonLen]; omega
    have c1 : (j.embed w1 w2).cursor = w1.length + j.cursor := rfl
    simp only [hl, if_false, c1, Nat.add_assoc, g1, g2, g3]
    split at h
    · split at h
      · rename_i hc
        simp only [Res.ok.injEq] at h
        subst h
        simp [hc, Json.embed, Nat.add_assoc, Json.jsonLen]
        omega
      · cases h
    · cases h

theorem parseFalse_embed (w1 w2 : List Nat) {j : Json} {p : Value × Json}
    (h : parseFalse j = .ok p) : parseFalse (j.embed w1 w2) = .ok (p.1, p.2.embed w1 w2) := by
  unfold parseFalse at h ⊢
  split at h
  · cases h
  · rename_i hlen
    simp only [Json.jsonLen, Nat.not_lt] at hlen
    have g1 := embed_get w1 w2 j (show j.cursor + 1 < j.json.length by omega)
    have g2 := embed_get w1 w2 j (show j.cursor + 2 < j.json.length by omega)
    have g3 := embed_get w1 w2 j (show j.cursor + 3 < j.json.length by omega)
    have g4 := embed_get w1 w2 j (show j.cursor + 4 < j.json.length by omega)
    have hl : ¬ (j.embed w1 w2).jsonLen < (j.embed w1 w2).cursor + 5 := by
      rw [embed_jsonLen]; simp only [Json.embed, Json.jsonLen]; omega
    have c1 : (j.embed w1 w2).cursor = w1.length + j.cursor := rfl
    simp only [hl, if_false, c1, Nat.add_assoc, g1, g2, g3, g4]
    split at h
    · split at h
      · rename_i hc
        simp only [Res.ok.injEq] at h
        subst h
        simp [hc, Json.embed, Nat.add_assoc, Json.jsonLen]
        omega
      · cases h
    · cases h

theorem parseNull_embed (w1 w2 : List Nat) {j : Json} {p : Value × Json}
    (h : parseNull j = .ok p) : parseNull (j.embed w1 w2) = .ok (p.1, p.2.embed w1 w2) := by
  unfold parseNull at h ⊢
  split at h
  · cases h
  · rename_i hlen
    simp only [Json.jsonLen, Nat.not_lt] at hlen
    have g1 := embed_get w1 w2 j (show j.cursor + 1 < j.json.length by omega)
    have g2 := embed_get w1 w2 j (show j.cursor + 2 < j.json.length by omega)
    have g3 := embed_get w1 w2 j (show j.cursor + 3 < j.json.length by omega)
    have hl : ¬ (j.embed w1 w2).jsonLen < (j.embed w1 w2).cursor + 4 := by
      rw [embed_jsonLen]; simp only [Json.embed, Json.jsonLen]; omega
    have c1 : (j.embed w1 w2).cursor = w1.length + j.cursor := rfl
    simp only [hl, if_false, c1, Nat.add_assoc, g1, g2, g3]
    split at h
    · split at h
      · rename_i hc
        simp only [Res.ok.injEq] at h
        subst h
        simp [hc, Json.embed, Nat.add_assoc, Json.jsonLen]
        omega
      · cases h
    · cases h

theorem getElem?_of_lt {l : List Nat} {i : Nat} (h : i < l.length) : ∃ b, l[i]? = some b :=
  ⟨l[i], List.getElem?_eq_getElem h⟩

theorem not_digit_of_ws {b : Nat} (h : isWhitespace b = true) :
    isDigit b = false ∧ b ≠ 46 ∧ b ≠ 101 ∧ b ≠ 69 := by
  simp only [isWhitespace, Bool.or_eq_true, decide_eq_true_eq] at h
  rcases h with ((rfl | rfl) | rfl) | rfl <;> decide

/-- Beyond the end of the embedded input only whitespace follows: the digit loop stops. -/
theorem numberDigitsLoop_beyond (w1 : List Nat) {w2 : List Nat}
    (hw2 : ∀ b ∈ w2, isWhitespace b = true) (j : Json) (n2 : Nat) {i : Nat} (a : Bool)
    (h : j.json.length ≤ i) :
    numberDigitsLoop n2 (j.embed w1 w2) (w1.length + i) a = .ok (w1.length + i) := by
  cases n2 with
  | zero => rfl
  | succ m =>
    rw [numberDigitsLoop]
    split
    · rename_i hlt
      obtain ⟨b, hb⟩ := getElem?_of_lt hlt
      obtain ⟨d1, d2, _, _⟩ := not_digit_of_ws (embed_get_beyond w1 hw2 j h hb)
      simp [hb, d1, d2]
    · rfl

theorem exponentDigitsLoop_beyond (w1 : List Nat) {w2 : List Nat}
    (hw2 : ∀ b ∈ w2, isWhitespace b = true) (j : Json) (n2 : Nat) {i : Nat}
    (h : j.json.length ≤ i) :
    exponentDigitsLoop n2 (j.embed w1 w2) (w1.length + i) = .ok (w1.length + i) := by
  cases n2 with
  | zero => rfl
  | succ m =>
    rw [exponentDigitsLoop]
    split
    · rename_i hlt
      obtain ⟨b, hb⟩ := getElem?_of_lt hlt
      obtain ⟨d1, _, _, _⟩ := not_digit_of_ws (embed_get_beyond w1 hw2 j h hb)
      simp [hb, d1]
    · rfl

theorem numberDigitsLoop_embed (w1 : List Nat) {w2 : List Nat}
    (hw2 : ∀ b ∈ w2, isWhitespace b = true) (j : Json) (n : Nat) :
    ∀ (n2 i : Nat) (a : Bool) (k : Nat), j.jsonLen - i ≤ n →
      (j.embed w1 w2).jsonLen - (w1.length + i) ≤ n2 →
      numberDigitsLoop n j i a = .ok k →
      numberDigitsLoop n2 (j.embed w1 w2) (w1.length + i) a = .ok (w1.length + k) := by
  induction n with
  | zero =>
    intro n2 i a k hn hn2 h
    simp only [numberDigitsLoop, Res.ok.injEq] at h
    subst h
    exact numberDigitsLoop_beyond w1 hw2 j n2 a (by simp only [Json.jsonLen] at hn; omega)
  | succ n ih =>
    intro n2 i a k hn hn2 h
    by_cases hlt : i < j.jsonLen
    · rw [numberDigitsLoop] at h
      simp only [hlt, if_true] at h
      have hlt2 : w1.length + i < (j.embed w1 w2).jsonLen := by
        rw [embed_jsonLen]; omega
      obtain ⟨m, rfl⟩ : ∃ m, n2 = m + 1 := ⟨n2 - 1, by omega⟩
      rw [numberDigitsLoop]
      simp only [hlt2, if_true, embed_get w1 w2 j hlt]
      cases hc : j.json[i]? with
      | none => simp [hc] at h
      | some c =>
        simp only [hc] at h ⊢
        split at h
        · rename_i hd
          simp only [hd, if_true]
          exact ih m (i + 1) a k (by omega) (by omega) h
        · rename_i hd
          simp only [hd, if_false]
          split at h
          · rename_i hdot
            simp only [hdot, if_true]
            split at h
            · cases h
            · rename_i ha
              simp only [ha, if_false]
              exact ih m (i + 1) true k (by omega) (by omega) h
          · rename_i hdot
            simp only [hdot, if_false]
            simp only [Res.ok.injEq] at h
            rw [h]; simp
    · rw [numberDigitsLoop] at h
      simp only [hlt, if_false, Res.ok.injEq] at h
      subst h
      exact numberDigitsLoop_beyond w1 hw2 j n2 a (by simp only [Json.jsonLen] at hlt; omega)

theorem exponentDigitsLoop_embed (w1 : List Nat) {w2 : List Nat}
    (hw2 : ∀ b ∈ w2, isWhitespace b = true) (j : Json) (n : Nat) :
    ∀ (n2 i k : Nat), j.jsonLen - i ≤ n →
      (j.embed w1 w2).jsonLen - (w1.length + i) ≤ n2 →
      exponentDigitsLoop n j i = .ok k →
      exponentDigitsLoop n2 (j.embed w1 w2) (w1.length + i) = .ok (w1.length + k) := by
  induction n with
  | zero =>
    intro n2 i k hn hn2 h
    simp only [exponentDigitsLoop, Res.ok.injEq] at h
    subst h
    exact exponentDigitsLoop_beyond w1 hw2 j n2 (by simp only [Json.jsonLen] at hn; omega)
  | succ n ih =>
    intro n2 i k hn hn2 h
    by_cases hlt : i < j.jsonLen
    · rw [exponentDigitsLoop] at h
      simp only [hlt, if_true] at h
      have hlt2 : w1.length + i < (j.embed w1 w2).jsonLen := by
        rw [embed_jsonLen]; omega
      obtain ⟨m, rfl⟩ : ∃ m, n2 = m + 1 := ⟨n2 - 1, by omega⟩
      rw [exponentDigitsLoop]
      simp only [hlt2, if_true, embed_get w1 w2 j hlt]
      cases hc : j.json[i]? with
      | none => simp [hc] at h
      | some c =>
        simp only [hc] at h ⊢
        split at h
        · rename_i hd
          simp only [hd, if_true]
          exact ih m (i + 1) k (by omega) (by omega) h
        · rename_i hd
          simp only [hd, if_false]
          simp only [Res.ok.injEq] at h
          rw [h]; simp
    · rw [exponentDigitsLoop] at h
      simp only [hlt, if_false, Res.ok.injEq] at h
      subst h
      exact exponentDigitsLoop_beyond w1 hw2 j n2 (by simp only [Json.jsonLen] at hlt; omega)

theorem numberExponent_embed (w1 : List Nat) {w2 : List Nat}
    (hw2 : ∀ b ∈ w2, isWhitespace b = true) (j : Json) {i k : Nat}
    (h : numberExponent j i = .ok k) :
    numberExponent (j.embed w1 w2) (w1.length + i) = .ok (w1.length + k) := by
  unfold numberExponent at h ⊢
  have hlen := embed_jsonLen w1 w2 j
  by_cases hge : j.jsonLen ≥ i + 2
  · have hge2 : (j.embed w1 w2).jsonLen ≥ w1.length + i + 2 := by omega
    simp only [hge, if_true] at h
    simp only [hge2, if_true]
    simp only [Json.jsonLen] at hge
    rw [embed_get w1 w2 j (show i < j.json.length by omega)]
    cases ha : j.json[i]? with
    | none => simp [ha] at h
    | some a =>
      simp only [ha] at h ⊢
      by_cases hae : a = 101 ∨ a = 69
      · simp only [hae, if_true] at h ⊢
        rw [Nat.add_assoc, embed_get w1 w2 j (show i + 1 < j.json.length by omega)]
        cases hb : j.json[i + 1]? with
        | none => simp [hb] at h
        | some b =>
          simp only [hb] at h ⊢
          by_cases hbs : b = 43 ∨ b = 45
          · simp only [hbs, if_true] at h ⊢
            cases hc : j.json[i + 2]? with
            | none => simp [hc] at h
            | some c =>
              rw [Nat.add_assoc, embed_get w1 w2 j (lt_of_getElem? hc), hc]
              simp only [hc] at h ⊢
              by_cases hcd : c > 47 ∧ c < 58
              · simp only [hcd, and_self, if_true] at h ⊢
                have := exponentDigitsLoop_embed w1 hw2 j _
                  ((j.embed w1 w2).jsonLen - (w1.length + i + 2)) (i + 2) k (Nat.le_refl _)
                  (by omega) h
                rw [← Nat.add_assoc] at this
                exact this
              · simp only [hcd, if_false, Res.ok.injEq] at h ⊢
                omega
          · simp only [hbs, if_false, Res.ok.injEq] at h ⊢
            omega
      · simp only [hae, if_false, Res.ok.injEq] at h ⊢
        omega
  · simp only [hge, if_false, Res.ok.injEq] at h
    subst h
    simp only [Json.jsonLen] at hge
    split
    · rename_i hge2
      have hin : w1.length + i < (j.embed w1 w2).json.length := by
        simp only [Json.jsonLen] at hge2; omega
      obtain ⟨a, ha⟩ := getElem?_of_lt hin
      simp only [ha]
      by_cases hae : a = 101 ∨ a = 69
      · simp only [hae, if_true]
        have hin2 : w1.length + i + 1 < (j.embed w1 w2).json.length := by
          simp only [Json.jsonLen] at hge2; omega
        obtain ⟨b, hb⟩ := getElem?_of_lt hin2
        simp only [hb]
        have hbw : isWhitespace b = true := by
          rw [Nat.add_assoc] at hb
          exact embed_get_beyond w1 hw2 j (by omega) hb
        have : ¬ (b = 43 ∨ b = 45) := by
          rintro (rfl | rfl) <;> simp [isWhitespace] at hbw
        simp [this]
      · simp [hae]
    · rfl

theorem slice_embed (w1 w2 : List Nat) (j : Json) {a b : Nat} (hb : b ≤ j.json.length) :
    slice (j.embed w1 w2).json (w1.length + a) (w1.length + b) = slice j.json a b := by
  unfold slice
  rw [embed_drop, Nat.add_sub_add_left]
  by_cases hab : a ≤ b
  · rw [List.take_append_of_le_length (by rw [List.length_drop]; omega)]
  · have : b - a = 0 := by omega
    simp [this]

theorem parseNumber_embed (w1 : List Nat) {w2 : List Nat}
    (hw2 : ∀ b ∈ w2, isWhitespace b = true) {j : Json} {p : Value × Json}
    (h : parseNumber j = .ok p) : parseNumber (j.embed w1 w2) = .ok (p.1, p.2.embed w1 w2) := by
  obtain ⟨i0, _, _, _, hi0⟩ := @parseNumber_ok j p.2 p.1 h
  unfold parseNumber at h ⊢
  obtain ⟨bad, h1, h⟩ := Res.bind_eq_ok.mp h
  have hm : minusWithoutDigit (j.embed w1 w2) = .ok bad := by
    unfold minusWithoutDigit at h1 ⊢
    have c1 : (j.embed w1 w2).cursor = w1.length + j.cursor := rfl
    cases hc0 : j.json[j.cursor]? with
    | none => simp [hc0] at h1
    | some c0 =>
      rw [c1, embed_get_some w1 w2 j hc0]
      simp only [hc0] at h1 ⊢
      split at h1
      · rename_i h45
        simp only [h45, if_true]
        cases hc1 : j.json[j.cursor + 1]? with
        | none => simp [hc1] at h1
        | some c1 =>
          rw [Nat.add_assoc, embed_get_some w1 w2 j hc1]
          simp only [hc1] at h1 ⊢
          exact h1
      · rename_i h45
        simp only [h45, if_false]
        exact h1
  rw [hm]
  simp only [Res.bind_ok]
  split at h
  · cases h
  · rename_i hbad
    simp only [hbad, if_false]
    obtain ⟨i, h2, h⟩ := Res.bind_eq_ok.mp h
    obtain ⟨k, h3, h⟩ := Res.bind_eq_ok.mp h
    have hlen := embed_jsonLen w1 w2 j
    have c1 : (j.embed w1 w2).cursor = w1.length + j.cursor := rfl
    have e2 := numberDigitsLoop_embed w1 hw2 j _
      ((j.embed w1 w2).jsonLen - (w1.length + j.cursor + 1)) (j.cursor + 1) false i
      (Nat.le_refl _) (by omega) h2
    rw [← Nat.add_assoc] at e2
    rw [c1, e2]
    simp only [Res.bind_ok]
    rw [numberExponent_embed w1 hw2 j h3]
    simp only [Res.bind_ok, Res.ok.injEq] at h ⊢
    subst h
    have b1 := numberDigitsLoop_bounds _ _ _ _ h2
    have b2 := numberExponent_bounds _ _ h3
    have hk : k ≤ j.json.length := by
      simp only [Json.jsonLen] at hi0 b1 b2 ⊢
      omega
    rw [slice_embed w1 w2 j hk]
    simp [Json.embed]

theorem hexToRune_embed (w1 w2 : List Nat) {j : Json} {p : Nat × Json}
    (h : hexToRune j = .ok p) : hexToRune (j.embed w1 w2) = .ok (p.1, p.2.embed w1 w2) := by
  unfold hexToRune at h ⊢
  split at h
  · cases h
  · rename_i hlen
    simp only [Json.jsonLen, Nat.not_lt] at hlen
    have hl : ¬ (j.embed w1 w2).jsonLen < (j.embed w1 w2).cursor + 4 := by
      rw [embed_jsonLen]; simp only [Json.embed, Json.jsonLen]; omega
    have c1 : (j.embed w1 w2).cursor = w1.length + j.cursor := rfl
    simp only [hl, if_false, c1]
    rw [Nat.add_assoc, slice_embed w1 w2 j hlen]
    split at h
    · rename_i r hr
      simp only [Res.ok.injEq] at h
      subst h
      simp [hr, Json.embed, Nat.add_assoc, Json.jsonLen]
      omega
    · cases h

theorem parseUnicode_embed (w1 w2 : List Nat) {j : Json} {p : Nat × Json}
    (h : parseUnicode j = .ok p) : parseUnicode (j.embed w1 w2) = .ok (p.1, p.2.embed w1 w2) := by
  unfold parseUnicode at h ⊢
  obtain ⟨q, h1, h⟩ := Res.bind_eq_ok.mp h
  have e1 := hexToRune_embed w1 w2 h1
  have c0 : ({ j.embed w1 w2 with cursor := (j.embed w1 w2).cursor + 1 } : Json) =
      ({ j with cursor := j.cursor + 1 } : Json).embed w1 w2 := rfl
  rw [c0, e1]
  simp only [Res.bind_ok]
  have cq : (q.2.embed w1 w2).cursor = w1.length + q.2.cursor := rfl
  split at h
  · rename_i hs
    simp only [hs, if_true]
    cases ha : q.2.json[q.2.cursor + 1]? with
    | none => simp [ha] at h
    | some a =>
      rw [cq, Nat.add_assoc, embed_get_some w1 w2 q.2 ha]
      simp only [ha] at h ⊢
      split at h
      · rename_i hne
        rw [if_pos hne]
        simp only [Res.ok.injEq] at h ⊢
        subst h; rfl
      · rename_i hne
        rw [if_neg hne]
        cases hb : q.2.json[q.2.cursor + 2]? with
        | none => simp [hb] at h
        | some b =>
          rw [Nat.add_assoc, embed_get_some w1 w2 q.2 hb]
          simp only [hb] at h ⊢
          split at h
          · rename_i hne2
            rw [if_pos hne2]
            simp only [Res.ok.injEq] at h ⊢
            subst h; rfl
          · rename_i hne2
            rw [if_neg hne2]
            obtain ⟨q2, h2, h⟩ := Res.bind_eq_ok.mp h
            have e2 := hexToRune_embed w1 w2 h2
            have c2 : ({ q.2.embed w1 w2 with cursor := w1.length + q.2.cursor + 3 } : Json) =
                ({ q.2 with cursor := q.2.cursor + 3 } : Json).embed w1 w2 := rfl
            rw [c2, e2]
            simp only [Res.bind_ok, Res.ok.injEq] at h ⊢
            subst h; rfl
  · rename_i hs
    simp only [hs, if_false]
    simp only [Res.ok.injEq] at h ⊢
    subst h; rfl

theorem parseEscape_embed (w1 w2 : List Nat) {e : Nat} {j j2 : Json}
    (h : parseEscape e j = .ok j2) : parseEscape e (j.embed w1 w2) = .ok (j2.embed w1 w2) := by
  unfold parseEscape at h ⊢
  repeat' split at h
  all_goals first
    | (obtain ⟨p, h1, h⟩ := Res.bind_eq_ok.mp h
       simp only [Res.ok.injEq] at h; subst h
       simp only [*, if_true, if_false, parseUnicode_embed w1 w2 h1, Res.bind_ok]; rfl)
    | (simp only [Res.ok.injEq] at h; subst h; simp only [*, if_true, if_false]; rfl)
    | (simp only [Res.ok.injEq] at h; subst h; simp [*])

theorem parseStringLoop_embed (w1 w2 : List Nat) (n : Nat) :
    ∀ (n2 : Nat) (j : Json) (p : List Nat × Json), n ≤ n2 → parseStringLoop n j = .ok p →
      parseStringLoop n2 (j.embed w1 w2) = .ok (p.1, p.2.embed w1 w2) := by
  induction n with
  | zero => intro n2 j p _ h; simp [parseStringLoop] at h
  | succ n ih =>
    intro n2 j p hle h
    obtain ⟨m, rfl⟩ : ∃ m, n2 = m + 1 := ⟨n2 - 1, by omega⟩
    rw [parseStringLoop] at h ⊢
    split at h
    · rename_i hlt
      have hlt2 : (j.embed w1 w2).cursor < (j.embed w1 w2).jsonLen := by
        rw [embed_jsonLen]; simp only [Json.embed]; omega
      have c1 : (j.embed w1 w2).cursor = w1.length + j.cursor := rfl
      simp only [hlt2, if_true]
      cases hc : j.json[j.cursor]? with
      | none => simp [hc] at h
      | some c =>
        rw [c1, embed_get_some w1 w2 j hc]
        simp only [hc] at h ⊢
        split at h
        · rename_i hq
          simp only [hq, if_true]
          simp only [Res.ok.injEq] at h ⊢
          subst h; rfl
        · rename_i hq
          simp only [hq, if_false]
          split at h
          · rename_i hbs
            simp only [hbs, if_true]
            cases he : j.json[j.cursor + 1]? with
            | none => simp [he] at h
            | some e =>
              rw [Nat.add_assoc, embed_get_some w1 w2 j he]
              simp only [he] at h ⊢
              obtain ⟨j2, h1, h⟩ := Res.bind_eq_ok.mp h
              have e1 := @parseEscape_embed w1 w2 e { j with cursor := j.cursor + 1 } j2 h1
              have c2 : ({ j.embed w1 w2 with cursor := w1.length + (j.cursor + 1) } : Json) =
                  ({ j with cursor := j.cursor + 1 } : Json).embed w1 w2 := rfl
              rw [c2, e1]
              simp only [Res.bind_ok]
              exact ih m { j2 with cursor := j2.cursor + 1 } p (by omega) h
          · rename_i hbs
            simp only [hbs, if_false]
            exact ih m { j with cursor := j.cursor + 1, buffer := j.buffer ++ [c] } p
              (by omega) h
    · cases h

theorem parseString_embed (w1 w2 : List Nat) {j : Json} {p : List Nat × Json}
    (h : parseString j = .ok p) : parseString (j.embed w1 w2) = .ok (p.1, p.2.embed w1 w2) := by
  unfold parseString at h ⊢
  obtain ⟨q, h1, h⟩ := Res.bind_eq_ok.mp h
  have hlen := embed_jsonLen w1 w2 j
  have c1 : (j.embed w1 w2).cursor = w1.length + j.cursor := rfl
  have e1 := parseStringLoop_embed w1 w2 _
    ((j.embed w1 w2).jsonLen - ((j.embed w1 w2).cursor + 1)) { j with cursor := j.cursor + 1 } q
    (by rw [c1]; omega) h1
  have c2 : ({ j.embed w1 w2 with cursor := (j.embed w1 w2).cursor + 1 } : Json) =
      ({ j with cursor := j.cursor + 1 } : Json).embed w1 w2 := rfl
  rw [c2, e1]
  simp only [Res.bind_ok, Res.ok.injEq] at h ⊢
  subst h; rfl

theorem skipWhitespaces_embed_skip (w1 : List Nat) {w2 : List Nat}
    (hw2 : ∀ b ∈ w2, isWhitespace b = true) (q : Json) (hq : q.cursor ≤ q.jsonLen) :
    skipWhitespaces ((skipWhitespaces q).embed w1 w2) = skipWhitespaces (q.embed w1 w2) := by
  by_cases hlt : (skipWhitespaces q).cursor < q.jsonLen
  · rw [skipWhitespaces_embed w1 w2 q hlt, ← skipWhitespaces_embed w1 w2 q hlt,
      skipWhitespaces_idem]
  · have hle := skipWhitespaces_cursor_le q hq
    have heq : (skipWhitespaces q).cursor = (skipWhitespaces q).jsonLen := by
      rw [(skipWhitespaces_fuel q).1]; omega
    rw [skipWhitespaces_embed_end w1 hw2 _ heq]
    rw [skipWhitespaces_eq q] at heq ⊢
    simp only [Json.jsonLen] at heq hq
    rw [skipWhitespaces_eq (q.embed w1 w2)]
    have c1 : (q.embed w1 w2).cursor = w1.length + q.cursor := rfl
    rw [c1, embed_drop]
    have hfull : wsLen (q.json.drop q.cursor) = (q.json.drop q.cursor).length := by
      rw [List.length_drop]; omega
    rw [wsLen_append_of_eq _ hfull, List.length_drop]
    have : q.cursor - q.json.length = 0 := by omega
    rw [this, List.drop_zero, wsLen_all hw2]
    simp only [Json.embed, Json.jsonLen, List.length_append]
    congr 1
    omega

theorem skipWhitespaces_embed_of_skipped (w1 w2 : List Nat) {j : Json}
    (hs : wsLen (j.json.drop j.cursor) = 0) (hlt : j.cursor < j.jsonLen) :
    skipWhitespaces (j.embed w1 w2) = j.embed w1 w2 := by
  have e : skipWhitespaces j = j := by
    rw [skipWhitespaces_eq, hs]; rfl
  have := skipWhitespaces_embed w1 w2 j (by rw [e]; exact hlt)
  rw [e] at this
  exact this

theorem parseListLoop_ok_lt {f : Nat} {j : Json} {key : Nat} {ev : Bool} {l : List Value}
    {cl : Value} {p : Value × Json} (h : parseListLoop f j key ev l cl = .ok p) :
    j.cursor < j.jsonLen := by
  cases f with
  | zero => cases h
  | succ f =>
    rw [parseListLoop_succ] at h
    split at h
    · assumption
    · cases h

theorem parseObjectLoop_ok_lt {f : Nat} {j : Json} {c : Nat} {ei : Bool} {m : Value}
    {p : Value × Json} (h : parseObjectLoop f j c ei m = .ok p) : j.cursor < j.jsonLen := by
  cases f with
  | zero => cases h
  | succ f =>
    rw [parseObjectLoop_succ] at h
    split at h
    · assumption
    · cases h

theorem Advanced.cursor_le {j j2 : Json} (h : Advanced j j2) : j2.cursor ≤ j2.jsonLen := by
  obtain ⟨a1, a2, a3⟩ := h.fuel
  omega

/-- The last step of the dispatcher in the embedded decoder. -/
theorem parseValue_embed_finish (w1 : List Nat) {w2 : List Nat}
    (hw2 : ∀ b ∈ w2, isWhitespace b = true) {s : Json} {q p : Value × Json}
    (hadv : Advanced s q.2) (h : Res.ok (q.1, skipWhitespaces q.2) = Res.ok p)
    {R : Res (Value × Json)} (hR : R = .ok (q.1, q.2.embed w1 w2)) :
    (R.bind fun p => .ok (p.1, skipWhitespaces p.2)) =
      .ok (p.1, skipWhitespaces (p.2.embed w1 w2)) := by
  simp only [Res.ok.injEq] at h
  subst h
  rw [hR]
  simp only [Res.bind_ok]
  rw [skipWhitespaces_embed_skip w1 hw2 _ hadv.cursor_le]

/-- Decoding does not depend on where the input sits: every successful parsing operation of
the decoder `j` succeeds with the same value when the input is placed between `w1` and
whitespace `w2`, at cursors moved along by the length of `w1` (the dispatcher, which skips
trailing whitespace, then skips into `w2` as well). -/
theorem parse_embed (w1 : List Nat) {w2 : List Nat} (hw2 : ∀ b ∈ w2, isWhitespace b = true)
    (f : Nat) :
    (∀ j p, parseValue f j = .ok p →
      parseValue f (j.embed w1 w2) = .ok (p.1, skipWhitespaces (p.2.embed w1 w2))) ∧
    (∀ j p, parseList f j = .ok p →
      parseList f (j.embed w1 w2) = .ok (p.1, p.2.embed w1 w2)) ∧
    (∀ j key ev l cl p, parseListLoop f j key ev l cl = .ok p →
      parseListLoop f (j.embed w1 w2) key ev l cl = .ok (p.1, p.2.embed w1 w2)) ∧
    (∀ j p, parseObject f j = .ok p →
      parseObject f (j.embed w1 w2) = .ok (p.1, p.2.embed w1 w2)) ∧
    (∀ j c ei m p, parseObjectLoop f j c ei m = .ok p →
      parseObjectLoop f (j.embed w1 w2) c ei m = .ok (p.1, p.2.embed w1 w2)) := by
  induction f with
  | zero =>
    refine ⟨?_, ?_, ?_, ?_, ?_⟩ <;> intros <;> rename_i h <;> cases h
  | succ f ih =>
    obtain ⟨ihV, ihL, ihLL, ihO, ihOL⟩ := ih
    refine ⟨?_, ?_, ?_, ?_, ?_⟩
    · intro j p h
      rw [parseValue_succ] at h ⊢
      split at h
      · rename_i hlt
        rw [skipWhitespaces_embed w1 w2 j (by rw [← (skipWhitespaces_fuel j).1]; exact hlt)]
        have hlt2 : ((skipWhitespaces j).embed w1 w2).cursor <
            ((skipWhitespaces j).embed w1 w2).jsonLen := by
          rw [embed_jsonLen]; simp only [Json.embed]; omega
        have c1 : ((skipWhitespaces j).embed w1 w2).cursor =
            w1.length + (skipWhitespaces j).cursor := rfl
        simp only [hlt2, if_true]
        cases hc : (skipWhitespaces j).json[(skipWhitespaces j).cursor]? with
        | none => simp [hc] at h
        | some c =>
          rw [c1, embed_get_some w1 w2 _ hc]
          simp only [hc] at h ⊢
          obtain ⟨q, h1, h⟩ := Res.bind_eq_ok.mp h
          split at h1
          · rename_i c0
            rw [if_pos c0]
            exact parseValue_embed_finish w1 hw2 (Advanced.of_number h1) h
              (parseNumber_embed w1 hw2 h1)
          rename_i c0
          rw [if_neg c0]
          split at h1
          · rename_i c1
            rw [if_pos c1]
            obtain ⟨s, h2, h1⟩ := Res.bind_eq_ok.mp h1
            simp only [Res.ok.injEq] at h1
            subst h1
            exact parseValue_embed_finish w1 hw2 (Advanced.of_string h2) h
              (by rw [parseString_embed w1 w2 h2]; rfl)
          rename_i c1
          rw [if_neg c1]
          split at h1
          · rename_i c2
            rw [if_pos c2]
            exact parseValue_embed_finish w1 hw2 (Advanced.of_true h1) h
              (parseTrue_embed w1 w2 h1)
          rename_i c2
          rw [if_neg c2]
          split at h1
          · rename_i c3
            rw [if_pos c3]
            exact parseValue_embed_finish w1 hw2 (Advanced.of_false h1) h
              (parseFalse_embed w1 w2 h1)
          rename_i c3
          rw [if_neg c3]
          split at h1
          · rename_i c4
            rw [if_pos c4]
            exact parseValue_embed_finish w1 hw2 (Advanced.of_null h1) h
              (parseNull_embed w1 w2 h1)
          rename_i c4
          rw [if_neg c4]
          split at h1
          · rename_i c5
            rw [if_pos c5]
            exact parseValue_embed_finish w1 hw2 ((parse_advanced f).2.1 _ _ h1) h
              (ihL _ _ h1)
          rename_i c5
          rw [if_neg c5]
          split at h1
          · rename_i c6
            rw [if_pos c6]
            exact parseValue_embed_finish w1 hw2 ((parse_advanced f).2.2.2.1 _ _ h1) h
              (ihO _ _ h1)
          · cases h1
      · cases h
    · intro j p h
      rw [parseList_succ] at h ⊢
      have hlt := parseListLoop_ok_lt h
      have c2 : ({ j.embed w1 w2 with cursor := (j.embed w1 w2).cursor + 1 } : Json) =
          ({ j with cursor := j.cursor + 1 } : Json).embed w1 w2 := rfl
      rw [c2, skipWhitespaces_embed w1 w2 _ (by rw [(skipWhitespaces_fuel _).1] at hlt; exact hlt)]
      exact ihLL _ _ _ _ _ _ h
    · intro j key ev l cl p h
      have hlt := parseListLoop_ok_lt h
      rw [parseListLoop_succ] at h ⊢
      have hlt2 : (j.embed w1 w2).cursor < (j.embed w1 w2).jsonLen := by
        rw [embed_jsonLen]; simp only [Json.embed]; omega
      have c1 : (j.embed w1 w2).cursor = w1.length + j.cursor := rfl
      simp only [hlt, hlt2, if_true] at h ⊢
      cases hc : j.json[j.cursor]? with
      | none => simp [hc] at h
      | some c =>
        rw [c1, embed_get_some w1 w2 _ hc]
        simp only [hc] at h ⊢
        split at h
        · rename_i c0
          rw [if_pos c0]
          split at h
          · cases h
          · rename_i c1
            rw [if_neg c1]
            exact ihLL _ _ _ _ _ _ h
        rename_i c0
        rw [if_neg c0]
        split at h
        · rename_i c1
          rw [if_pos c1]
          split at h
          · cases h
          · rename_i c2
            rw [if_neg c2]
            split at h
            · rename_i c3
              have c3e : (j.embed w1 w2).listBuilder.isNone = true := c3
              rw [if_pos c3e]
              simp only [Res.ok.injEq] at h ⊢
              subst h; rfl
            · rename_i c3
              have c3e : ¬ (j.embed w1 w2).listBuilder.isNone = true := c3
              rw [if_neg c3e]
              simp only [Res.ok.injEq] at h ⊢
              subst h; rfl
        · rename_i c1
          rw [if_neg c1]
          obtain ⟨q, h1, h⟩ := Res.bind_eq_ok.mp h
          obtain ⟨q2, h2, h⟩ := Res.bind_eq_ok.mp h
          have hlt3 := parseListLoop_ok_lt h
          rw [ihV _ _ h1]
          simp only [Res.bind_ok]
          rw [skipWhitespaces_embed_of_skipped w1 w2 (parseValue_skipped h1) hlt3]
          have hp : pushListItem (q.2.embed w1 w2) l cl key q.1 = .ok q2 := h2
          rw [hp]
          simp only [Res.bind_ok]
          exact ihLL _ _ _ _ _ _ h
    · intro j p h
      rw [parseObject_succ] at h ⊢
      have hlt := parseObjectLoop_ok_lt h
      have c2 : ({ j.embed w1 w2 with cursor := (j.embed w1 w2).cursor + 1 } : Json) =
          ({ j with cursor := j.cursor + 1 } : Json).embed w1 w2 := rfl
      rw [c2, skipWhitespaces_embed w1 w2 _ (by rw [(skipWhitespaces_fuel _).1] at hlt; exact hlt)]
      exact ihOL _ _ _ _ _ h
    · intro j c ei m p h
      have hlt := parseObjectLoop_ok_lt h
      rw [parseObjectLoop_succ] at h ⊢
      have hlt2 : (j.embed w1 w2).cursor < (j.embed w1 w2).jsonLen := by
        rw [embed_jsonLen]; simp only [Json.embed]; omega
      have c1 : (j.embed w1 w2).cursor = w1.length + j.cursor := rfl
      simp only [hlt, hlt2, if_true] at h ⊢
      cases hc : j.json[j.cursor]? with
      | none => simp [hc] at h
      | some b =>
        rw [c1, embed_get_some w1 w2 _ hc]
        simp only [hc] at h ⊢
        split at h
        · rename_i c0
          rw [if_pos c0]
          obtain ⟨k, h1, h⟩ := Res.bind_eq_ok.mp h
          rw [parseString_embed w1 w2 h1]
          simp only [Res.bind_ok]
          split at h
          · cases h
          · rename_i hge
            have hlt4 : (skipWhitespaces k.2).cursor < k.2.jsonLen := by
              rw [(skipWhitespaces_fuel _).1] at hge; omega
            rw [skipWhitespaces_embed w1 w2 _ hlt4]
            have hge2 : ¬ ((skipWhitespaces k.2).embed w1 w2).cursor ≥
                ((skipWhitespaces k.2).embed w1 w2).jsonLen := by
              rw [embed_jsonLen]; simp only [Json.embed]
              rw [(skipWhitespaces_fuel _).1]; omega
            rw [if_neg hge2]
            have c3 : ((skipWhitespaces k.2).embed w1 w2).cursor =
                w1.length + (skipWhitespaces k.2).cursor := rfl
            cases hcol : (skipWhitespaces k.2).json[(skipWhitespaces k.2).cursor]? with
            | none => simp [hcol] at h
            | some colon =>
              rw [c3, embed_get_some w1 w2 _ hcol]
              simp only [hcol] at h ⊢
              split at h
              · cases h
              · rename_i hne
                rw [if_neg hne]
                obtain ⟨q, h2, h⟩ := Res.bind_eq_ok.mp h
                obtain ⟨m2, h3, h⟩ := Res.bind_eq_ok.mp h
                have hlt3 := parseObjectLoop_ok_lt h
                have c4 : ({ (skipWhitespaces k.2).embed w1 w2 with
                    cursor := w1.length + (skipWhitespaces k.2).cursor + 1 } : Json) =
                    ({ skipWhitespaces k.2 with
                      cursor := (skipWhitespaces k.2).cursor + 1 } : Json).embed w1 w2 := rfl
                rw [c4, ihV _ _ h2]
                simp only [Res.bind_ok]
                rw [skipWhitespaces_embed_of_skipped w1 w2 (parseValue_skipped h2) hlt3]
                have hp : pushObjectItem (q.2.embed w1 w2) m k.1 q.1 = .ok m2 := h3
                rw [hp]
                simp only [Res.bind_ok]
                exact ihOL _ _ _ _ _ h
        rename_i c0
        rw [if_neg c0]
        split at h
        · rename_i c1
          rw [if_pos c1]
          split at h
          · cases h
          · rename_i c2
            rw [if_neg c2]
            have hlt3 := parseObjectLoop_ok_lt h
            have c2 : ({ j.embed w1 w2 with cursor := w1.length + j.cursor + 1 } : Json) =
                ({ j with cursor := j.cursor + 1 } : Json).embed w1 w2 := rfl
            rw [c2, skipWhitespaces_embed w1 w2 _
              (by rw [(skipWhitespaces_fuel _).1] at hlt3; exact hlt3)]
            exact ihOL _ _ _ _ _ h
        rename_i c1
        rw [if_neg c1]
        split at h
        · rename_i c2
          rw [if_pos c2]
          split at h
          · cases h
          · rename_i c3
            rw [if_neg c3]
            simp only [Res.ok.injEq] at h ⊢
            subst h; rfl
        · cases h

/-- Whitespace around the input of a decoder at cursor 0 does not change the decoded value
(with or without hooks). -/
theorem Decode_surrounded (j : Json) (hcur : j.cursor = 0) (w1 w2 : List Nat)
    (hw1 : ∀ b ∈ w1, isWhitespace b = true) (hw2 : ∀ b ∈ w2, isWhitespace b = true)
    (v : Value) (h : Decode j = .ok v) :
    Decode { j with json := w1 ++ j.json ++ w2 } = .ok v := by
  unfold Decode at h
  obtain ⟨p, h1, h⟩ := Res.bind_eq_ok.mp h
  have hadv := (parse_advanced _).1 _ _ h1
  obtain ⟨a1, a2, a3⟩ := hadv.fuel
  have hend : p.2.cursor = p.2.jsonLen := by
    split at h
    · omega
    · cases h
  have hv : p.1 = v := by
    split at h
    · simpa using h
    · cases h
  have e1 := (parse_embed w1 hw2 _).1 _ _ h1
  rw [skipWhitespaces_embed_end w1 hw2 _ hend] at e1
  have hsk : skipWhitespaces { j with json := w1 ++ j.json ++ w2 } =
      skipWhitespaces (j.embed w1 w2) := by
    rw [skipWhitespaces_eq, skipWhitespaces_eq (j.embed w1 w2)]
    have c1 : (j.embed w1 w2).cursor = w1.length + j.cursor := rfl
    rw [c1, embed_drop]
    simp only [hcur, List.drop_zero, Nat.zero_sub, Nat.add_zero, Nat.zero_add]
    rw [List.append_assoc, wsLen_append_of_eq _ (wsLen_all hw1)]
    simp [Json.embed, hcur]
  have hfuel : decodeFuel j ≤ decodeFuel { j with json := w1 ++ j.json ++ w2 } := by
    simp only [decodeFuel, Json.jsonLen, List.length_append]; omega
  have e2 := parseValue_fuel_mono (by rw [e1]; simp) hfuel
  rw [e1] at e2
  unfold Decode
  rw [← parseValue_skip, hsk, parseValue_skip, e2]
  simp only [Res.bind_ok]
  have : (j.embed w1 w2).jsonLen ≥ (j.embed w1 w2).jsonLen := Nat.le_refl _
  have hj : ({ p.2.embed w1 w2 with cursor := (p.2.embed w1 w2).jsonLen } : Json).jsonLen =
      (p.2.embed w1 w2).jsonLen := rfl
  simp only [hj, ge_iff_le, Nat.le_refl, if_true, hv]

/-- C3: if `Decode` succeeds on the input `s` with the value `v`, it succeeds with the same
value on `w1 ++ s ++ w2` for all sequences `w1`, `w2` of space, tab, CR and LF bytes. -/
theorem C3_surrounding_whitespace (s w1 w2 : List Nat) (v : Value)
    (hw1 : ∀ b ∈ w1, isWhitespace b = true) (hw2 : ∀ b ∈ w2, isWhitespace b = true)
    (h : Decode (Bytes s) = .ok v) : Decode (Bytes (w1 ++ s ++ w2)) = .ok v :=
  Decode_surrounded (Bytes s) rfl w1 w2 hw1 hw2 v h

/-- C3, at the input `[1]` with CR LF TAB blank in front and behind (as in the tests). -/
theorem C3_surrounding_whitespace_witness :
    Decode (Bytes (ascii "[1]")) = .ok (.list [.number (ascii "1")]) ∧
    Decode (Bytes (ascii "\r\n\t " ++ ascii "[1]" ++ ascii "\r\n\t ")) =
      .ok (.list [.number (ascii "1")]) :=
  ⟨by decide!, C3_surrounding_whitespace (ascii "[1]") (ascii "\r\n\t ") (ascii "\r\n\t ") _
    (by decide) (by decide) (by decide!)⟩

/-! ## The decoder on well-formed texts -/

theorem Ws.isWhitespace {w : List Nat} (h : Ws w) : ∀ b ∈ w, isWhitespace b = true := by
  intro b hb
  rcases h b hb with rfl | rfl | rfl | rfl <;> decide

theorem Digit.isDigit {d : Nat} (h : Digit d) : isDigit d = true := by
  obtain ⟨h1, h2⟩ := h
  simp only [JsonDecoder.isDigit, decide_eq_true_eq]
  omega

theorem Digit.facts {d : Nat} (h : Digit d) :
    isWhitespace d = false ∧ d ≠ 45 ∧ d ≠ 46 ∧ d ≠ 34 ∧ d ≠ 92 := by
  obtain ⟨h1, h2⟩ := h
  refine ⟨?_, by omega, by omega, by omega, by omega⟩
  simp only [JsonDecoder.isWhitespace, Bool.or_eq_false_iff, decide_eq_false_iff_not]
  omega

/-- Reading at the cursor, given the rest of the input from the cursor on. -/
theorem get_of_drop {l : List Nat} {c : Nat} {rest : List Nat} (h : l.drop c = rest)
    (k : Nat) : l[c + k]? = rest[k]? := by
  rw [← h, List.getElem?_drop]

theorem get_of_drop_zero {l : List Nat} {c : Nat} {rest : List Nat} (h : l.drop c = rest) :
    l[c]? = rest[0]? := by
  have := get_of_drop h 0
  simpa using this

theorem length_of_drop {l : List Nat} {c : Nat} {a : Nat} {rest : List Nat}
    (h : l.drop c = a :: rest) : l.length = c + (rest.length + 1) := by
  have h1 := congrArg List.length h
  rw [List.length_drop] at h1
  simp only [List.length_cons] at h1
  omega

theorem drop_add_of_drop {l : List Nat} {c : Nat} {t rest : List Nat}
    (h : l.drop c = t ++ rest) : l.drop (c + t.length) = rest := by
  rw [← List.drop_drop, h, List.drop_left]

/-- Skipping whitespace `w` that is followed by a byte that is not whitespace. -/
theorem skipWhitespaces_ws {j : Json} {w : List Nat} {b : Nat} {rest : List Nat}
    (hd : j.json.drop j.cursor = w ++ b :: rest) (hw : Ws w) (hb : isWhitespace b = false) :
    skipWhitespaces j = { j with cursor := j.cursor + w.length } := by
  rw [skipWhitespaces_eq, hd, wsLen_append_cons hw.isWhitespace hb]

/-- Skipping whitespace `w` that runs to the end of the input. -/
theorem skipWhitespaces_ws_end {j : Json} {w : List Nat}
    (hd : j.json.drop j.cursor = w) (hw : Ws w) :
    skipWhitespaces j = { j with cursor := j.cursor + w.length } := by
  rw [skipWhitespaces_eq, hd, wsLen_all hw.isWhitespace]

theorem onlyWhitespace_of_drop {l : List Nat} {c : Nat} {w rest : List Nat}
    (hd : l.drop c = w ++ rest) (hw : Ws w) : OnlyWhitespace l c (c + w.length) := by
  intro i h1 h2
  obtain ⟨k, rfl⟩ : ∃ k, i = c + k := ⟨i - c, by omega⟩
  have hk : k < w.length := by omega
  refine ⟨w[k], ?_, hw.isWhitespace _ (List.getElem_mem _)⟩
  rw [get_of_drop hd, List.getElem?_append_left hk, List.getElem?_eq_getElem hk]

theorem parseTrue_text {j : Json} {post : List Nat}
    (hd : j.json.drop j.cursor = [0x74, 0x72, 0x75, 0x65] ++ post) :
    parseTrue j = .ok (.bool true, { j with cursor := j.cursor + 4 }) := by
  simp only [List.cons_append, List.nil_append] at hd
  have hlen := length_of_drop hd
  have g1 := get_of_drop hd 1
  have g2 := get_of_drop hd 2
  have g3 := get_of_drop hd 3
  simp only [List.cons_append, List.nil_append, List.length_cons] at hlen g1 g2 g3
  unfold parseTrue
  have : ¬ j.jsonLen < j.cursor + 4 := by simp only [Json.jsonLen]; omega
  simp [this, g1, g2, g3]

theorem parseFalse_text {j : Json} {post : List Nat}
    (hd : j.json.drop j.cursor = [0x66, 0x61, 0x6C, 0x73, 0x65] ++ post) :
    parseFalse j = .ok (.bool false, { j with cursor := j.cursor + 5 }) := by
  simp only [List.cons_append, List.nil_append] at hd
  have hlen := length_of_drop hd
  have g1 := get_of_drop hd 1
  have g2 := get_of_drop hd 2
  have g3 := get_of_drop hd 3
  have g4 := get_of_drop hd 4
  simp only [List.cons_append, List.nil_append, List.length_cons] at hlen g1 g2 g3 g4
  unfold parseFalse
  have : ¬ j.jsonLen < j.cursor + 5 := by simp only [Json.jsonLen]; omega
  simp [this, g1, g2, g3, g4]

theorem parseNull_text {j : Json} {post : List Nat}
    (hd : j.json.drop j.cursor = [0x6E, 0x75, 0x6C, 0x6C] ++ post) :
    parseNull j = .ok (.null, { j with cursor := j.cursor + 4 }) := by
  simp only [List.cons_append, List.nil_append] at hd
  have hlen := length_of_drop hd
  have g1 := get_of_drop hd 1
  have g2 := get_of_drop hd 2
  have g3 := get_of_drop hd 3
  simp only [List.cons_append, List.nil_append, List.length_cons] at hlen g1 g2 g3
  unfold parseNull
  have : ¬ j.jsonLen < j.cursor + 4 := by simp only [Json.jsonLen]; omega
  simp [this, g1, g2, g3]

theorem head_of_drop {l : List Nat} {i : Nat} {rest : List Nat} (h : l.drop i = rest) :
    l[i]? = rest.head? := by
  rw [← h, List.head?_drop]

theorem numberDigitsLoop_stop {j : Json} {i : Nat} {rest : List Nat}
    (hd : j.json.drop i = rest)
    (hstop : ∀ c, rest.head? = some c → isDigit c = false ∧ c ≠ 46) (n : Nat) (a : Bool) :
    numberDigitsLoop n j i a = .ok i := by
  cases n with
  | zero => rfl
  | succ n =>
    rw [numberDigitsLoop]
    split
    · rw [head_of_drop hd]
      cases hh : rest.head? with
      | none => simp only []; rename_i hlt; exfalso
                have := head_of_drop hd
                rw [hh] at this
                have := List.getElem?_eq_none_iff.mp this
                simp only [Json.jsonLen] at hlt; omega
      | some c =>
        obtain ⟨h1, h2⟩ := hstop c hh
        simp [h1, h2]
    · rfl

theorem numberDigitsLoop_digits {j : Json} (ds : List Nat) (hds : ∀ x ∈ ds, Digit x) :
    ∀ (n i : Nat) (a : Bool) (rest : List Nat), j.json.drop i = ds ++ rest → ds.length ≤ n →
      numberDigitsLoop n j i a = numberDigitsLoop (n - ds.length) j (i + ds.length) a := by
  induction ds with
  | nil => intro n i a rest _ _; simp
  | cons d ds ih =>
    intro n i a rest hd hn
    obtain ⟨m, rfl⟩ : ∃ m, n = m + 1 := ⟨n - 1, by simp at hn; omega⟩
    have hdd : Digit d := hds d (by simp)
    obtain ⟨hlt, hget, hrest⟩ := view_cons hd
    rw [numberDigitsLoop]
    have hlt2 : i < j.jsonLen := hlt
    simp only [hlt2, if_true, hget, hdd.isDigit]
    rw [ih (fun x hx => hds x (by simp [hx])) m (i + 1) a rest hrest (by simp at hn; omega)]
    simp only [List.length_cons]
    congr 1
    · omega
    · omega

theorem numberDigitsLoop_dot {j : Json} {i : Nat} (hget : j.json[i]? = some 46) (n : Nat) :
    numberDigitsLoop (n + 1) j i false = numberDigitsLoop n j (i + 1) true := by
  have hlt : i < j.jsonLen := lt_of_getElem? hget
  rw [numberDigitsLoop]
  simp only [hlt, if_true, hget]
  have : isDigit 46 = false := by decide
  simp [this]

theorem exponentDigitsLoop_stop {j : Json} {i : Nat} {rest : List Nat}
    (hd : j.json.drop i = rest)
    (hstop : ∀ c, rest.head? = some c → isDigit c = false) (n : Nat) :
    exponentDigitsLoop n j i = .ok i := by
  cases n with
  | zero => rfl
  | succ n =>
    rw [exponentDigitsLoop]
    split
    · rw [head_of_drop hd]
      cases hh : rest.head? with
      | none => simp only []; rename_i hlt; exfalso
                have := head_of_drop hd
                rw [hh] at this
                have := List.getElem?_eq_none_iff.mp this
                simp only [Json.jsonLen] at hlt; omega
      | some c =>
        simp [hstop c hh]
    · rfl

theorem exponentDigitsLoop_digits {j : Json} (ds : List Nat) (hds : ∀ x ∈ ds, Digit x) :
    ∀ (n i : Nat) (rest : List Nat), j.json.drop i = ds ++ rest → ds.length ≤ n →
      exponentDigitsLoop n j i = exponentDigitsLoop (n - ds.length) j (i + ds.length) := by
  induction ds with
  | nil => intro n i rest _ _; simp
  | cons d ds ih =>
    intro n i rest hd hn
    obtain ⟨m, rfl⟩ : ∃ m, n = m + 1 := ⟨n - 1, by simp at hn; omega⟩
    have hdd : Digit d := hds d (by simp)
    obtain ⟨hlt, hget, hrest⟩ := view_cons hd
    rw [exponentDigitsLoop]
    have hlt2 : i < j.jsonLen := hlt
    simp only [hlt2, if_true, hget, hdd.isDigit]
    rw [ih (fun x hx => hds x (by simp [hx])) m (i + 1) rest hrest (by simp at hn; omega)]
    simp only [List.length_cons]
    congr 1
    · omega
    · omega

theorem ExpPart.head_facts {e : List Nat} (he : ExpPart .restricted e) {post : List Nat}
    (hpost : Terminates post) :
    ∀ c, (e ++ post).head? = some c → isDigit c = false ∧ c ≠ 46 := by
  intro c hc
  cases he with
  | absent => exact ⟨(hpost c hc).1, (hpost c hc).2.1⟩
  | signed ee s ds h1 h2 h3 =>
    simp only [List.cons_append, List.head?_cons, Option.some.injEq] at hc
    subst hc
    rcases h1 with rfl | rfl <;> exact ⟨by decide, by decide⟩
  | unsigned ee ds hg => cases hg

/-- The mantissa scan of `parseNumber`: digits, an optional fraction, then a stop. -/
theorem numberDigitsLoop_mantissa {j : Json} {i : Nat} {D f rest : List Nat}
    (hd : j.json.drop i = D ++ f ++ rest) (hD : ∀ x ∈ D, Digit x) (hf : FracPart f)
    (hstop : ∀ c, rest.head? = some c → isDigit c = false ∧ c ≠ 46) :
    numberDigitsLoop (j.jsonLen - i) j i false = .ok (i + D.length + f.length) := by
  have hlen : j.jsonLen - i = D.length + f.length + rest.length := by
    have := congrArg List.length hd
    simp only [List.length_drop, List.length_append] at this
    exact this
  rw [List.append_assoc] at hd
  rw [numberDigitsLoop_digits D hD _ i false _ hd (by omega)]
  have hd2 := drop_add_of_drop hd
  cases hf with
  | absent =>
    simp only [List.nil_append] at hd2
    rw [numberDigitsLoop_stop hd2 hstop]
    simp
  | present fs hfs =>
    obtain ⟨hne, hfd⟩ := hfs
    simp only [List.cons_append] at hd2
    obtain ⟨_, hget, hrest⟩ := view_cons hd2
    obtain ⟨m, hm⟩ : ∃ m, j.jsonLen - i - D.length = m + 1 :=
      ⟨j.jsonLen - i - D.length - 1, by simp only [List.length_cons] at hlen; omega⟩
    rw [hm, numberDigitsLoop_dot hget]
    rw [numberDigitsLoop_digits fs hfd m _ true rest hrest
      (by simp only [List.length_cons] at hlen; omega)]
    have hd3 := drop_add_of_drop hrest
    rw [numberDigitsLoop_stop hd3 hstop]
    simp only [List.length_cons]
    congr 1
    omega

/-- The exponent part of `parseNumber` on a well-formed exponent with a sign, or none. -/
theorem numberExponent_text {j : Json} {i : Nat} {e post : List Nat}
    (hd : j.json.drop i = e ++ post) (he : ExpPart .restricted e) (hpost : Terminates post) :
    numberExponent j i = .ok (i + e.length) := by
  unfold numberExponent
  cases he with
  | absent =>
    simp only [List.nil_append] at hd
    split
    · rw [head_of_drop hd]
      cases hh : post.head? with
      | none =>
        rename_i hge
        exfalso
        have := head_of_drop hd
        rw [hh] at this
        have := List.getElem?_eq_none_iff.mp this
        simp only [Json.jsonLen] at hge; omega
      | some c =>
        obtain ⟨_, _, h3, h4⟩ := hpost c hh
        simp [h3, h4]
    · simp
  | signed ee s ds h1 h2 h3 =>
    obtain ⟨hne, hds⟩ := h3
    obtain ⟨x0, ds2, rfl⟩ : ∃ x0 ds2, ds = x0 :: ds2 := by
      cases ds with
      | nil => exact absurd rfl hne
      | cons a b => exact ⟨a, b, rfl⟩
    simp only [List.cons_append] at hd
    have hlen := length_of_drop hd
    simp only [List.length_cons, List.length_append] at hlen
    have g0 := get_of_drop hd 0
    have g1 := get_of_drop hd 1
    have g2 := get_of_drop hd 2
    simp only [Nat.add_zero, List.getElem?_cons_zero, List.getElem?_cons_succ] at g0 g1 g2
    have hge : j.jsonLen ≥ i + 2 := by simp only [Json.jsonLen]; omega
    have hx0 : Digit x0 := hds x0 (by simp)
    have hx0' : x0 > 47 ∧ x0 < 58 := by obtain ⟨a, b⟩ := hx0; omega
    simp only [hge, if_true, g0, h1, g1, h2, g2, hx0', and_self]
    have hd2 : j.json.drop (i + 2) = (x0 :: ds2) ++ post := by
      have := @drop_add_of_drop j.json i [ee, s] _ (by simpa using hd)
      simpa using this
    rw [exponentDigitsLoop_digits (x0 :: ds2) hds _ (i + 2) post hd2
      (by simp only [Json.jsonLen, List.length_cons]; omega)]
    have hd3 := drop_add_of_drop hd2
    rw [exponentDigitsLoop_stop hd3 (fun c hc => (hpost c hc).1)]
    simp only [List.length_cons]
    congr 1
    omega
  | unsigned ee ds hg => cases hg

theorem IntPart.shape {i : List Nat} (h : IntPart i) :
    ∃ d0 ds, i = d0 :: ds ∧ Digit d0 ∧ ∀ x ∈ ds, Digit x := by
  cases h with
  | zero => exact ⟨48, [], rfl, by simp [Digit], by simp⟩
  | digits d ds h1 h2 h3 => exact ⟨d, ds, rfl, ⟨by omega, h2⟩, h3⟩

theorem take_of_drop {l : List Nat} {c : Nat} {t post : List Nat} (h : l.drop c = t ++ post) :
    slice l c (c + t.length) = t := by
  unfold slice
  rw [h, Nat.add_sub_cancel_left, List.take_left]

/-- `parseNumber` on a text `first :: D ++ f ++ e`, where `first` is a digit or a `-`
followed by a digit, `D` are digits, `f` a fraction or nothing, `e` an exponent with a sign
or nothing. -/
theorem parseNumber_shape {j : Json} {first : Nat} {D f e post : List Nat}
    (hd : j.json.drop j.cursor = first :: (D ++ f ++ (e ++ post)))
    (hfirst : minusWithoutDigit j = .ok false) (hD : ∀ x ∈ D, Digit x) (hf : FracPart f)
    (he : ExpPart .restricted e) (hpost : Terminates post) :
    parseNumber j = .ok (.number (first :: (D ++ f ++ e)),
      { j with cursor := j.cursor + (first :: (D ++ f ++ e)).length }) := by
  unfold parseNumber
  rw [hfirst]
  simp only [Res.bind_ok, Bool.false_eq_true, if_false]
  obtain ⟨_, _, hd1⟩ := view_cons hd
  have hlen : j.jsonLen - (j.cursor + 1) = j.jsonLen - (j.cursor + 1) := rfl
  rw [numberDigitsLoop_mantissa hd1 hD hf (he.head_facts hpost)]
  simp only [Res.bind_ok]
  have hd2 : j.json.drop (j.cursor + 1 + D.length + f.length) = e ++ post := by
    have := @drop_add_of_drop j.json (j.cursor + 1) (D ++ f) (e ++ post) hd1
    rw [List.length_append, ← Nat.add_assoc] at this
    exact this
  rw [numberExponent_text hd2 he hpost]
  simp only [Res.bind_ok]
  have hk : j.cursor + 1 + D.length + f.length + e.length =
      j.cursor + (first :: (D ++ f ++ e)).length := by
    simp only [List.length_cons, List.length_append]; omega
  rw [hk]
  have hd3 : j.json.drop j.cursor = (first :: (D ++ f ++ e)) ++ post := by
    rw [hd]; simp
  rw [take_of_drop hd3]

/-- `parseNumber` on a well-formed number with a terminated end. -/
theorem parseNumber_text {j : Json} {t post : List Nat} (hn : Number .restricted t)
    (hd : j.json.drop j.cursor = t ++ post) (hpost : Terminates post) :
    parseNumber j = .ok (.number t, { j with cursor := j.cursor + t.length }) := by
  obtain ⟨m, i, f, e, rfl, hm, hi, hf, he⟩ := hn
  obtain ⟨d0, ds, rfl, hd0, hds⟩ := hi.shape
  rcases hm with rfl | rfl
  · have hd' : j.json.drop j.cursor = d0 :: (ds ++ f ++ (e ++ post)) := by
      rw [hd]; simp
    have hfirst : minusWithoutDigit j = .ok false := by
      unfold minusWithoutDigit
      rw [(view_cons hd').2.1]
      simp [hd0.facts.2.1]
    have := parseNumber_shape hd' hfirst hds hf he hpost
    simpa using this
  · have hd' : j.json.drop j.cursor = 45 :: ((d0 :: ds) ++ f ++ (e ++ post)) := by
      rw [hd]; simp
    have hfirst : minusWithoutDigit j = .ok false := by
      unfold minusWithoutDigit
      obtain ⟨_, g0, hd1⟩ := view_cons hd'
      rw [g0]
      simp only [if_true]
      rw [(view_cons (by simpa using hd1)).2.1]
      obtain ⟨a, b⟩ := hd0
      simp only [Res.ok.injEq, decide_eq_false_iff_not]
      omega
    have hDD : ∀ x ∈ d0 :: ds, Digit x := by
      intro x hx
      rcases List.mem_cons.mp hx with rfl | h
      · exact hd0
      · exact hds x h
    have := parseNumber_shape hd' hfirst hDD hf he hpost
    simpa using this

/-- A number starts with `-` or a digit. -/
theorem Number.first {g : Dialect} {t : List Nat} (hn : Number g t) :
    ∃ c rest, t = c :: rest ∧ (c = 45 ∨ Digit c) := by
  obtain ⟨m, i, f, e, rfl, hm, hi, hf, he⟩ := hn
  obtain ⟨d0, ds, rfl, hd0, hds⟩ := hi.shape
  rcases hm with rfl | rfl
  · exact ⟨d0, ds ++ f ++ e, by simp, Or.inr hd0⟩
  · exact ⟨45, d0 :: ds ++ f ++ e, by simp, Or.inl rfl⟩

theorem hexDigit_eq (c : Nat) : hexDigit c = hexDigitValue c := by
  unfold hexDigit hexDigitValue
  by_cases h1 : 48 ≤ c ∧ c ≤ 57
  · simp [h1]
  · by_cases h2 : 97 ≤ c ∧ c ≤ 102
    · have h3 : ¬ (65 ≤ c ∧ c ≤ 70) := by omega
      simp [h1, h2, h3]
    · simp [h1, h2]

theorem hexToRuneLoop_hex4 {h : List Nat} {r : Nat} (hh : hex4 h = some r) :
    hexToRuneLoop h 0 = some r ∧ h.length = 4 := by
  match h, hh with
  | [a, b, c, d], hh =>
    simp only [hex4] at hh
    simp only [hexToRuneLoop, hexDigit_eq]
    cases ha : hexDigitValue a <;> cases hb : hexDigitValue b <;>
      cases hc : hexDigitValue c <;> cases hd : hexDigitValue d <;>
      simp_all

theorem hexToRune_text {j : Json} {h rest : List Nat} {r : Nat}
    (hd : j.json.drop j.cursor = h ++ rest) (hh : hex4 h = some r) :
    hexToRune j = .ok (r, { j with cursor := j.cursor + 3 }) := by
  obtain ⟨hl, hlen⟩ := hexToRuneLoop_hex4 hh
  unfold hexToRune
  have h1 := congrArg List.length hd
  simp only [List.length_drop, List.length_append, hlen] at h1
  have : ¬ j.jsonLen < j.cursor + 4 := by simp only [Json.jsonLen]; omega
  simp only [this, if_false]
  have hs : slice j.json j.cursor (j.cursor + 4) = h := by
    rw [← hlen]; exact take_of_drop hd
  rw [hs, hl]

theorem AppendRune_append (p : List Nat) (r : Nat) : AppendRune p r = p ++ AppendRune [] r := by
  unfold AppendRune
  repeat' split
  all_goals simp

theorem parseEscape_simple {e d : Nat} (h : simpleEscape e = some d) (j : Json) :
    parseEscape e j = .ok { j with buffer := j.buffer ++ [d] } := by
  unfold simpleEscape at h
  repeat' split at h
  all_goals first
    | (simp only [Option.some.injEq] at h; subst h; subst_vars; rfl)
    | cases h

theorem parseStringLoop_quote {j : Json} (h : j.json[j.cursor]? = some 34) (n : Nat) :
    parseStringLoop (n + 1) j = .ok (j.buffer, { j with cursor := j.cursor + 1 }) := by
  have hlt : j.cursor < j.jsonLen := lt_of_getElem? h
  rw [parseStringLoop]
  simp [hlt, h]

theorem parseStringLoop_plain {j : Json} {c : Nat} (h : j.json[j.cursor]? = some c)
    (h1 : c ≠ 34) (h2 : c ≠ 92) (n : Nat) :
    parseStringLoop (n + 1) j =
      parseStringLoop n { j with cursor := j.cursor + 1, buffer := j.buffer ++ [c] } := by
  have hlt : j.cursor < j.jsonLen := lt_of_getElem? h
  rw [parseStringLoop]
  simp [hlt, h, h1, h2]

theorem parseStringLoop_escape {j j2 : Json} {e : Nat} (h : j.json[j.cursor]? = some 92)
    (he : j.json[j.cursor + 1]? = some e)
    (hp : parseEscape e { j with cursor := j.cursor + 1 } = .ok j2) (n : Nat) :
    parseStringLoop (n + 1) j = parseStringLoop n { j2 with cursor := j2.cursor + 1 } := by
  have hlt : j.cursor < j.jsonLen := lt_of_getElem? h
  rw [parseStringLoop]
  simp [hlt, h, he, hp]

/-- `parseUnicode` at the `\u` escape of a code unit that is not a surrogate. -/
theorem parseUnicode_plain {j : Json} {h rest : List Nat} {r : Nat}
    (hd : j.json.drop (j.cursor + 1) = h ++ rest) (hh : hex4 h = some r)
    (hs : ¬ (0xD800 ≤ r ∧ r < 0xE000)) :
    parseUnicode j = .ok (r, { j with cursor := j.cursor + 4 }) := by
  unfold parseUnicode
  rw [@hexToRune_text { j with cursor := j.cursor + 1 } h rest r hd hh]
  have : IsSurrogate r = false := by
    simp only [IsSurrogate, decide_eq_false_iff_not]; exact hs
  simp [this]

/-- `parseUnicode` at a surrogate pair. -/
theorem parseUnicode_pair {j : Json} {h1 h2 rest : List Nat} {r1 r2 : Nat}
    (hd : j.json.drop (j.cursor + 1) = h1 ++ (92 :: 117 :: (h2 ++ rest)))
    (hh1 : hex4 h1 = some r1) (hh2 : hex4 h2 = some r2) (hs : 0xD800 ≤ r1 ∧ r1 < 0xE000) :
    parseUnicode j = .ok (DecodeRune r1 r2, { j with cursor := j.cursor + 10 }) := by
  have hl1 := (hexToRuneLoop_hex4 hh1).2
  unfold parseUnicode
  rw [@hexToRune_text { j with cursor := j.cursor + 1 } h1 _ r1 hd hh1]
  have hsur : IsSurrogate r1 = true := by
    simp only [IsSurrogate, decide_eq_true_eq]; exact hs
  have hd2 : j.json.drop (j.cursor + 5) = 92 :: 117 :: (h2 ++ rest) := by
    have := drop_add_of_drop hd
    rw [hl1] at this
    simpa using this
  have g0 := get_of_drop_zero hd2
  have g1 := get_of_drop hd2 1
  have hd3 : j.json.drop (j.cursor + 7) = h2 ++ rest := by
    have := @drop_add_of_drop j.json (j.cursor + 5) [92, 117] (h2 ++ rest) (by simpa using hd2)
    simpa using this
  simp only [List.cons_append, List.getElem?_cons_zero, List.getElem?_cons_succ] at g0 g1
  simp only [Res.bind_ok, hsur, if_true]
  have e1 : j.cursor + 1 + 3 + 1 = j.cursor + 5 := by omega
  have e2 : j.cursor + 1 + 3 + 2 = j.cursor + 5 + 1 := by omega
  simp only [e1, e2, g0, g1, ne_eq, not_true_eq_false, if_false]
  have e3 : j.cursor + 1 + 3 + 3 = j.cursor + 7 := by omega
  simp only [e3]
  rw [@hexToRune_text { j with cursor := j.cursor + 7 } h2 rest r2 hd3 hh2]
  simp

/-- `parseUnicode` at the `\u` escape of a surrogate that no `\u` follows: U+FFFD. -/
theorem parseUnicode_lone {j : Json} {h rest : List Nat} {r a : Nat}
    (hd : j.json.drop (j.cursor + 1) = h ++ a :: rest) (hh : hex4 h = some r)
    (hs : 0xD800 ≤ r ∧ r < 0xE000)
    (hnext : a ≠ 92 ∨ ∃ x rest2, rest = x :: rest2 ∧ x ≠ 117) :
    parseUnicode j = .ok (0xFFFD, { j with cursor := j.cursor + 4 }) := by
  have hl1 := (hexToRuneLoop_hex4 hh).2
  unfold parseUnicode
  rw [@hexToRune_text { j with cursor := j.cursor + 1 } h _ r hd hh]
  have hsur : IsSurrogate r = true := by
    simp only [IsSurrogate, decide_eq_true_eq]; exact hs
  have hd2 : j.json.drop (j.cursor + 5) = a :: rest := by
    have := drop_add_of_drop hd
    rw [hl1] at this
    simpa using this
  have g0 := get_of_drop_zero hd2
  simp only [List.getElem?_cons_zero] at g0
  simp only [Res.bind_ok, hsur, if_true]
  have e1 : j.cursor + 1 + 3 + 1 = j.cursor + 5 := by omega
  have e2 : j.cursor + 1 + 3 + 2 = j.cursor + 5 + 1 := by omega
  simp only [e1, e2, g0]
  rcases hnext with hne | ⟨x, rest2, rfl, hx⟩
  · simp [hne]
  · have g1 := get_of_drop hd2 1
    simp only [List.getElem?_cons_zero, List.getElem?_cons_succ] at g1
    by_cases ha : a = 92
    · simp [ha, g1, hx]
    · simp [ha]

theorem lt_of_drop_append_cons {l : List Nat} {c : Nat} {t : List Nat} {a : Nat}
    {post : List Nat} (h : l.drop c = t ++ a :: post) : c + t.length < l.length := by
  have := congrArg List.length h
  simp only [List.length_drop, List.length_append, List.length_cons] at this
  omega

/-- In a character sequence a backslash is followed by a byte. -/
theorem Chars.after_backslash {g : Dialect} {t s : List Nat} (h : Chars g (92 :: t) s) :
    ∃ x t2, t = x :: t2 := by
  cases h with
  | unescaped c t s h1 h2 h3 _ => exact absurd rfl h3
  | escape e d t s _ _ => exact ⟨_, _, rfl⟩
  | unicode h r t s _ _ _ => exact ⟨_, _, rfl⟩
  | pair h1 h2 r1 r2 t s _ _ _ _ _ _ _ => exact ⟨_, _, rfl⟩
  | lone h r t s _ _ _ _ _ _ => exact ⟨_, _, rfl⟩

/-- The loop of `parseString` over well-formed string characters up to the closing quote:
the decoded bytes are appended to the scratch buffer and returned. -/
theorem parseStringLoop_chars {cs s : List Nat} (h : Chars .restricted cs s) :
    ∀ (j : Json) (n : Nat) (post : List Nat), j.json.drop j.cursor = cs ++ 34 :: post →
      j.jsonLen - j.cursor ≤ n →
      parseStringLoop n j = .ok (j.buffer ++ s,
        { j with cursor := j.cursor + cs.length + 1, buffer := j.buffer ++ s }) := by
  induction h with
  | nil =>
    intro j n post hd hn
    simp only [List.nil_append] at hd
    obtain ⟨hlt, hget, _⟩ := view_cons hd
    obtain ⟨m, rfl⟩ : ∃ m, n = m + 1 := ⟨n - 1, by simp only [Json.jsonLen] at hn; omega⟩
    rw [parseStringLoop_quote hget]
    simp
  | unescaped c t s h1 h2 h3 _ ih =>
    intro j n post hd hn
    simp only [List.cons_append] at hd
    obtain ⟨hlt, hget, hrest⟩ := view_cons hd
    obtain ⟨m, rfl⟩ : ∃ m, n = m + 1 := ⟨n - 1, by simp only [Json.jsonLen] at hn; omega⟩
    rw [parseStringLoop_plain hget h2 h3]
    rw [ih { j with cursor := j.cursor + 1, buffer := j.buffer ++ [c] } m post hrest
      (by simp only [Json.jsonLen] at hn ⊢; omega)]
    simp only [List.length_cons, List.append_assoc, List.singleton_append, Res.ok.injEq,
      Prod.mk.injEq, true_and]
    congr 1
    omega
  | escape e d t s he _ ih =>
    intro j n post hd hn
    simp only [List.cons_append] at hd
    obtain ⟨hlt, hget, hrest⟩ := view_cons hd
    obtain ⟨hlt1, hget1, hrest1⟩ := view_cons hrest
    obtain ⟨m, rfl⟩ : ∃ m, n = m + 1 := ⟨n - 1, by simp only [Json.jsonLen] at hn; omega⟩
    rw [parseStringLoop_escape hget hget1 (parseEscape_simple he _)]
    rw [ih _ m post hrest1 (by simp only [Json.jsonLen] at hn ⊢; omega)]
    simp only [List.length_cons, List.append_assoc, List.singleton_append, Res.ok.injEq,
      Prod.mk.injEq, true_and]
    congr 1
    omega
  | unicode h r t s hh hs _ ih =>
    intro j n post hd hn
    have hl := (hexToRuneLoop_hex4 hh).2
    simp only [List.cons_append, List.append_assoc] at hd
    obtain ⟨hlt, hget, hrest⟩ := view_cons hd
    obtain ⟨hlt1, hget1, hrest1⟩ := view_cons hrest
    obtain ⟨m, rfl⟩ : ∃ m, n = m + 1 := ⟨n - 1, by simp only [Json.jsonLen] at hn; omega⟩
    have hu := @parseUnicode_plain { j with cursor := j.cursor + 1 } h _ r hrest1 hh hs
    have hp : parseEscape 117 { j with cursor := j.cursor + 1 } =
        .ok { j with cursor := j.cursor + 1 + 4, buffer := AppendRune j.buffer r } := by
      simp [parseEscape, hu]
    rw [parseStringLoop_escape hget hget1 hp]
    have hd2 : j.json.drop (j.cursor + 1 + 4 + 1) = t ++ 34 :: post := by
      have := drop_add_of_drop hrest1
      rw [hl] at this
      exact this
    rw [ih _ m post hd2 (by
      have := lt_of_drop_append_cons hd2
      simp only [Json.jsonLen] at hn ⊢; omega)]
    simp only [List.length_cons, List.length_append, hl, AppendRune_append j.buffer r,
      List.append_assoc, Res.ok.injEq, Prod.mk.injEq, true_and]
    congr 1
    omega
  | pair h1 h2 r1 r2 t s hh1 hh2 k1 k2 k3 k4 _ ih =>
    intro j n post hd hn
    have hl1 := (hexToRuneLoop_hex4 hh1).2
    have hl2 := (hexToRuneLoop_hex4 hh2).2
    simp only [List.cons_append, List.append_assoc] at hd
    obtain ⟨hlt, hget, hrest⟩ := view_cons hd
    obtain ⟨hlt1, hget1, hrest1⟩ := view_cons hrest
    obtain ⟨m, rfl⟩ : ∃ m, n = m + 1 := ⟨n - 1, by simp only [Json.jsonLen] at hn; omega⟩
    have hu := @parseUnicode_pair { j with cursor := j.cursor + 1 } h1 h2 _ r1 r2
      hrest1 hh1 hh2 ⟨k1, by omega⟩
    have hp : parseEscape 117 { j with cursor := j.cursor + 1 } =
        .ok { j with
          cursor := j.cursor + 1 + 10, buffer := AppendRune j.buffer (DecodeRune r1 r2) } := by
      simp [parseEscape, hu]
    rw [parseStringLoop_escape hget hget1 hp]
    have hd2 : j.json.drop (j.cursor + 1 + 10 + 1) = t ++ 34 :: post := by
      have := @drop_add_of_drop j.json (j.cursor + 1 + 1) (h1 ++ 92 :: 117 :: h2)
        (t ++ 34 :: post) (by rw [hrest1]; simp)
      simp only [List.length_append, List.length_cons, hl1, hl2] at this
      exact this
    rw [ih _ m post hd2 (by
      have := lt_of_drop_append_cons hd2
      simp only [Json.jsonLen] at hn ⊢; omega)]
    simp only [List.length_cons, List.length_append, hl1, hl2,
      AppendRune_append j.buffer (DecodeRune r1 r2),
      List.append_assoc, Res.ok.injEq, Prod.mk.injEq, true_and]
    congr 1
    omega
  | lone h r t s hh k1 k2 _ hnu hc ih =>
    intro j n post hd hn
    have hl := (hexToRuneLoop_hex4 hh).2
    simp only [List.cons_append, List.append_assoc] at hd
    obtain ⟨hlt, hget, hrest⟩ := view_cons hd
    obtain ⟨hlt1, hget1, hrest1⟩ := view_cons hrest
    obtain ⟨m, rfl⟩ : ∃ m, n = m + 1 := ⟨n - 1, by simp only [Json.jsonLen] at hn; omega⟩
    have hnext : ∃ a rest, t ++ 34 :: post = a :: rest ∧
        (a ≠ 92 ∨ ∃ x rest2, rest = x :: rest2 ∧ x ≠ 117) := by
      cases t with
      | nil => exact ⟨34, post, rfl, Or.inl (by decide)⟩
      | cons a t2 =>
        refine ⟨a, t2 ++ 34 :: post, rfl, ?_⟩
        by_cases ha : a = 92
        · subst ha
          obtain ⟨x, t3, rfl⟩ := hc.after_backslash
          refine Or.inr ⟨x, t3 ++ 34 :: post, rfl, ?_⟩
          rintro rfl
          exact hnu rfl ⟨t3, rfl⟩
        · exact Or.inl ha
    obtain ⟨a, rest, heq, hnx⟩ := hnext
    have hu := @parseUnicode_lone { j with cursor := j.cursor + 1 } h rest r a
      (by rw [← heq]; exact hrest1) hh ⟨k1, k2⟩ hnx
    have hp : parseEscape 117 { j with cursor := j.cursor + 1 } =
        .ok { j with cursor := j.cursor + 1 + 4, buffer := AppendRune j.buffer 0xFFFD } := by
      simp [parseEscape, hu]
    rw [parseStringLoop_escape hget hget1 hp]
    have hd2 : j.json.drop (j.cursor + 1 + 4 + 1) = t ++ 34 :: post := by
      have := drop_add_of_drop hrest1
      rw [hl] at this
      exact this
    rw [ih _ m post hd2 (by
      have := lt_of_drop_append_cons hd2
      simp only [Json.jsonLen] at hn ⊢; omega)]
    have hfffd : AppendRune j.buffer 0xFFFD = j.buffer ++ [0xEF, 0xBF, 0xBD] := by
      rw [AppendRune_append]; rfl
    simp only [List.length_cons, List.length_append, hl, hfffd,
      List.append_assoc, Res.ok.injEq, Prod.mk.injEq, true_and]
    congr 1
    omega

/-- `parseString` on a well-formed string literal. -/
theorem parseString_text {j : Json} {t s post : List Nat} (hs : Str .restricted t s)
    (hd : j.json.drop j.cursor = t ++ post) (hb : j.buffer = []) :
    parseString j = .ok (s, { j with cursor := j.cursor + t.length }) := by
  obtain ⟨cs, rfl, hc⟩ := hs
  simp only [List.cons_append, List.append_assoc] at hd
  obtain ⟨_, _, hrest⟩ := view_cons hd
  unfold parseString
  rw [parseStringLoop_chars hc { j with cursor := j.cursor + 1 } (j.jsonLen - (j.cursor + 1)) post
    (by simpa using hrest) (by simp [Json.jsonLen])]
  simp only [Res.bind_ok, hb, List.nil_append, Res.ok.injEq, Prod.mk.injEq, true_and]
  simp only [List.length_cons, List.length_append, List.length_nil]
  rw [← hb]
  congr 1
  omega

/-- A value text starts with a byte that is not whitespace. -/
theorem derives_first_byte {g : Dialect} {v : Value} {t : List Nat}
    (h : Derives g (.value v) t) : ∃ b rest, t = b :: rest ∧ isWhitespace b = false := by
  cases h with
  | null => exact ⟨_, _, rfl, by decide⟩
  | true => exact ⟨_, _, rfl, by decide⟩
  | false => exact ⟨_, _, rfl, by decide⟩
  | number _ hn =>
    obtain ⟨c, rest, rfl, hc⟩ := hn.first
    refine ⟨c, rest, rfl, ?_⟩
    rcases hc with rfl | hc
    · decide
    · exact hc.facts.1
  | string _ s hs =>
    obtain ⟨cs, rfl, _⟩ := hs
    exact ⟨_, _, rfl, by decide⟩
  | emptyArray w _ => exact ⟨_, _, rfl, by decide⟩
  | array vs t _ => exact ⟨_, _, rfl, by decide⟩
  | emptyObject w _ => exact ⟨_, _, rfl, by decide⟩
  | object kvs t _ => exact ⟨_, _, rfl, by decide⟩

/-- Whitespace and what follows it end a number if the byte after the whitespace does. -/
theorem Terminates.ws {w tail : List Nat} (hw : Ws w) (ht : Terminates tail) :
    Terminates (w ++ tail) := by
  cases w with
  | nil => exact ht
  | cons a w2 =>
    intro c hc
    simp only [List.cons_append, List.head?_cons, Option.some.injEq] at hc
    subst hc
    rcases hw a (List.mem_cons_self _ _) with rfl | rfl | rfl | rfl <;> decide

theorem Terminates.nil : Terminates [] := by
  intro c hc
  simp at hc

theorem Terminates.separator {b : Nat} (hb : b = 44 ∨ b = 93 ∨ b = 125) (post : List Nat) :
    Terminates (b :: post) := by
  intro c hc
  simp only [List.head?_cons, Option.some.injEq] at hc
  subst hc
  rcases hb with rfl | rfl | rfl <;> decide

/-- The dispatcher at a byte that is not whitespace: the `switch` on that byte. -/
theorem parseValue_dispatch (f : Nat) {j : Json} {c : Nat} (hget : j.json[j.cursor]? = some c)
    (hw : isWhitespace c = false) :
    parseValue (f + 1) j =
      (if c = 45 ∨ isDigit c then parseNumber j
        else if c = 34 then (parseString j).bind fun p => .ok (.string p.1, p.2)
        else if c = 116 then parseTrue j
        else if c = 102 then parseFalse j
        else if c = 110 then parseNull j
        else if c = 91 then parseList f j
        else if c = 123 then parseObject f j
        else .syntaxError j.cursor).bind fun p => .ok (p.1, skipWhitespaces p.2) := by
  rw [parseValue_succ, skipWhitespaces_of_not_ws hget hw]
  simp only [Json.jsonLen, lt_of_getElem? hget, if_true, hget]

/-- A value text between whitespace: the dispatcher started before the leading whitespace
reads the value and stops after the value; the whitespace that follows is skipped. -/
theorem ReadsValue.surrounded {t : List Nat} {v : Value} (hr : ReadsValue t v)
    (hfirst : ∃ b rest, t = b :: rest ∧ isWhitespace b = false)
    {w1 : List Nat} (hw1 : Ws w1) {j : Json} {c : Nat} {post : List Nat} (hp : Plain j)
    (hd : j.json.drop c = w1 ++ (t ++ post)) (ht : Terminates post) :
    ∃ fuel, parseValue fuel { j with cursor := c } =
      .ok (v, skipWhitespaces { j with cursor := c + w1.length + t.length }) := by
  obtain ⟨b, rest, rfl, hb⟩ := hfirst
  have hs : skipWhitespaces { j with cursor := c } = { j with cursor := c + w1.length } :=
    @skipWhitespaces_ws { j with cursor := c } w1 b (rest ++ post)
      (by simpa using hd) hw1 hb
  have hd2 : j.json.drop (c + w1.length) = (b :: rest) ++ post :=
    @drop_add_of_drop j.json c w1 _ (by simpa using hd)
  obtain ⟨fuel, hf⟩ := hr j (c + w1.length) post hd2 hp ht
  refine ⟨fuel, ?_⟩
  rw [← parseValue_skip, hs, hf]

/-- An item of a list or object: a value text between whitespace, followed by a separator or
a closer `b`.  The dispatcher stops at `b`. -/
theorem ReadsValue.item {t : List Nat} {v : Value} (hr : ReadsValue t v)
    (hfirst : ∃ b rest, t = b :: rest ∧ isWhitespace b = false)
    {w1 w2 : List Nat} (hw1 : Ws w1) (hw2 : Ws w2) {b : Nat} (hb : b = 44 ∨ b = 93 ∨ b = 125)
    {j : Json} {c : Nat} {post : List Nat} (hp : Plain j)
    (hd : j.json.drop c = w1 ++ (t ++ (w2 ++ b :: post))) :
    (∃ fuel, parseValue fuel { j with cursor := c } =
      .ok (v, { j with cursor := c + w1.length + t.length + w2.length })) ∧
    j.json[c + w1.length + t.length + w2.length]? = some b ∧
    j.json.drop (c + w1.length + t.length + w2.length + 1) = post := by
  have hbw : isWhitespace b = false := by rcases hb with rfl | rfl | rfl <;> decide
  obtain ⟨fuel, hf⟩ := hr.surrounded hfirst hw1 hp hd
    (Terminates.ws hw2 (Terminates.separator hb post))
  have hd2 : j.json.drop (c + w1.length + t.length) = w2 ++ b :: post := by
    have := @drop_add_of_drop j.json c (w1 ++ t) (w2 ++ b :: post) (by simpa using hd)
    simpa [Nat.add_assoc] using this
  have hs : skipWhitespaces { j with cursor := c + w1.length + t.length } =
      { j with cursor := c + w1.length + t.length + w2.length } :=
    @skipWhitespaces_ws { j with cursor := c + w1.length + t.length } w2 b post hd2 hw2 hbw
  have hd3 := drop_add_of_drop hd2
  obtain ⟨_, hget, hrest⟩ := view_cons hd3
  exact ⟨⟨fuel, by rw [hf, hs]⟩, hget, hrest⟩

theorem readsValue_null : ReadsValue [0x6E, 0x75, 0x6C, 0x6C] .null := by
  intro j c post hd hp ht
  refine ⟨1, ?_⟩
  have hget : ({ j with cursor := c } : Json).json[({ j with cursor := c } : Json).cursor]? =
      some 110 := (view_cons hd).2.1
  rw [parseValue_dispatch 0 hget (by decide), @parseNull_text { j with cursor := c } post hd]
  simp [isDigit]

theorem readsValue_true : ReadsValue [0x74, 0x72, 0x75, 0x65] (.bool true) := by
  intro j c post hd hp ht
  refine ⟨1, ?_⟩
  have hget : ({ j with cursor := c } : Json).json[({ j with cursor := c } : Json).cursor]? =
      some 116 := (view_cons hd).2.1
  rw [parseValue_dispatch 0 hget (by decide), @parseTrue_text { j with cursor := c } post hd]
  simp [isDigit]

theorem readsValue_false : ReadsValue [0x66, 0x61, 0x6C, 0x73, 0x65] (.bool false) := by
  intro j c post hd hp ht
  refine ⟨1, ?_⟩
  have hget : ({ j with cursor := c } : Json).json[({ j with cursor := c } : Json).cursor]? =
      some 102 := (view_cons hd).2.1
  rw [parseValue_dispatch 0 hget (by decide), @parseFalse_text { j with cursor := c } post hd]
  simp [isDigit]

theorem readsValue_number {t : List Nat} (hn : Number .restricted t) :
    ReadsValue t (.number t) := by
  intro j c post hd hp ht
  refine ⟨1, ?_⟩
  obtain ⟨b, rest, rfl, hb⟩ := hn.first
  have hget : ({ j with cursor := c } : Json).json[({ j with cursor := c } : Json).cursor]? =
      some b := (view_cons hd).2.1
  have hw : isWhitespace b = false := by
    rcases hb with rfl | hb
    · decide
    · exact hb.facts.1
  have hc : b = 45 ∨ isDigit b = true := by
    rcases hb with rfl | hb
    · exact Or.inl rfl
    · exact Or.inr hb.isDigit
  rw [parseValue_dispatch 0 hget hw, if_pos hc,
    @parseNumber_text { j with cursor := c } _ post hn hd ht]
  rfl

theorem readsValue_string {t s : List Nat} (hs : Str .restricted t s) :
    ReadsValue t (.string s) := by
  intro j c post hd hp ht
  refine ⟨1, ?_⟩
  have hget : ({ j with cursor := c } : Json).json[({ j with cursor := c } : Json).cursor]? =
      some 34 := by
    obtain ⟨cs, rfl, _⟩ := hs
    exact (view_cons hd).2.1
  rw [parseValue_dispatch 0 hget (by decide),
    @parseString_text { j with cursor := c } t s post hs hd hp.1]
  simp [isDigit]

theorem readsValue_emptyArray {w : List Nat} (hw : Ws w) :
    ReadsValue (0x5B :: w ++ [0x5D]) (.list []) := by
  intro j c post hd hp ht
  refine ⟨3, ?_⟩
  have e : c + (0x5B :: w ++ [0x5D]).length = c + 1 + w.length + 1 := by
    simp only [List.length_cons, List.length_append, List.length_nil]; omega
  rw [e]
  simp only [List.cons_append, List.append_assoc, List.nil_append] at hd
  obtain ⟨_, hget0, hrest⟩ := view_cons hd
  have hget : ({ j with cursor := c } : Json).json[({ j with cursor := c } : Json).cursor]? =
      some 91 := hget0
  have hs : skipWhitespaces { j with cursor := c + 1 } = { j with cursor := c + 1 + w.length } :=
    @skipWhitespaces_ws { j with cursor := c + 1 } w 93 post hrest hw (by decide)
  obtain ⟨hlt, hclose, _⟩ := view_cons (drop_add_of_drop hrest)
  rw [parseValue_dispatch 2 hget (by decide)]
  simp only [show ¬ ((91 : Nat) = 45 ∨ isDigit 91 = true) by decide,
    show ¬ (91 : Nat) = 34 by decide,
    show ¬ (91 : Nat) = 116 by decide, show ¬ (91 : Nat) = 102 by decide,
    show ¬ (91 : Nat) = 110 by decide, if_false, if_true]
  rw [parseList_succ]
  simp only [hs]
  rw [parseListLoop_succ]
  simp only [Json.jsonLen, hlt, if_true, hclose, hp.2.1]
  simp only [show ¬ (93 : Nat) = 44 by decide, if_false, if_true, Res.bind_ok, Option.isNone_none]
  simp only [Bool.false_eq_true, if_false, Res.bind_ok, List.length_cons, List.length_append,
    List.length_nil]

theorem readsValue_array {vs : List Value} {t : List Nat} (ih : Reads (.elements vs) t) :
    ReadsValue (0x5B :: t ++ [0x5D]) (.list vs) := by
  intro j c post hd hp ht
  refine ⟨3 * j.jsonLen + 4, ?_⟩
  have e : c + (0x5B :: t ++ [0x5D]).length = c + 1 + t.length + 1 := by
    simp only [List.length_cons, List.length_append, List.length_nil]; omega
  rw [e]
  simp only [List.cons_append, List.append_assoc, List.nil_append] at hd
  obtain ⟨_, hget0, hrest⟩ := view_cons hd
  have hget : ({ j with cursor := c } : Json).json[({ j with cursor := c } : Json).cursor]? =
      some 91 := hget0
  have hitems : ListItems j (c + 1) vs (c + 1 + t.length) := ih j (c + 1) post hrest hp
  rw [parseValue_dispatch (3 * j.jsonLen + 3) hget (by decide)]
  simp only [show ¬ ((91 : Nat) = 45 ∨ isDigit 91 = true) by decide,
    show ¬ (91 : Nat) = 34 by decide,
    show ¬ (91 : Nat) = 116 by decide, show ¬ (91 : Nat) = 102 by decide,
    show ¬ (91 : Nat) = 110 by decide, if_false, if_true]
  rw [parseList_succ]
  simp only []
  rw [parseListLoop_items hp.1 hitems _ (Or.inr rfl) 0 false [] _ (3 * j.jsonLen + 2)
    (by simp only [Json.jsonLen]; omega)]
  rw [pushListItems_builtin hp.2.1]
  simp only [Res.bind_ok, hp.2.1, Option.isNone_none, if_true, List.nil_append,
    List.length_cons, List.length_append, List.length_nil]

theorem readsValue_emptyObject {w : List Nat} (hw : Ws w) :
    ReadsValue (0x7B :: w ++ [0x7D]) (.object []) := by
  intro j c post hd hp ht
  refine ⟨3, ?_⟩
  have e : c + (0x7B :: w ++ [0x7D]).length = c + 1 + w.length + 1 := by
    simp only [List.length_cons, List.length_append, List.length_nil]; omega
  rw [e]
  simp only [List.cons_append, List.append_assoc, List.nil_append] at hd
  obtain ⟨_, hget0, hrest⟩ := view_cons hd
  have hget : ({ j with cursor := c } : Json).json[({ j with cursor := c } : Json).cursor]? =
      some 123 := hget0
  have hs : skipWhitespaces { j with cursor := c + 1 } = { j with cursor := c + 1 + w.length } :=
    @skipWhitespaces_ws { j with cursor := c + 1 } w 125 post hrest hw (by decide)
  obtain ⟨hlt, hclose, _⟩ := view_cons (drop_add_of_drop hrest)
  have hmk : makeObject { j with cursor := c } = .object [] := by
    simp only [makeObject, hp.2.2]
  rw [parseValue_dispatch 2 hget (by decide)]
  simp only [show ¬ ((123 : Nat) = 45 ∨ isDigit 123 = true) by decide,
    show ¬ (123 : Nat) = 34 by decide,
    show ¬ (123 : Nat) = 116 by decide, show ¬ (123 : Nat) = 102 by decide,
    show ¬ (123 : Nat) = 110 by decide, show ¬ (123 : Nat) = 91 by decide, if_false, if_true]
  rw [parseObject_succ]
  simp only [hs, hmk]
  rw [parseObjectLoop_succ]
  simp only [Json.jsonLen, hlt, if_true, hclose]
  simp only [show ¬ (125 : Nat) = 34 by decide, show ¬ (125 : Nat) = 44 by decide, if_false,
    if_true, Res.bind_ok]
  simp only [Bool.false_eq_true, if_false, Res.bind_ok, List.length_cons, List.length_append,
    List.length_nil]

theorem readsValue_object {kvs : List (List Nat × Value)} {t : List Nat}
    (ih : Reads (.members kvs) t) :
    ReadsValue (0x7B :: t ++ [0x7D]) (.object (setMembers [] kvs)) := by
  intro j c post hd hp ht
  refine ⟨3 * j.jsonLen + 4, ?_⟩
  have e : c + (0x7B :: t ++ [0x7D]).length = c + 1 + t.length + 1 := by
    simp only [List.length_cons, List.length_append, List.length_nil]; omega
  rw [e]
  simp only [List.cons_append, List.append_assoc, List.nil_append] at hd
  obtain ⟨_, hget0, hrest⟩ := view_cons hd
  have hget : ({ j with cursor := c } : Json).json[({ j with cursor := c } : Json).cursor]? =
      some 123 := hget0
  obtain ⟨c1, hle, hws, hmembers⟩ := ih j (c + 1) post hrest hp
  have hs : skipWhitespaces { j with cursor := c + 1 } = { j with cursor := c1 } :=
    @skipWhitespaces_to { j with cursor := c + 1 } _ _ hle hws hmembers.start (by decide)
  have hmk : makeObject { j with cursor := c } = .object [] := by
    simp only [makeObject, hp.2.2]
  rw [parseValue_dispatch (3 * j.jsonLen + 3) hget (by decide)]
  simp only [show ¬ ((123 : Nat) = 45 ∨ isDigit 123 = true) by decide,
    show ¬ (123 : Nat) = 34 by decide,
    show ¬ (123 : Nat) = 116 by decide, show ¬ (123 : Nat) = 102 by decide,
    show ¬ (123 : Nat) = 110 by decide, show ¬ (123 : Nat) = 91 by decide, if_false, if_true]
  rw [parseObject_succ]
  simp only [hs, hmk]
  rw [parseObjectLoop_members hp.1 hmembers 0 false _ (3 * j.jsonLen + 2)
    (by simp only [Json.jsonLen]; omega)]
  rw [pushObjectItems_builtin hp.2.2]
  simp only [Res.bind_ok, List.length_cons, List.length_append, List.length_nil]

theorem reads_element {w1 t w2 : List Nat} {v : Value} (hw1 : Ws w1) (hw2 : Ws w2)
    (hv : Derives .restricted (.value v) t) (ih : ReadsValue t v) :
    Reads (.elements [v]) (w1 ++ t ++ w2) := by
  intro j c post hd hp
  simp only [List.append_assoc] at hd
  obtain ⟨hpv, hget, _⟩ :=
    ih.item (derives_first_byte hv) hw1 hw2 (Or.inr (Or.inl rfl)) hp hd
  have e : c + (w1 ++ t ++ w2).length = c + w1.length + t.length + w2.length := by
    simp only [List.length_append]; omega
  rw [e]
  exact ListItems.last c v { j with cursor := c + w1.length + t.length + w2.length } hpv hget

theorem reads_elements {w1 t w2 ts : List Nat} {v : Value} {vs : List Value} (hw1 : Ws w1)
    (hw2 : Ws w2) (hv : Derives .restricted (.value v) t) (ih : ReadsValue t v)
    (ihs : Reads (.elements vs) ts) :
    Reads (.elements (v :: vs)) (w1 ++ t ++ w2 ++ 0x2C :: ts) := by
  intro j c post hd hp
  simp only [List.append_assoc, List.cons_append] at hd
  obtain ⟨hpv, hget, hrest⟩ :=
    ih.item (derives_first_byte hv) hw1 hw2 (Or.inl rfl) hp hd
  have hitems := ihs j _ post hrest hp
  have e : c + (w1 ++ t ++ w2 ++ 0x2C :: ts).length =
      c + w1.length + t.length + w2.length + 1 + ts.length := by
    simp only [List.length_append, List.length_cons]; omega
  rw [e]
  exact ListItems.cons c v { j with cursor := c + w1.length + t.length + w2.length } vs _
    hpv hget hitems

/-- The key, the colon and the value of a member, followed by the separator or closer `b`. -/
theorem reads_member_parts {w1 k w2 w3 t w4 s : List Nat} {v : Value} (hw1 : Ws w1)
    (hw2 : Ws w2) (hw3 : Ws w3) (hw4 : Ws w4) (hs : Str .restricted k s)
    (hv : Derives .restricted (.value v) t) (ih : ReadsValue t v) {b : Nat}
    (hb : b = 44 ∨ b = 125) {j : Json} {c : Nat} {post : List Nat} (hp : Plain j)
    (hd : j.json.drop c = w1 ++ (k ++ (w2 ++ 0x3A :: (w3 ++ (t ++ (w4 ++ b :: post)))))) :
    OnlyWhitespace j.json c (c + w1.length) ∧
    j.json[c + w1.length]? = some 34 ∧
    parseString { j with cursor := c + w1.length } =
      .ok (s, { j with cursor := c + w1.length + k.length }) ∧
    OnlyWhitespace j.json (c + w1.length + k.length) (c + w1.length + k.length + w2.length) ∧
    j.json[c + w1.length + k.length + w2.length]? = some 58 ∧
    (∃ fuel, parseValue fuel { j with cursor := c + w1.length + k.length + w2.length + 1 } =
      .ok (v, { j with cursor :=
        c + w1.length + k.length + w2.length + 1 + w3.length + t.length + w4.length })) ∧
    j.json[c + w1.length + k.length + w2.length + 1 + w3.length + t.length + w4.length]? =
      some b ∧
    j.json.drop
      (c + w1.length + k.length + w2.length + 1 + w3.length + t.length + w4.length + 1) =
      post := by
  have hd1 := drop_add_of_drop hd
  have hd2 := drop_add_of_drop hd1
  have hd3 := drop_add_of_drop hd2
  obtain ⟨_, hcolon, hd4⟩ := view_cons hd3
  have hquote : j.json[c + w1.length]? = some 34 := by
    obtain ⟨cs, rfl, _⟩ := hs
    exact (view_cons hd1).2.1
  have hstr := @parseString_text { j with cursor := c + w1.length } k s _ hs hd1 hp.1
  obtain ⟨hpv, hget, hrest⟩ := ih.item (derives_first_byte hv) hw3 hw4
    (by rcases hb with rfl | rfl <;> simp) hp hd4
  exact ⟨onlyWhitespace_of_drop hd hw1, hquote, hstr, onlyWhitespace_of_drop hd2 hw2, hcolon,
    hpv, hget, hrest⟩

theorem reads_member {w1 k w2 w3 t w4 s : List Nat} {v : Value} (hw1 : Ws w1)
    (hw2 : Ws w2) (hw3 : Ws w3) (hw4 : Ws w4) (hs : Str .restricted k s)
    (hv : Derives .restricted (.value v) t) (ih : ReadsValue t v) :
    Reads (.members [(s, v)]) (w1 ++ k ++ w2 ++ 0x3A :: w3 ++ t ++ w4) := by
  intro j c post hd hp
  simp only [List.append_assoc, List.cons_append] at hd
  obtain ⟨h1, h2, h3, h4, h5, h6, h7, _⟩ :=
    reads_member_parts hw1 hw2 hw3 hw4 hs hv ih (Or.inr rfl) hp hd
  have e : c + (w1 ++ k ++ w2 ++ 0x3A :: w3 ++ t ++ w4).length =
      c + w1.length + k.length + w2.length + 1 + w3.length + t.length + w4.length := by
    simp only [List.length_append, List.length_cons]; omega
  rw [e]
  exact ⟨c + w1.length, by omega, h1,
    ObjectMembers.last (c + w1.length) s { j with cursor := c + w1.length + k.length }
      (c + w1.length + k.length + w2.length) v
      { j with cursor :=
        c + w1.length + k.length + w2.length + 1 + w3.length + t.length + w4.length }
      h2 h3 (Nat.le_add_right _ _) h4 h5 h6 h7⟩

theorem reads_members {w1 k w2 w3 t w4 s ts : List Nat} {v : Value}
    {kvs : List (List Nat × Value)} (hw1 : Ws w1)
    (hw2 : Ws w2) (hw3 : Ws w3) (hw4 : Ws w4) (hs : Str .restricted k s)
    (hv : Derives .restricted (.value v) t) (ih : ReadsValue t v)
    (ihs : Reads (.members kvs) ts) :
    Reads (.members ((s, v) :: kvs))
      (w1 ++ k ++ w2 ++ 0x3A :: w3 ++ t ++ w4 ++ 0x2C :: ts) := by
  intro j c post hd hp
  simp only [List.append_assoc, List.cons_append] at hd
  obtain ⟨h1, h2, h3, h4, h5, h6, h7, h8⟩ :=
    reads_member_parts hw1 hw2 hw3 hw4 hs hv ih (Or.inl rfl) hp hd
  obtain ⟨c2, hle, hws, hrest⟩ := ihs j _ post h8 hp
  have e : c + (w1 ++ k ++ w2 ++ 0x3A :: w3 ++ t ++ w4 ++ 0x2C :: ts).length =
      c + w1.length + k.length + w2.length + 1 + w3.length + t.length + w4.length + 1 +
        ts.length := by
    simp only [List.length_append, List.length_cons]; omega
  rw [e]
  exact ⟨c + w1.length, by omega, h1,
    ObjectMembers.cons (c + w1.length) s { j with cursor := c + w1.length + k.length }
      (c + w1.length + k.length + w2.length) v
      { j with cursor :=
        c + w1.length + k.length + w2.length + 1 + w3.length + t.length + w4.length }
      c2 kvs _ h2 h3 (Nat.le_add_right _ _) h4 h5 h6 h7 hle hws hrest⟩

/-- The decoder reads every text of the restricted grammar as the grammar says. -/
theorem derives_reads {sem : Sem} {t : List Nat} (h : Derives .restricted sem t) :
    Reads sem t := by
  induction h with
  | null => exact readsValue_null
  | true => exact readsValue_true
  | false => exact readsValue_false
  | number t hn => exact readsValue_number hn
  | string t s hs => exact readsValue_string hs
  | emptyArray w hw => exact readsValue_emptyArray hw
  | array vs t _ ih => exact readsValue_array ih
  | element w1 t w2 v hw1 hw2 hv ih => exact reads_element hw1 hw2 hv ih
  | elements w1 t w2 ts v vs hw1 hw2 hv _ ih ihs => exact reads_elements hw1 hw2 hv ih ihs
  | emptyObject w hw => exact readsValue_emptyObject hw
  | object kvs t _ ih => exact readsValue_object ih
  | member w1 k w2 w3 t w4 s v hw1 hw2 hw3 hw4 hs hv ih =>
    exact reads_member hw1 hw2 hw3 hw4 hs hv ih
  | members w1 k w2 w3 t w4 s ts v kvs hw1 hw2 hw3 hw4 hs hv _ ih ihs =>
    exact reads_members hw1 hw2 hw3 hw4 hs hv ih ihs

/-- `Decode` on a text of the restricted grammar returns the value the text denotes. -/
theorem Decode_jsonText {t : List Nat} {v : Value} (h : JsonText .restricted t v) :
    Decode (Bytes t) = .ok v := by
  obtain ⟨w1, t2, w2, rfl, hw1, hw2, hd⟩ := h
  have hp : Plain (Bytes (w1 ++ t2 ++ w2)) := ⟨rfl, rfl, rfl⟩
  have hdrop : (Bytes (w1 ++ t2 ++ w2)).json.drop 0 = w1 ++ (t2 ++ w2) := by
    simp [Bytes]
  obtain ⟨fuel, hf⟩ := (derives_reads hd).surrounded (derives_first_byte hd) hw1 hp hdrop
    (by simpa using Terminates.ws hw2 Terminates.nil)
  have hs : skipWhitespaces { Bytes (w1 ++ t2 ++ w2) with cursor := 0 + w1.length + t2.length } =
      { Bytes (w1 ++ t2 ++ w2) with cursor := 0 + w1.length + t2.length + w2.length } :=
    @skipWhitespaces_ws_end
      { Bytes (w1 ++ t2 ++ w2) with cursor := 0 + w1.length + t2.length } w2
      (by simp [Bytes]) hw2
  rw [hs] at hf
  have hf2 : parseValue fuel (Bytes (w1 ++ t2 ++ w2)) = _ := hf
  unfold Decode
  rw [parseValue_decodeFuel hf2]
  simp [Json.jsonLen, Bytes]
  omega

/-- The text after the unpaired surrogate of the example is not a low-surrogate escape. -/
theorem not_startsLowSurrogate_u0041 : ¬ StartsLowSurrogate [92, 117, 48, 48, 52, 49] := by
  rintro ⟨h, r, t2, heq, hh, h1, h2⟩
  have hl := (hexToRuneLoop_hex4 hh).2
  match h, hl with
  | [a, b, c, d], _ =>
    simp only [List.cons_append, List.nil_append, List.cons.injEq] at heq
    obtain ⟨_, _, rfl, rfl, rfl, rfl, _⟩ := heq
    simp [hex4, hexDigitValue] at hh
    omega

/-- C2 as stated fails: `1e5` is a well-formed JSON text (RFC 8259) denoting the number `1e5`,
and `Decode` returns a syntax error at offset 1; the string literal `"\ud83e\u0041"` is
well-formed and denotes U+FFFD followed by `A`, and `Decode` returns U+FFFD alone. -/
theorem C2_rfc_text_not_decoded :
    (JsonText .rfc8259 (ascii "1e5") (.number (ascii "1e5")) ∧
      Decode (Bytes (ascii "1e5")) = .syntaxError 1) ∧
    (JsonText .rfc8259 (ascii "\"\\ud83e\\u0041\"") (.string [0xEF, 0xBF, 0xBD, 0x41]) ∧
      Decode (Bytes (ascii "\"\\ud83e\\u0041\"")) = .ok (.string [0xEF, 0xBF, 0xBD])) :=
  ⟨⟨⟨[], ascii "1e5", [], rfl, by simp [Ws], by simp [Ws],
      Derives.number _ ⟨[], [49], [], [101, 53], rfl, Or.inl rfl,
        IntPart.digits 49 [] (by decide) (by decide) (by simp), FracPart.absent,
        ExpPart.unsigned 101 [53] rfl (Or.inl rfl) ⟨by simp, by simp [Digit]⟩⟩⟩,
    by decide!⟩,
   ⟨⟨[], ascii "\"\\ud83e\\u0041\"", [], rfl, by simp [Ws], by simp [Ws],
      Derives.string _ _ ⟨ascii "\\ud83e\\u0041", rfl,
        Chars.lone [100, 56, 51, 101] 0xD83E [92, 117, 48, 48, 52, 49] [0x41] rfl
          (by decide) (by decide) (fun h => not_startsLowSurrogate_u0041 h.2)
          (fun h => by cases h)
          (Chars.unicode [48, 48, 52, 49] 0x41 [] [] rfl (by decide) Chars.nil)⟩⟩,
    by decide!⟩⟩

/-- C2 (amended): for every well-formed JSON text (RFC 8259 grammar) in which every exponent
carries an explicit sign and no `\u` escape of an unpaired surrogate is directly followed by
another `\u` escape, `Decode` with no hooks succeeds and returns the value a reference JSON
decoder returns for it: null, booleans, strings (an unpaired surrogate as U+FFFD), lists in
order, objects as key-to-value mappings, a number as its literal text. -/
theorem C2_decode_restricted_text (t : List Nat) (v : Value) (h : JsonText .restricted t v) :
    Decode (Bytes t) = .ok v :=
  Decode_jsonText h

/-- C2 (amended), at the input `{"a": [-1.5e+3, "x\u0041", null]}`: the text is
well-formed and `Decode` returns the object it denotes. -/
theorem C2_decode_restricted_text_witness :
    JsonText .restricted (ascii "\x7b\"a\": [-1.5e+3, \"x\\u0041\", null]\x7d")
        (.object [(ascii "a",
          .list [.number (ascii "-1.5e+3"), .string (ascii "xA"), .null])]) ∧
      Decode (Bytes (ascii "\x7b\"a\": [-1.5e+3, \"x\\u0041\", null]\x7d")) =
        .ok (.object [(ascii "a",
          .list [.number (ascii "-1.5e+3"), .string (ascii "xA"), .null])]) :=
  have hnum : Derives .restricted (.value (.number (ascii "-1.5e+3"))) (ascii "-1.5e+3") :=
    Derives.number _ ⟨[45], [49], [46, 53], [101, 43, 51], rfl, Or.inr rfl,
      IntPart.digits 49 [] (by decide) (by decide) (by simp),
      FracPart.present [53] ⟨by simp, by simp [Digit]⟩,
      ExpPart.signed 101 43 [51] (Or.inl rfl) (Or.inl rfl) ⟨by simp, by simp [Digit]⟩⟩
  have hstr : Derives .restricted (.value (.string (ascii "xA"))) (ascii "\"x\\u0041\"") :=
    Derives.string _ _ ⟨ascii "x\\u0041", rfl,
      Chars.unescaped 120 _ _ (by decide) (by decide) (by decide)
        (Chars.unicode [48, 48, 52, 49] 0x41 [] [] rfl (by decide) Chars.nil)⟩
  have hlist : Derives .restricted
      (.value (.list [.number (ascii "-1.5e+3"), .string (ascii "xA"), .null]))
      (ascii "[-1.5e+3, \"x\\u0041\", null]") :=
    Derives.array _ _
      (Derives.elements [] (ascii "-1.5e+3") [] (ascii " \"x\\u0041\", null") _ _
        (by simp [Ws]) (by simp [Ws]) hnum
        (Derives.elements [32] (ascii "\"x\\u0041\"") [] (ascii " null") _ _
          (by simp [Ws]) (by simp [Ws]) hstr
          (Derives.element [32] (ascii "null") [] _ (by simp [Ws]) (by simp [Ws])
            Derives.null)))
  have hkey : Str .restricted (ascii "\"a\"") (ascii "a") :=
    ⟨[97], rfl, Chars.unescaped 97 _ _ (by decide) (by decide) (by decide) Chars.nil⟩
  have htext : JsonText .restricted (ascii "\x7b\"a\": [-1.5e+3, \"x\\u0041\", null]\x7d")
      (.object [(ascii "a",
        .list [.number (ascii "-1.5e+3"), .string (ascii "xA"), .null])]) :=
    ⟨[], _, [], rfl, by simp [Ws], by simp [Ws],
      Derives.object [(ascii "a",
          .list [.number (ascii "-1.5e+3"), .string (ascii "xA"), .null])]
        (ascii "\"a\": [-1.5e+3, \"x\\u0041\", null]")
        (Derives.member [] (ascii "\"a\"") [] [32] (ascii "[-1.5e+3, \"x\\u0041\", null]") []
          (ascii "a") _ (by simp [Ws]) (by simp [Ws]) (by simp [Ws]) (by simp [Ws]) hkey
          hlist)⟩
  ⟨htext, C2_decode_restricted_text _ _ htext⟩

/-- The bytes counted by `wsLen` are whitespace. -/
theorem wsLen_before (l : List Nat) : ∀ i, i < wsLen l → ∃ b, l[i]? = some b ∧ isWhitespace b = true := by
  induction l with
  | nil => intro i hi; simp [wsLen] at hi
  | cons a l ih =>
    intro i hi
    by_cases ha : isWhitespace a = true
    · have e : wsLen (a :: l) = wsLen l + 1 := by simp [wsLen, List.takeWhile_cons, ha]
      cases i with
      | zero => exact ⟨a, by simp, ha⟩
      | succ k =>
        obtain ⟨b, hb, hw⟩ := ih k (by omega)
        exact ⟨b, by simpa using hb, hw⟩
    · have e : wsLen (a :: l) = 0 := by simp [wsLen, List.takeWhile_cons, ha]
      omega

/-- The byte at which `wsLen` stops, if there is one, is not whitespace. -/
theorem wsLen_stop (l : List Nat) :
    wsLen l = l.length ∨ ∃ b, l[wsLen l]? = some b ∧ isWhitespace b = false := by
  induction l with
  | nil => exact Or.inl rfl
  | cons a l ih =>
    by_cases ha : isWhitespace a = true
    · have e : wsLen (a :: l) = wsLen l + 1 := by simp [wsLen, List.takeWhile_cons, ha]
      rw [e]
      rcases ih with h | ⟨b, hb, hw⟩
      · exact Or.inl (by simp [h])
      · exact Or.inr ⟨b, by simpa using hb, hw⟩
    · have e : wsLen (a :: l) = 0 := by simp [wsLen, List.takeWhile_cons, ha]
      rw [e]
      exact Or.inr ⟨a, by simp, by simpa using ha⟩

theorem isWhitespace_iff (b : Nat) :
    isWhitespace b = true ↔ (b = 0x20 ∨ b = 0x09 ∨ b = 0x0D ∨ b = 0x0A) := by
  simp [isWhitespace, or_assoc]

/-- C20: `skipWhitespaces`, from a cursor inside the input or at its end, moves the cursor to
the least offset `c` from the cursor on that is the input length or holds a byte other than
space, tab, CR and LF; every byte passed is one of these four; nothing but the cursor
changes; and applying it twice gives the same state as applying it once. -/
theorem C20_skipWhitespaces (j : Json) (h : j.cursor ≤ j.json.length) :
    ∃ c, skipWhitespaces j = { j with cursor := c } ∧ j.cursor ≤ c ∧ c ≤ j.json.length ∧
      (c = j.json.length ∨
        ∃ b, j.json[c]? = some b ∧ b ≠ 0x20 ∧ b ≠ 0x09 ∧ b ≠ 0x0D ∧ b ≠ 0x0A) ∧
      (∀ i, j.cursor ≤ i → i < c →
        ∃ b, j.json[i]? = some b ∧ (b = 0x20 ∨ b = 0x09 ∨ b = 0x0D ∨ b = 0x0A)) ∧
      (∀ c2, j.cursor ≤ c2 →
        (c2 = j.json.length ∨
          ∃ b, j.json[c2]? = some b ∧ b ≠ 0x20 ∧ b ≠ 0x09 ∧ b ≠ 0x0D ∧ b ≠ 0x0A) →
        c ≤ c2) ∧
      skipWhitespaces (skipWhitespaces j) = skipWhitespaces j := by
  have hle := wsLen_le (j.json.drop j.cursor)
  simp only [List.length_drop] at hle
  have hbefore : ∀ i, j.cursor ≤ i → i < j.cursor + wsLen (j.json.drop j.cursor) →
      ∃ b, j.json[i]? = some b ∧ (b = 0x20 ∨ b = 0x09 ∨ b = 0x0D ∨ b = 0x0A) := by
    intro i h1 h2
    obtain ⟨b, hb, hw⟩ := wsLen_before (j.json.drop j.cursor) (i - j.cursor) (by omega)
    rw [List.getElem?_drop, show j.cursor + (i - j.cursor) = i by omega] at hb
    exact ⟨b, hb, (isWhitespace_iff b).mp hw⟩
  refine ⟨j.cursor + wsLen (j.json.drop j.cursor), skipWhitespaces_eq j, by omega, by omega,
    ?_, hbefore, ?_, skipWhitespaces_idem j⟩
  · rcases wsLen_stop (j.json.drop j.cursor) with hs | ⟨b, hb, hw⟩
    · left
      rw [hs, List.length_drop]
      omega
    · right
      rw [List.getElem?_drop] at hb
      refine ⟨b, hb, ?_⟩
      have := (isWhitespace_iff b).not.mp (by simp [hw])
      simp only [not_or] at this
      exact this
  · intro c2 h1 h2
    by_contra hlt
    obtain ⟨b, hb, hw⟩ := hbefore c2 h1 (by omega)
    rcases h2 with h2 | ⟨b2, hb2, h20, h9, hD, hA⟩
    · have := lt_of_getElem? hb
      omega
    · rw [hb] at hb2
      cases hb2
      rcases hw with rfl | rfl | rfl | rfl <;> simp at h20 h9 hD hA

/-- C20, at the input ` \t\r\n1 ` with the cursor at offset 1: the cursor moves to offset 4,
the `1`. -/
theorem C20_skipWhitespaces_witness :
    ∃ c, skipWhitespaces { Bytes (ascii " \t\r\n1 ") with cursor := 1 } =
        { Bytes (ascii " \t\r\n1 ") with cursor := c } ∧ 1 ≤ c ∧ c ≤ 6 ∧
      (c = 6 ∨ ∃ b, (ascii " \t\r\n1 ")[c]? = some b ∧ b ≠ 0x20 ∧ b ≠ 0x09 ∧ b ≠ 0x0D ∧
        b ≠ 0x0A) ∧
      (∀ i, 1 ≤ i → i < c →
        ∃ b, (ascii " \t\r\n1 ")[i]? = some b ∧ (b = 0x20 ∨ b = 0x09 ∨ b = 0x0D ∨ b = 0x0A)) ∧
      (∀ c2, 1 ≤ c2 →
        (c2 = 6 ∨ ∃ b, (ascii " \t\r\n1 ")[c2]? = some b ∧ b ≠ 0x20 ∧ b ≠ 0x09 ∧ b ≠ 0x0D ∧
          b ≠ 0x0A) → c ≤ c2) ∧
      skipWhitespaces (skipWhitespaces { Bytes (ascii " \t\r\n1 ") with cursor := 1 }) =
        skipWhitespaces { Bytes (ascii " \t\r\n1 ") with cursor := 1 } :=
  C20_skipWhitespaces { Bytes (ascii " \t\r\n1 ") with cursor := 1 } (by decide)

/-- The loop of `parseString` over bytes that are neither `"` nor a backslash: every byte is
appended to the scratch buffer. -/
theorem parseStringLoop_plain_bytes (b : List Nat) (hb : ∀ x ∈ b, x ≠ 34 ∧ x ≠ 92) :
    ∀ (j : Json) (n : Nat) (rest : List Nat), j.json.drop j.cursor = b ++ rest →
      parseStringLoop (n + b.length) j =
        parseStringLoop n { j with cursor := j.cursor + b.length, buffer := j.buffer ++ b } := by
  induction b with
  | nil => intro j n rest _; simp
  | cons a b ih =>
    intro j n rest hd
    obtain ⟨_, hget, hrest⟩ := view_cons hd
    have ha := hb a (List.mem_cons_self _ _)
    have e : n + (a :: b).length = (n + b.length) + 1 := by simp only [List.length_cons]; omega
    rw [e, parseStringLoop_plain hget ha.1 ha.2,
      ih (fun x hx => hb x (List.mem_cons_of_mem _ hx))
        { j with cursor := j.cursor + 1, buffer := j.buffer ++ [a] } n rest hrest]
    simp only [List.length_cons, List.append_assoc, List.singleton_append]
    congr 2
    omega

/-- `parseString` on a literal without `"` and backslash between the quotes. -/
theorem parseString_plain_bytes {j : Json} {b post : List Nat}
    (hb : ∀ x ∈ b, x ≠ 34 ∧ x ≠ 92) (hd : j.json.drop j.cursor = 34 :: (b ++ 34 :: post))
    (hbuf : j.buffer = []) :
    parseString j = .ok (b, { j with cursor := j.cursor + b.length + 2 }) := by
  obtain ⟨_, _, hrest⟩ := view_cons hd
  have hlen := lt_of_drop_append_cons hrest
  obtain ⟨_, hq, _⟩ := view_cons (drop_add_of_drop hrest)
  obtain ⟨n, hn⟩ : ∃ n, j.jsonLen - (j.cursor + 1) = (n + 1) + b.length :=
    ⟨j.jsonLen - (j.cursor + 1) - b.length - 1, by simp only [Json.jsonLen]; omega⟩
  unfold parseString
  rw [hn, parseStringLoop_plain_bytes b hb { j with cursor := j.cursor + 1 } (n + 1)
    (34 :: post) hrest, parseStringLoop_quote hq]
  simp only [Res.bind_ok, hbuf, List.nil_append, Res.ok.injEq, Prod.mk.injEq, true_and]
  rw [← hbuf, show j.cursor + 1 + b.length + 1 = j.cursor + b.length + 2 by omega]

/-- The dispatcher reads a literal without `"` and backslash between the quotes as the string
of the bytes between the quotes. -/
theorem readsValue_plain_bytes {b : List Nat} (hb : ∀ x ∈ b, x ≠ 34 ∧ x ≠ 92) :
    ReadsValue (34 :: b ++ [34]) (.string b) := by
  intro j c post hd hp ht
  refine ⟨1, ?_⟩
  simp only [List.cons_append, List.append_assoc, List.nil_append] at hd
  have hget : ({ j with cursor := c } : Json).json[({ j with cursor := c } : Json).cursor]? =
      some 34 := (view_cons hd).2.1
  rw [parseValue_dispatch 0 hget (by decide),
    @parseString_plain_bytes { j with cursor := c } b post hb hd hp.1]
  simp [isDigit, Nat.add_assoc]

/-- `Decode` on a text that the dispatcher reads as a value, between whitespace. -/
theorem Decode_readsValue {t : List Nat} {v : Value} (hr : ReadsValue t v)
    (hfirst : ∃ b rest, t = b :: rest ∧ isWhitespace b = false) {w1 w2 : List Nat}
    (hw1 : Ws w1) (hw2 : Ws w2) : Decode (Bytes (w1 ++ t ++ w2)) = .ok v := by
  have hp : Plain (Bytes (w1 ++ t ++ w2)) := ⟨rfl, rfl, rfl⟩
  have hdrop : (Bytes (w1 ++ t ++ w2)).json.drop 0 = w1 ++ (t ++ w2) := by
    simp [Bytes]
  obtain ⟨fuel, hf⟩ := hr.surrounded hfirst hw1 hp hdrop
    (by simpa using Terminates.ws hw2 Terminates.nil)
  have hs : skipWhitespaces { Bytes (w1 ++ t ++ w2) with cursor := 0 + w1.length + t.length } =
      { Bytes (w1 ++ t ++ w2) with cursor := 0 + w1.length + t.length + w2.length } :=
    @skipWhitespaces_ws_end
      { Bytes (w1 ++ t ++ w2) with cursor := 0 + w1.length + t.length } w2
      (by simp [Bytes]) hw2
  rw [hs] at hf
  have hf2 : parseValue fuel (Bytes (w1 ++ t ++ w2)) = _ := hf
  unfold Decode
  rw [parseValue_decodeFuel hf2]
  simp [Json.jsonLen, Bytes]
  omega

theorem Ws.of_nil : Ws [] := by
  intro b hb
  simp at hb

/-- C17: for every byte sequence `b` without a `"` byte and without a backslash byte,
`Decode` of `"` followed by `b` and `"` succeeds and returns the string of exactly the bytes
`b`, control bytes and bytes from `0x80` on included. -/
theorem C17_plain_string (b : List Nat) (hb : ∀ x ∈ b, x ≠ 34 ∧ x ≠ 92) :
    Decode (Bytes ([34] ++ b ++ [34])) = .ok (.string b) := by
  have h := @Decode_readsValue _ _ (readsValue_plain_bytes hb) ⟨34, _, rfl, by decide⟩ [] []
    Ws.of_nil Ws.of_nil
  simpa using h

/-- C17, at the bytes `01 0A 41 80 FF` between the quotes. -/
theorem C17_plain_string_witness :
    (∀ x ∈ [0x01, 0x0A, 0x41, 0x80, 0xFF], x ≠ 34 ∧ x ≠ 92) ∧
      Decode (Bytes ([34] ++ [0x01, 0x0A, 0x41, 0x80, 0xFF] ++ [34])) =
        .ok (.string [0x01, 0x0A, 0x41, 0x80, 0xFF]) :=
  ⟨by decide, C17_plain_string [0x01, 0x0A, 0x41, 0x80, 0xFF] (by decide)⟩

theorem and_3F (x : Nat) : x &&& 0x3F = x % 64 := Nat.and_pow_two_sub_one_eq_mod x 6

theorem or_80 {x : Nat} (h : x < 64) : 0x80 ||| x = 0x80 + x := by
  have := Nat.mul_add_lt_is_or (show x < 2 ^ 7 by omega) 1
  simpa using this.symm

theorem or_C0 {x : Nat} (h : x < 32) : 0xC0 ||| x = 0xC0 + x := by
  have := Nat.mul_add_lt_is_or (show x < 2 ^ 6 by omega) 3
  simpa using this.symm

theorem or_E0 {x : Nat} (h : x < 16) : 0xE0 ||| x = 0xE0 + x := by
  have := Nat.mul_add_lt_is_or (show x < 2 ^ 5 by omega) 7
  simpa using this.symm

theorem or_F0 {x : Nat} (h : x < 8) : 0xF0 ||| x = 0xF0 + x := by
  have := Nat.mul_add_lt_is_or (show x < 2 ^ 4 by omega) 15
  simpa using this.symm

/-- `utf8.AppendRune` writes the UTF-8 encoding of a code point that is not a surrogate. -/
theorem AppendRune_utf8 {r : Nat} (hr : r ≤ 0x10FFFF) (hs : ¬ (0xD800 ≤ r ∧ r < 0xE000)) :
    AppendRune [] r = utf8 r := by
  unfold AppendRune utf8
  simp only [Nat.shiftRight_eq_div_pow, and_3F, List.nil_append, Nat.reducePow]
  by_cases h1 : r ≤ 0x7F
  · rw [if_pos h1, if_pos (show r < 0x80 by omega)]
    simp only [List.cons.injEq, and_true]
    omega
  rw [if_neg h1, if_neg (show ¬ r < 0x80 by omega)]
  by_cases h2 : r ≤ 0x7FF
  · rw [if_pos h2, if_pos (show r < 0x800 by omega), or_C0 (show r / 64 % 256 < 32 by omega),
      or_80 (show r % 256 % 64 < 64 by omega)]
    simp only [List.cons.injEq, and_true]
    omega
  rw [if_neg h2, if_neg (show ¬ r < 0x800 by omega),
    if_neg (show ¬ (r > 0x10FFFF ∨ (0xD800 ≤ r ∧ r ≤ 0xDFFF)) by omega)]
  by_cases h3 : r ≤ 0xFFFF
  · rw [if_pos h3, if_pos (show r < 0x10000 by omega),
      or_E0 (show r / 4096 % 256 < 16 by omega),
      or_80 (show r / 64 % 256 % 64 < 64 by omega), or_80 (show r % 256 % 64 < 64 by omega)]
    simp only [List.cons.injEq, and_true]
    omega
  rw [if_neg h3, if_neg (show ¬ r < 0x10000 by omega),
    or_F0 (show r / 262144 % 256 < 8 by omega),
    or_80 (show r / 4096 % 256 % 64 < 64 by omega),
    or_80 (show r / 64 % 256 % 64 < 64 by omega), or_80 (show r % 256 % 64 < 64 by omega)]
  simp only [List.cons.injEq, and_true]
  omega

/-- `utf16.DecodeRune` on a high and a low surrogate. -/
theorem DecodeRune_pair {h l : Nat} (h1 : 0xD800 ≤ h) (h2 : h ≤ 0xDBFF) (l1 : 0xDC00 ≤ l)
    (l2 : l ≤ 0xDFFF) : DecodeRune h l = 0x10000 + (h - 0xD800) * 0x400 + (l - 0xDC00) := by
  unfold DecodeRune
  rw [if_pos (by omega), Nat.shiftLeft_eq]
  have := Nat.mul_add_lt_is_or (show l - 0xdc00 < 2 ^ 10 by omega) (h - 0xd800)
  rw [Nat.mul_comm] at this
  rw [← this]
  omega

theorem hexDigitValue_lt {a d : Nat} (h : hexDigitValue a = some d) : d < 16 := by
  unfold hexDigitValue at h
  split at h
  · cases h; omega
  · split at h
    · cases h; omega
    · split at h
      · cases h; omega
      · cases h

/-- Four hex digits write a code unit below `0x10000`. -/
theorem hex4_lt {h : List Nat} {c : Nat} (hh : hex4 h = some c) : c < 0x10000 := by
  match h, hh with
  | [a, b, x, d], hh =>
    simp only [hex4] at hh
    cases ha : hexDigitValue a <;> cases hb : hexDigitValue b <;>
      cases hx : hexDigitValue x <;> cases hd : hexDigitValue d <;>
      simp only [ha, hb, hx, hd] at hh <;> try cases hh
    have := hexDigitValue_lt ha
    have := hexDigitValue_lt hb
    have := hexDigitValue_lt hx
    have := hexDigitValue_lt hd
    omega

theorem SameHexLetter.value {a b : Nat} (h : SameHexLetter a b) :
    hexDigitValue b = hexDigitValue a := by
  rcases h with rfl | ⟨h1, h2, rfl⟩ | ⟨h1, h2, rfl⟩
  · rfl
  · unfold hexDigitValue
    rw [if_neg (by omega), if_pos (by omega), if_neg (by omega), if_neg (by omega),
      if_pos (by omega)]
    simp only [Option.some.injEq]
    omega
  · unfold hexDigitValue
    rw [if_neg (by omega), if_neg (by omega), if_pos (by omega), if_neg (by omega),
      if_pos (by omega)]
    simp only [Option.some.injEq]
    omega

/-- Changing the case of hex letters does not change the code unit written. -/
theorem hex4_sameHexLetter {h h2 : List Nat} (hv : List.Forall₂ SameHexLetter h h2) :
    hex4 h2 = hex4 h := by
  match h, h2, hv with
  | [], [], _ => rfl
  | [a], [a2], _ => rfl
  | [a, b], [a2, b2], _ => rfl
  | [a, b, c], [a2, b2, c2], _ => rfl
  | [a, b, c, d], [a2, b2, c2, d2], hv =>
    simp only [List.forall₂_cons, List.Forall₂.nil, and_true] at hv
    obtain ⟨h1, h2, h3, h4⟩ := hv
    simp only [hex4, h1.value, h2.value, h3.value, h4.value]
  | a :: b :: c :: d :: e :: r, a2 :: b2 :: c2 :: d2 :: e2 :: r2, _ => rfl

/-- `Decode` on the string literal of one `\u` escape of a code unit that is not a
surrogate. -/
theorem Decode_unicode_escape {h : List Nat} {c : Nat} (hh : hex4 h = some c)
    (hs : ¬ (0xD800 ≤ c ∧ c < 0xE000)) :
    Decode (Bytes ([34, 92, 117] ++ h ++ [34])) = .ok (.string (utf8 c)) := by
  have ht : JsonText .restricted ([34, 92, 117] ++ h ++ [34]) (.string (AppendRune [] c ++ [])) :=
    ⟨[], [34, 92, 117] ++ h ++ [34], [], by simp, Ws.of_nil, Ws.of_nil,
      Derives.string _ _ ⟨92 :: 117 :: h ++ [], by simp, Chars.unicode h c [] [] hh hs Chars.nil⟩⟩
  rw [Decode_jsonText ht, List.append_nil, AppendRune_utf8 (by have := hex4_lt hh; omega) hs]

/-- C19: for four hex digits `h` (letters in either case) that write a code unit `c` outside
the surrogate range, `Decode` of the string literal `"\uXXXX"` returns the UTF-8 encoding of
the code point `c`, of one byte for `c < 0x80`, two bytes for `c < 0x800` and three bytes
otherwise; and the result is the same for every spelling of the digits that differs from `h`
only in the case of hex letters. -/
theorem C19_unicode_escape (h : List Nat) (c : Nat) (hh : hex4 h = some c)
    (hs : ¬ (0xD800 ≤ c ∧ c ≤ 0xDFFF)) :
    Decode (Bytes ([34, 92, 117] ++ h ++ [34])) = .ok (.string (utf8 c)) ∧
    (utf8 c).length = (if c < 0x80 then 1 else if c < 0x800 then 2 else 3) ∧
    ∀ h2, List.Forall₂ SameHexLetter h h2 →
      Decode (Bytes ([34, 92, 117] ++ h2 ++ [34])) =
        Decode (Bytes ([34, 92, 117] ++ h ++ [34])) := by
  have hs2 : ¬ (0xD800 ≤ c ∧ c < 0xE000) := by omega
  refine ⟨Decode_unicode_escape hh hs2, ?_, ?_⟩
  · have := hex4_lt hh
    unfold utf8
    by_cases a : c < 0x80
    · simp [a]
    · by_cases b : c < 0x800
      · simp [a, b]
      · simp [a, b, this]
  · intro h2 hv
    rw [Decode_unicode_escape hh hs2,
      Decode_unicode_escape ((hex4_sameHexLetter hv).trans hh) hs2]

/-- C19, at the escapes `\u042d` and `\u042D`: both give the bytes `D0 AD`. -/
theorem C19_unicode_escape_witness :
    (hex4 (ascii "042d") = some 0x042D ∧ ¬ (0xD800 ≤ 0x042D ∧ 0x042D ≤ 0xDFFF) ∧
      List.Forall₂ SameHexLetter (ascii "042d") (ascii "042D") ∧ utf8 0x042D = [0xD0, 0xAD]) ∧
    (Decode (Bytes ([34, 92, 117] ++ ascii "042d" ++ [34])) = .ok (.string (utf8 0x042D)) ∧
      (utf8 0x042D).length = (if 0x042D < 0x80 then 1 else if 0x042D < 0x800 then 2 else 3) ∧
      ∀ h2, List.Forall₂ SameHexLetter (ascii "042d") h2 →
        Decode (Bytes ([34, 92, 117] ++ h2 ++ [34])) =
          Decode (Bytes ([34, 92, 117] ++ ascii "042d" ++ [34]))) :=
  ⟨⟨rfl, by decide, by simp [ascii, SameHexLetter], rfl⟩,
    C19_unicode_escape (ascii "042d") 0x042D rfl (by decide)⟩

/-- `Decode` on the string literal of a surrogate pair. -/
theorem Decode_surrogate_pair {h1 h2 : List Nat} {h l : Nat} (hh : hex4 h1 = some h)
    (hl : hex4 h2 = some l) (hh1 : 0xD800 ≤ h) (hh2 : h ≤ 0xDBFF) (hl1 : 0xDC00 ≤ l)
    (hl2 : l ≤ 0xDFFF) :
    Decode (Bytes ([34, 92, 117] ++ h1 ++ [92, 117] ++ h2 ++ [34])) =
      .ok (.string (utf8 (0x10000 + (h - 0xD800) * 0x400 + (l - 0xDC00)))) := by
  have ht : JsonText .restricted ([34, 92, 117] ++ h1 ++ [92, 117] ++ h2 ++ [34])
      (.string (AppendRune [] (DecodeRune h l) ++ [])) :=
    ⟨[], [34, 92, 117] ++ h1 ++ [92, 117] ++ h2 ++ [34], [], by simp, Ws.of_nil, Ws.of_nil,
      Derives.string _ _ ⟨92 :: 117 :: h1 ++ 92 :: 117 :: h2 ++ [], by simp,
        Chars.pair h1 h2 h l [] [] hh hl hh1 (by omega) hl1 (by omega) Chars.nil⟩⟩
  rw [Decode_jsonText ht, List.append_nil, DecodeRune_pair hh1 hh2 hl1 hl2,
    AppendRune_utf8 (by omega) (by omega)]

/-- C13: for a high surrogate `h` and a low surrogate `l`, each written as four hex digits,
`Decode` of the string literal `"\uHHHH\uLLLL"` returns the single code point
`0x10000 + (h - 0xD800) * 0x400 + (l - 0xDC00)` in its UTF-8 encoding, which has four
bytes. -/
theorem C13_surrogate_pair (h1 h2 : List Nat) (h l : Nat) (hh : hex4 h1 = some h)
    (hl : hex4 h2 = some l) (hh1 : 0xD800 ≤ h) (hh2 : h ≤ 0xDBFF) (hl1 : 0xDC00 ≤ l)
    (hl2 : l ≤ 0xDFFF) :
    Decode (Bytes ([34, 92, 117] ++ h1 ++ [92, 117] ++ h2 ++ [34])) =
      .ok (.string (utf8 (0x10000 + (h - 0xD800) * 0x400 + (l - 0xDC00)))) ∧
    (utf8 (0x10000 + (h - 0xD800) * 0x400 + (l - 0xDC00))).length = 4 := by
  refine ⟨Decode_surrogate_pair hh hl hh1 hh2 hl1 hl2, ?_⟩
  unfold utf8
  rw [if_neg (by omega), if_neg (by omega), if_neg (by omega)]
  rfl

/-- C13, at `\ud83e\udd2a`: the code point is U+1F92A, the bytes are `F0 9F A4 AA`. -/
theorem C13_surrogate_pair_witness :
    (hex4 (ascii "d83e") = some 0xD83E ∧ hex4 (ascii "dd2a") = some 0xDD2A ∧
      0x10000 + (0xD83E - 0xD800) * 0x400 + (0xDD2A - 0xDC00) = 0x1F92A ∧
      utf8 0x1F92A = [0xF0, 0x9F, 0xA4, 0xAA]) ∧
    (Decode (Bytes ([34, 92, 117] ++ ascii "d83e" ++ [92, 117] ++ ascii "dd2a" ++ [34])) =
        .ok (.string (utf8 (0x10000 + (0xD83E - 0xD800) * 0x400 + (0xDD2A - 0xDC00)))) ∧
      (utf8 (0x10000 + (0xD83E - 0xD800) * 0x400 + (0xDD2A - 0xDC00))).length = 4) :=
  ⟨⟨rfl, rfl, rfl, rfl⟩,
    C13_surrogate_pair (ascii "d83e") (ascii "dd2a") 0xD83E 0xDD2A rfl rfl (by decide)
      (by decide) (by decide) (by decide)⟩

/-- C16: inside an object, at an iteration of the object loop that occurs while `Decode`
runs: a byte at offset `p` (the first byte that is not whitespace) other than `"`, `,` and
`}` where a key is expected makes `Decode` return a syntax error at `p`; and when a key was
read and, after optional whitespace, the input has ended or the byte at offset `p` is not
`:`, `Decode` returns a syntax error at `p` (the input length when the input has ended). -/
theorem C16_object_key_and_colon (j0 : Json) (fuel : Nat) (j : Json) (counter : Nat)
    (ei : Bool) (m : Value)
    (hreach : Reaches (Decode.call j0) (.objectLoop fuel j counter ei m)) :
    (∀ p c, j.cursor ≤ p → OnlyWhitespace j0.json j.cursor p → j0.json[p]? = some c →
      isWhitespace c = false → c ≠ 34 → c ≠ 44 → c ≠ 125 → Decode j0 = .syntaxError p) ∧
    (∀ k j1 p, j0.json[j.cursor]? = some 34 → parseString j = .ok (k, j1) → j1.cursor ≤ p →
      OnlyWhitespace j0.json j1.cursor p →
      (p = j0.json.length ∨ ∃ c, j0.json[p]? = some c ∧ isWhitespace c = false ∧ c ≠ 58) →
      Decode j0 = .syntaxError p) := by
  have hjson := hreach.same_input
  have hfuel := hreach.has_fuelOk (Decode.call_fuelOk j0)
  have hskip := hreach.is_skipped trivial
  simp only [Decode.call, Call.state] at hjson
  simp only [Call.fuelOk] at hfuel
  simp only [Call.skipped] at hskip
  obtain ⟨f, rfl⟩ : ∃ f, fuel = f + 1 := ⟨fuel - 1, by omega⟩
  constructor
  · intro p c hp hws hc hcw h1 h2 h3
    rw [← hjson] at hws hc
    apply Decode_of_reached_error hreach
    simp only [Call.result]
    have heq : j.cursor = p := by
      rcases Nat.eq_or_lt_of_le hp with heq | hlt
      · exact heq
      · obtain ⟨w, hw, hww⟩ := hws j.cursor (Nat.le_refl _) hlt
        rw [drop_of_getElem? hw, wsLen_cons_pos _ hww] at hskip
        omega
    subst heq
    have hcl : j.cursor < j.jsonLen := lt_of_getElem? hc
    rw [parseObjectLoop_succ]
    simp only [hcl, if_true, hc, h1, h2, h3, if_false]
  · intro k j1 p hq hstr hp hws hcase
    rw [← hjson] at hws hcase hq
    apply Decode_of_reached_error hreach
    simp only [Call.result]
    obtain ⟨c1, hj1, _, hc1⟩ := parseString_ok hstr
    simp only [] at hj1
    subst hj1
    simp only [] at hp hws
    have hcl : j.cursor < j.jsonLen := lt_of_getElem? hq
    rw [parseObjectLoop_succ]
    simp only [hcl, if_true, hq, hstr, Res.bind_ok]
    rcases hcase with rfl | ⟨c, hc, hcw, hc58⟩
    · have hs : skipWhitespaces { j with cursor := c1, buffer := [] } =
          { j with cursor := j.json.length, buffer := [] } :=
        @skipWhitespaces_to_end { j with cursor := c1, buffer := [] } hp hws
      simp only [hs, Json.jsonLen, ge_iff_le, Nat.le_refl, if_true]
    · have hs : skipWhitespaces { j with cursor := c1, buffer := [] } =
          { j with cursor := p, buffer := [] } :=
        @skipWhitespaces_to { j with cursor := c1, buffer := [] } p c hp hws hc hcw
      have hpl : p < j.json.length := lt_of_getElem? hc
      simp only [hs, Json.jsonLen, ge_iff_le, Nat.not_le.mpr hpl, if_false, hc, ne_eq, hc58,
        not_false_eq_true, if_true]

/-- C16, at the inputs `{1:2}` (no key: error at 1) and `{"key"}` (no colon: error at 6). -/
theorem C16_object_key_and_colon_witness :
    (Reaches (Decode.call (Bytes (ascii "\x7b1:2\x7d")))
        (.objectLoop 14 { Bytes (ascii "\x7b1:2\x7d") with cursor := 1 } 0 false (.object [])) ∧
      Decode (Bytes (ascii "\x7b1:2\x7d")) = .syntaxError 1) ∧
    (Reaches (Decode.call (Bytes (ascii "\x7b\"key\"\x7d")))
        (.objectLoop 20 { Bytes (ascii "\x7b\"key\"\x7d") with cursor := 1 } 0 false
          (.object [])) ∧
      parseString { Bytes (ascii "\x7b\"key\"\x7d") with cursor := 1 } =
        .ok (ascii "key", { Bytes (ascii "\x7b\"key\"\x7d") with cursor := 6 }) ∧
      Decode (Bytes (ascii "\x7b\"key\"\x7d")) = .syntaxError 6) := by
  have r1 : Reaches (Decode.call (Bytes (ascii "\x7b1:2\x7d")))
      (.objectLoop 14 { Bytes (ascii "\x7b1:2\x7d") with cursor := 1 } 0 false (.object [])) :=
    Reaches.step
      (Reaches.step (Reaches.refl _) (Invokes.value_object 15 (Bytes (ascii "\x7b1:2\x7d")) rfl))
      (Invokes.object_loop 14 _)
  have r2 : Reaches (Decode.call (Bytes (ascii "\x7b\"key\"\x7d")))
      (.objectLoop 20 { Bytes (ascii "\x7b\"key\"\x7d") with cursor := 1 } 0 false
        (.object [])) :=
    Reaches.step
      (Reaches.step (Reaches.refl _)
        (Invokes.value_object 21 (Bytes (ascii "\x7b\"key\"\x7d")) rfl))
      (Invokes.object_loop 20 _)
  refine ⟨⟨r1, ?_⟩, ⟨r2, rfl, ?_⟩⟩
  · exact (C16_object_key_and_colon (Bytes (ascii "\x7b1:2\x7d")) 14 _ 0 false _ r1).1 1 49
      (Nat.le_refl _) (OnlyWhitespace.empty _ _) rfl rfl (by decide) (by decide) (by decide)
  · exact (C16_object_key_and_colon (Bytes (ascii "\x7b\"key\"\x7d")) 20 _ 0 false _ r2).2
      (ascii "key") { Bytes (ascii "\x7b\"key\"\x7d") with cursor := 6 } 6 rfl rfl
      (Nat.le_refl _) (OnlyWhitespace.empty _ _) (Or.inr ⟨125, rfl, rfl, by decide⟩)

theorem parseStringLoop_zero (j : Json) : parseStringLoop 0 j = .syntaxError j.cursor := rfl

theorem parseStringLoop_succ (n : Nat) (j : Json) : parseStringLoop (n + 1) j =
    if j.cursor < j.jsonLen then
      match j.json[j.cursor]? with
      | none => .panic
      | some c =>
        if c = 34 then .ok (j.buffer, { j with cursor := j.cursor + 1 })
        else if c = 92 then
          match j.json[j.cursor + 1]? with
          | none => .panic
          | some e =>
            (parseEscape e { j with cursor := j.cursor + 1 }).bind fun j2 =>
              parseStringLoop n { j2 with cursor := j2.cursor + 1 }
        else parseStringLoop n { j with cursor := j.cursor + 1, buffer := j.buffer ++ [c] }
    else .syntaxError j.cursor := rfl

/-- The loop of `parseString` does not depend on surplus iterations allowed. -/
theorem parseStringLoop_fuel_succ (n : Nat) :
    ∀ (j : Json), j.jsonLen - j.cursor ≤ n → parseStringLoop (n + 1) j = parseStringLoop n j := by
  induction n with
  | zero =>
    intro j h
    rw [parseStringLoop_succ, parseStringLoop_zero, if_neg (by omega)]
  | succ m ih =>
    intro j h
    rw [parseStringLoop_succ (m + 1), parseStringLoop_succ m]
    by_cases hlt : j.cursor < j.jsonLen
    · simp only [hlt, if_true]
      cases hget : j.json[j.cursor]? with
      | none => rfl
      | some c =>
        simp only []
        by_cases h34 : c = 34
        · simp only [h34, if_true]
        · simp only [h34, if_false]
          by_cases h92 : c = 92
          · simp only [h92, if_true]
            cases hget1 : j.json[j.cursor + 1]? with
            | none => rfl
            | some e =>
              simp only []
              cases hesc : parseEscape e { j with cursor := j.cursor + 1 } with
              | ok j2 =>
                simp only [Res.bind_ok]
                obtain ⟨c2, b2, rfl, hc2, _⟩ := parseEscape_ok hesc
                exact ih _ (by simp only [Json.jsonLen] at h hc2 ⊢; omega)
              | syntaxError p => rfl
              | panic => rfl
              | outOfFuel => rfl
          · simp only [h92, if_false]
            exact ih _ (by simp only [Json.jsonLen] at h ⊢; omega)
    · simp only [hlt, if_false]

theorem parseStringLoop_fuel {n : Nat} {j : Json} (h : j.jsonLen - j.cursor ≤ n) :
    parseStringLoop n j = parseStringLoop (j.jsonLen - j.cursor) j := by
  induction n with
  | zero =>
    have : j.jsonLen - j.cursor = 0 := by omega
    rw [this]
  | succ m ih =>
    rcases Nat.eq_or_lt_of_le h with heq | hlt
    · rw [heq]
    · rw [parseStringLoop_fuel_succ m j (by omega), ih (by omega)]

/-- An iteration of the loop of `parseString` that goes on: the input is kept, the cursor
moves forward, and the outcome of the loop is that of the loop continued. -/
theorem StringStep.loop_one {j j2 : Json} (h : StringStep j j2) :
    j2.json = j.json ∧ j.cursor < j2.cursor ∧ j2.cursor ≤ j.jsonLen ∧
      parseStringLoop (j.jsonLen - j.cursor) j =
        parseStringLoop (j2.jsonLen - j2.cursor) j2 := by
  cases h with
  | plain c hget h1 h2 =>
    have hlt := lt_of_getElem? hget
    refine ⟨rfl, by simp, by simp only [Json.jsonLen]; omega, ?_⟩
    obtain ⟨n, hn⟩ : ∃ n, j.jsonLen - j.cursor = n + 1 :=
      ⟨j.jsonLen - j.cursor - 1, by simp only [Json.jsonLen]; omega⟩
    rw [hn, parseStringLoop_plain hget h1 h2]
    exact parseStringLoop_fuel (by simp only [Json.jsonLen] at hn ⊢; omega)
  | escape e j3 hget hget1 hesc =>
    have hlt := lt_of_getElem? hget1
    obtain ⟨c2, b2, rfl, hc2, hc3⟩ := parseEscape_ok hesc
    simp only [Json.jsonLen] at hc2 hc3
    refine ⟨rfl, by simp only []; omega, by simp only [Json.jsonLen]; omega, ?_⟩
    simp only [Json.jsonLen]
    obtain ⟨n, hn⟩ : ∃ n, j.json.length - j.cursor = n + 1 :=
      ⟨j.json.length - j.cursor - 1, by omega⟩
    rw [hn, parseStringLoop_escape hget hget1 hesc]
    exact parseStringLoop_fuel (by simp only [Json.jsonLen]; omega)

theorem StringSteps.loop_eq {j j2 : Json} (h : StringSteps j j2) :
    j2.json = j.json ∧ j.cursor ≤ j2.cursor ∧ (j.cursor ≤ j.jsonLen → j2.cursor ≤ j.jsonLen) ∧
      parseStringLoop (j.jsonLen - j.cursor) j =
        parseStringLoop (j2.jsonLen - j2.cursor) j2 := by
  induction h with
  | refl => exact ⟨rfl, Nat.le_refl _, fun h => h, rfl⟩
  | step _ hstep ih =>
    obtain ⟨h1, h2, h3, h4⟩ := ih
    obtain ⟨k1, k2, k3, k4⟩ := hstep.loop_one
    refine ⟨k1.trans h1, by omega, ?_, h4.trans k4⟩
    intro _
    simp only [Json.jsonLen, h1] at k3 ⊢
    exact k3

/-- An error of `parseString` is the outcome of the call that calls it. -/
theorem CallsString.error_to_caller {c : Call} {j : Json} (h : CallsString c j) {pos : Nat}
    (hs : parseString j = .syntaxError pos) : c.result = .syntaxError pos := by
  cases h with
  | value fuel j0 hget =>
    simp only [Call.result]
    rw [parseValue_succ]
    simp only [lt_of_getElem? hget, Json.jsonLen, if_true, hget, hs]
    simp [isDigit]
  | key fuel _ counter ei m hget =>
    simp only [Call.result]
    rw [parseObjectLoop_succ]
    simp only [lt_of_getElem? hget, Json.jsonLen, if_true, hget, hs]
    rfl

/-- A syntax error of the loop of `parseString`, at an iteration that occurs while `Decode`
runs, is the outcome of `Decode`. -/
theorem Decode_of_string_error {j0 j : Json} (h : InString j0 j) {pos : Nat}
    (hl : parseStringLoop (j.jsonLen - j.cursor) j = .syntaxError pos) :
    Decode j0 = .syntaxError pos := by
  obtain ⟨c, js, hreach, hcall, hsteps⟩ := h
  apply Decode_of_reached_error hreach
  apply hcall.error_to_caller
  unfold parseString
  have := hsteps.loop_eq.2.2.2
  simp only [Json.jsonLen] at this hl ⊢
  rw [this, hl]
  rfl

/-- The string loop does not leave the input. -/
theorem InString.bounds {j0 j : Json} (h : InString j0 j) :
    j.json = j0.json ∧ j.cursor ≤ j.json.length := by
  obtain ⟨c, js, hreach, hcall, hsteps⟩ := h
  have h1 := hreach.same_input
  simp only [Decode.call, Call.state] at h1
  obtain ⟨k1, k2, k3, _⟩ := hsteps.loop_eq
  simp only [Json.jsonLen] at k1 k3
  have hq : js.json = c.state.json ∧ js.cursor < js.json.length := by
    cases hcall with
    | value fuel j1 hget => exact ⟨skipWhitespaces_json j1, lt_of_getElem? hget⟩
    | key fuel _ counter ei m hget => exact ⟨rfl, lt_of_getElem? hget⟩
  refine ⟨k1.trans (hq.1.trans h1), ?_⟩
  rw [k1]
  exact k3 hq.2

/-- When the input ends inside a string literal, at the head of an iteration of the loop of
`parseString`, `Decode` returns a syntax error at the input length. -/
theorem Decode_of_string_end {j0 j : Json} (h : InString j0 j)
    (hend : j.cursor = j0.json.length) : Decode j0 = .syntaxError j0.json.length := by
  have hb := h.bounds
  apply Decode_of_string_error h
  have : j.jsonLen - j.cursor = 0 := by simp only [Json.jsonLen, hb.1, hend]; omega
  rw [this, parseStringLoop_zero, hend]

theorem hexToRuneLoop_none {l : List Nat} (h : ∃ b ∈ l, hexDigit b = none) :
    ∀ r, hexToRuneLoop l r = none := by
  induction l with
  | nil => obtain ⟨b, hb, _⟩ := h; simp at hb
  | cons a l ih =>
    intro r
    obtain ⟨b, hb, hn⟩ := h
    simp only [hexToRuneLoop]
    cases ha : hexDigit a with
    | none => rfl
    | some d =>
      simp only []
      rcases List.mem_cons.mp hb with rfl | hmem
      · rw [ha] at hn; cases hn
      · exact ih ⟨b, hmem, hn⟩ _

theorem hexDigit_none {b : Nat}
    (h : ¬ ((0x30 ≤ b ∧ b ≤ 0x39) ∨ (0x61 ≤ b ∧ b ≤ 0x66) ∨ (0x41 ≤ b ∧ b ≤ 0x46))) :
    hexDigit b = none := by
  unfold hexDigit
  rw [if_neg (by omega), if_neg (by omega), if_neg (by omega)]

/-- `hexToRune` where fewer than four bytes remain or one of the four bytes is not a hex
digit: a syntax error at the cursor. -/
theorem hexToRune_bad {j : Json} {rest : List Nat} (hd : j.json.drop j.cursor = rest)
    (hbad : rest.length < 4 ∨ ∃ b ∈ rest.take 4,
      ¬ ((0x30 ≤ b ∧ b ≤ 0x39) ∨ (0x61 ≤ b ∧ b ≤ 0x66) ∨ (0x41 ≤ b ∧ b ≤ 0x46))) :
    hexToRune j = .syntaxError j.cursor := by
  unfold hexToRune
  by_cases hlen : j.jsonLen < j.cursor + 4
  · rw [if_pos hlen]
  · rw [if_neg hlen]
    have hl : rest.length = j.json.length - j.cursor := by rw [← hd, List.length_drop]
    simp only [Json.jsonLen] at hlen
    rcases hbad with hshort | ⟨b, hb, hn⟩
    · omega
    · have hs : slice j.json j.cursor (j.cursor + 4) = rest.take 4 := by
        simp only [slice, hd, Nat.add_sub_cancel_left]
      rw [hs, hexToRuneLoop_none ⟨b, hb, hexDigit_none hn⟩]

/-- The loop of `parseString` at a `\u` escape with fewer than four bytes after the `u`, or
with a byte that is not a hex digit among the four: a syntax error at the offset of the byte
after the `u`. -/
theorem parseStringLoop_bad_hex {j : Json} {rest : List Nat}
    (hd : j.json.drop j.cursor = 92 :: 117 :: rest)
    (hbad : rest.length < 4 ∨ ∃ b ∈ rest.take 4,
      ¬ ((0x30 ≤ b ∧ b ≤ 0x39) ∨ (0x61 ≤ b ∧ b ≤ 0x66) ∨ (0x41 ≤ b ∧ b ≤ 0x46))) (n : Nat) :
    parseStringLoop (n + 1) j = .syntaxError (j.cursor + 2) := by
  obtain ⟨hlt, hget, hrest⟩ := view_cons hd
  obtain ⟨_, hget1, hrest1⟩ := view_cons hrest
  have hh : hexToRune { j with cursor := j.cursor + 1 + 1 } = .syntaxError (j.cursor + 1 + 1) :=
    @hexToRune_bad { j with cursor := j.cursor + 1 + 1 } rest hrest1 hbad
  rw [parseStringLoop_succ]
  simp only [Json.jsonLen, hlt, if_true, hget, hget1]
  simp only [show ¬ (92 : Nat) = 34 by decide, if_false, if_true, parseEscape, parseUnicode, hh]
  simp

/-- The same at the second escape of a surrogate pair. -/
theorem parseStringLoop_bad_hex_second {j : Json} {hx rest : List Nat} {r : Nat}
    (hd : j.json.drop j.cursor = 92 :: 117 :: (hx ++ 92 :: 117 :: rest))
    (hh : hex4 hx = some r) (hs : 0xD800 ≤ r ∧ r ≤ 0xDFFF)
    (hbad : rest.length < 4 ∨ ∃ b ∈ rest.take 4,
      ¬ ((0x30 ≤ b ∧ b ≤ 0x39) ∨ (0x61 ≤ b ∧ b ≤ 0x66) ∨ (0x41 ≤ b ∧ b ≤ 0x46))) (n : Nat) :
    parseStringLoop (n + 1) j = .syntaxError (j.cursor + 8) := by
  obtain ⟨hlt, hget, hrest⟩ := view_cons hd
  obtain ⟨_, hget1, hrest1⟩ := view_cons hrest
  have hl := (hexToRuneLoop_hex4 hh).2
  have h1 : hexToRune { j with cursor := j.cursor + 1 + 1 } =
      .ok (r, { j with cursor := j.cursor + 1 + 1 + 3 }) :=
    @hexToRune_text { j with cursor := j.cursor + 1 + 1 } hx _ r hrest1 hh
  have hrest2 := drop_add_of_drop hrest1
  rw [hl] at hrest2
  obtain ⟨_, hget2, hrest3⟩ := view_cons hrest2
  obtain ⟨_, hget3, hrest4⟩ := view_cons hrest3
  have h2 : hexToRune { j with cursor := j.cursor + 1 + 1 + 3 + 3 } =
      .syntaxError (j.cursor + 1 + 1 + 3 + 3) :=
    @hexToRune_bad { j with cursor := j.cursor + 1 + 1 + 3 + 3 } rest
      (by simpa [Nat.add_assoc] using hrest4) hbad
  have hsur : IsSurrogate r = true := by
    simp only [IsSurrogate, decide_eq_true_eq]; omega
  have e1 : j.cursor + 1 + 1 + 3 + 1 = j.cursor + 1 + 1 + 4 := by omega
  have e2 : j.cursor + 1 + 1 + 3 + 2 = j.cursor + 1 + 1 + 4 + 1 := by omega
  rw [parseStringLoop_succ]
  simp only [Json.jsonLen, hlt, if_true, hget, hget1]
  simp only [show ¬ (92 : Nat) = 34 by decide, if_false, if_true, parseEscape, parseUnicode, h1,
    Res.bind_ok, hsur, e1, e2, hget2, hget3, h2]
  simp

/-- C15: while `Decode` lexes a string literal, at a `\u` escape after whose `u` fewer than
four bytes of input remain, or one of the four bytes is not in `0-9a-fA-F`, `Decode` returns
a syntax error at the offset of the byte right after that `u`; the same holds at the second
escape of a surrogate pair.  (`j` is the state of the string loop at the backslash, `rest`
the input after the `u` in question.) -/
theorem C15_bad_hex_digits (j0 j : Json) (h : InString j0 j) (rest : List Nat)
    (hbad : rest.length < 4 ∨ ∃ b ∈ rest.take 4,
      ¬ ((0x30 ≤ b ∧ b ≤ 0x39) ∨ (0x61 ≤ b ∧ b ≤ 0x66) ∨ (0x41 ≤ b ∧ b ≤ 0x46))) :
    (j0.json.drop j.cursor = 92 :: 117 :: rest → Decode j0 = .syntaxError (j.cursor + 2)) ∧
    (∀ hx r, hex4 hx = some r → 0xD800 ≤ r → r ≤ 0xDFFF →
      j0.json.drop j.cursor = 92 :: 117 :: (hx ++ 92 :: 117 :: rest) →
      Decode j0 = .syntaxError (j.cursor + 8)) := by
  have hb := h.bounds
  constructor
  · intro hd
    rw [← hb.1] at hd
    have hlt := (view_cons hd).1
    obtain ⟨n, hn⟩ : ∃ n, j.jsonLen - j.cursor = n + 1 :=
      ⟨j.jsonLen - j.cursor - 1, by simp only [Json.jsonLen]; omega⟩
    apply Decode_of_string_error h
    rw [hn, parseStringLoop_bad_hex hd hbad]
  · intro hx r hh h1 h2 hd
    rw [← hb.1] at hd
    have hlt := (view_cons hd).1
    obtain ⟨n, hn⟩ : ∃ n, j.jsonLen - j.cursor = n + 1 :=
      ⟨j.jsonLen - j.cursor - 1, by simp only [Json.jsonLen]; omega⟩
    apply Decode_of_string_error h
    rw [hn, parseStringLoop_bad_hex_second hd hh ⟨h1, h2⟩ hbad]

/-- C15, at the inputs `"\u12"` (three bytes after the `u`: error at 3) and `["\ud83e\udx00"]`
(a byte that is not a hex digit in the second escape of a pair: error at 10). -/
theorem C15_bad_hex_digits_witness :
    (InString (Bytes (ascii "\"\\u12\"")) { Bytes (ascii "\"\\u12\"") with cursor := 1 } ∧
      Decode (Bytes (ascii "\"\\u12\"")) = .syntaxError 3) ∧
    (InString (Bytes (ascii "[\"\\ud83e\\udx00\"]"))
        { Bytes (ascii "[\"\\ud83e\\udx00\"]") with cursor := 2 } ∧
      Decode (Bytes (ascii "[\"\\ud83e\\udx00\"]")) = .syntaxError 10) := by
  have i1 : InString (Bytes (ascii "\"\\u12\""))
      { Bytes (ascii "\"\\u12\"") with cursor := 1 } :=
    ⟨_, _, Reaches.refl _, CallsString.value 18 (Bytes (ascii "\"\\u12\"")) rfl,
      StringSteps.refl _⟩
  have i2 : InString (Bytes (ascii "[\"\\ud83e\\udx00\"]"))
      { Bytes (ascii "[\"\\ud83e\\udx00\"]") with cursor := 2 } :=
    ⟨_, _,
      Reaches.step
        (Reaches.step
          (Reaches.step (Reaches.refl _)
            (Invokes.value_list 48 (Bytes (ascii "[\"\\ud83e\\udx00\"]")) rfl))
          (Invokes.list_loop 47 _))
        (Invokes.listLoop_item 46 { Bytes (ascii "[\"\\ud83e\\udx00\"]") with cursor := 1 } 0
          false [] .null 34 rfl (by decide) (by decide)),
      CallsString.value 45 { Bytes (ascii "[\"\\ud83e\\udx00\"]") with cursor := 1 } rfl,
      StringSteps.refl _⟩
  refine ⟨⟨i1, ?_⟩, ⟨i2, ?_⟩⟩
  · exact (C15_bad_hex_digits _ _ i1 (ascii "12\"") (Or.inl (by decide))).1 rfl
  · exact (C15_bad_hex_digits _ _ i2 (ascii "dx00\"]")
      (Or.inr ⟨120, by decide, by decide⟩)).2 (ascii "d83e") 0xD83E rfl (by decide) (by decide)
      rfl

theorem StringSteps.append {a b c : Json} (h1 : StringSteps a b) (h2 : StringSteps b c) :
    StringSteps a c := by
  induction h2 with
  | refl => exact h1
  | step _ hs ih => exact StringSteps.step ih hs

/-- The loop of `parseString` over bytes that are neither `"` nor a backslash. -/
theorem StringSteps.plain_bytes (a : List Nat) (ha : ∀ x ∈ a, x ≠ 34 ∧ x ≠ 92) :
    ∀ (j : Json) (rest : List Nat), j.json.drop j.cursor = a ++ rest →
      StringSteps j { j with cursor := j.cursor + a.length, buffer := j.buffer ++ a } := by
  induction a with
  | nil => intro j rest _; simpa using StringSteps.refl j
  | cons x a ih =>
    intro j rest hd
    obtain ⟨_, hget, hrest⟩ := view_cons hd
    have hx := ha x (List.mem_cons_self _ _)
    have h1 : StringSteps j { j with cursor := j.cursor + 1, buffer := j.buffer ++ [x] } :=
      StringSteps.step (StringSteps.refl j) (StringStep.plain j x hget hx.1 hx.2)
    have h2 := ih (fun y hy => ha y (List.mem_cons_of_mem _ hy))
      { j with cursor := j.cursor + 1, buffer := j.buffer ++ [x] } rest hrest
    have e : j.cursor + (x :: a).length = j.cursor + 1 + a.length := by
      simp only [List.length_cons]; omega
    have e2 : j.buffer ++ x :: a = j.buffer ++ [x] ++ a := by simp
    rw [e, e2]
    exact h1.append h2

/-- `parseString` when its loop comes to the closing quote: the result is the scratch buffer
at that point. -/
theorem parseString_of_steps {js j : Json}
    (h : StringSteps { js with cursor := js.cursor + 1 } j) (hq : j.json[j.cursor]? = some 34) :
    parseString js = .ok (j.buffer, { j with cursor := j.cursor + 1, buffer := [] }) := by
  have hl := h.loop_eq.2.2.2
  have hlt := lt_of_getElem? hq
  obtain ⟨n, hn⟩ : ∃ n, j.jsonLen - j.cursor = n + 1 :=
    ⟨j.jsonLen - j.cursor - 1, by simp only [Json.jsonLen]; omega⟩
  unfold parseString
  simp only [Json.jsonLen] at hl hn ⊢
  rw [hl, hn, parseStringLoop_quote hq]
  rfl

/-- The simple escapes of `parseString`: the byte after the backslash and the byte
appended. -/
theorem parseEscape_listed {e d : Nat}
    (hed : (e = 34 ∧ d = 34) ∨ (e = 92 ∧ d = 92) ∨ (e = 47 ∧ d = 47) ∨ (e = 39 ∧ d = 39) ∨
      (e = 114 ∧ d = 0x0D) ∨ (e = 110 ∧ d = 0x0A) ∨ (e = 116 ∧ d = 0x09) ∨
      (e = 98 ∧ d = 0x08) ∨ (e = 102 ∧ d = 0x0C)) (j : Json) :
    parseEscape e j = .ok { j with buffer := j.buffer ++ [d] } := by
  rcases hed with h | h | h | h | h | h | h | h | h <;>
    (obtain ⟨he, hd⟩ := h; subst he; subst hd; simp [parseEscape])

/-- C18: inside a string literal a backslash followed by `"`, `\`, `/` or `'` contributes
that byte, and a backslash followed by `r`, `n`, `t`, `b`, `f` the byte `0x0D`, `0x0A`,
`0x09`, `0x08`, `0x0C`: the iteration of the string loop at the backslash appends the one
byte to the scratch buffer (the decoded string so far) and the loop goes on two bytes
further, so an escaped `"` does not end the string; and `Decode` of a literal written with
one such escape between bytes that are neither `"` nor backslash returns these bytes with the
one byte in place of the escape. -/
theorem C18_simple_escapes (e d : Nat)
    (hed : (e = 34 ∧ d = 34) ∨ (e = 92 ∧ d = 92) ∨ (e = 47 ∧ d = 47) ∨ (e = 39 ∧ d = 39) ∨
      (e = 114 ∧ d = 0x0D) ∨ (e = 110 ∧ d = 0x0A) ∨ (e = 116 ∧ d = 0x09) ∨
      (e = 98 ∧ d = 0x08) ∨ (e = 102 ∧ d = 0x0C)) :
    (∀ (j : Json) (n : Nat), j.json[j.cursor]? = some 92 → j.json[j.cursor + 1]? = some e →
      parseStringLoop (n + 1) j =
        parseStringLoop n { j with cursor := j.cursor + 2, buffer := j.buffer ++ [d] }) ∧
    (∀ a b : List Nat, (∀ x ∈ a, x ≠ 34 ∧ x ≠ 92) → (∀ x ∈ b, x ≠ 34 ∧ x ≠ 92) →
      Decode (Bytes ([34] ++ a ++ [92, e] ++ b ++ [34])) = .ok (.string (a ++ [d] ++ b))) := by
  constructor
  · intro j n hget hget1
    rw [parseStringLoop_escape hget hget1 (parseEscape_listed hed _)]
  · intro a b ha hb
    have hr : ReadsValue ([34] ++ a ++ [92, e] ++ b ++ [34]) (.string (a ++ [d] ++ b)) := by
      intro j c post hd hp ht
      refine ⟨1, ?_⟩
      simp only [List.cons_append, List.append_assoc, List.nil_append] at hd
      obtain ⟨_, hq, hd1⟩ := view_cons hd
      have hget : ({ j with cursor := c } : Json).json[({ j with cursor := c } : Json).cursor]? =
          some 34 := hq
      have s1 := StringSteps.plain_bytes a ha { j with cursor := c + 1 } _ hd1
      have hd2 := drop_add_of_drop hd1
      obtain ⟨_, hbs, hd3⟩ := view_cons hd2
      obtain ⟨_, hbe, hd4⟩ := view_cons hd3
      have s2 : StringStep
          { j with cursor := c + 1 + a.length, buffer := j.buffer ++ a } _ :=
        StringStep.escape _ e _ hbs hbe (parseEscape_listed hed _)
      have s3 := StringSteps.plain_bytes b hb
        { j with cursor := c + 1 + a.length + 1 + 1, buffer := j.buffer ++ a ++ [d] } _ hd4
      obtain ⟨_, hclose, _⟩ := view_cons (drop_add_of_drop hd4)
      have hs := @parseString_of_steps { j with cursor := c } _
        ((StringSteps.step s1 s2).append s3) hclose
      rw [parseValue_dispatch 0 hget (by decide), hs]
      simp [isDigit, hp.1]
      congr 2
      omega
    have h := @Decode_readsValue _ _ hr ⟨34, _, rfl, by decide⟩ [] [] Ws.of_nil Ws.of_nil
    simpa using h

/-- C18, at the escape of `"` in the literal `"\"some name\""`: the iteration at offset 1
appends `"` and goes on at offset 3; `Decode` of `"x\"y"` returns `x"y`, and `Decode` of the
literal of the tests returns `"some name"`. -/
theorem C18_simple_escapes_witness :
    (parseStringLoop (14 + 1) { Bytes (ascii "\"\\\"some name\\\"\"") with cursor := 1 } =
        parseStringLoop 14
          { Bytes (ascii "\"\\\"some name\\\"\"") with cursor := 1 + 2, buffer := [] ++ [34] } ∧
      Decode (Bytes ([34] ++ ascii "x" ++ [92, 34] ++ ascii "y" ++ [34])) =
        .ok (.string (ascii "x" ++ [34] ++ ascii "y"))) ∧
    Decode (Bytes (ascii "\"\\\"some name\\\"\"")) = .ok (.string (ascii "\"some name\"")) :=
  ⟨⟨(C18_simple_escapes 34 34 (Or.inl ⟨rfl, rfl⟩)).1
      { Bytes (ascii "\"\\\"some name\\\"\"") with cursor := 1 } 14 rfl rfl,
    (C18_simple_escapes 34 34 (Or.inl ⟨rfl, rfl⟩)).2 (ascii "x") (ascii "y") (by decide)
      (by decide)⟩,
    by decide!⟩

/-- The loop of `parseString` at the `\u` escape of a surrogate that is followed by a byte
other than a backslash, or by a backslash and a byte other than `u`: U+FFFD is appended and
the loop goes on at the byte after the four hex digits. -/
theorem parseStringLoop_lone_surrogate {j : Json} {hx rest : List Nat} {r a : Nat}
    (hd : j.json.drop j.cursor = 92 :: 117 :: (hx ++ a :: rest)) (hh : hex4 hx = some r)
    (hs : 0xD800 ≤ r ∧ r < 0xE000)
    (hnext : a ≠ 92 ∨ ∃ x rest2, rest = x :: rest2 ∧ x ≠ 117) (n : Nat) :
    parseStringLoop (n + 1) j =
      parseStringLoop n
        { j with cursor := j.cursor + 6, buffer := j.buffer ++ [0xEF, 0xBF, 0xBD] } := by
  obtain ⟨_, hget, hrest⟩ := view_cons hd
  obtain ⟨_, hget1, hrest1⟩ := view_cons hrest
  have hu := @parseUnicode_lone { j with cursor := j.cursor + 1 } hx rest r a hrest1 hh hs hnext
  have hp : parseEscape 117 { j with cursor := j.cursor + 1 } =
      .ok { j with cursor := j.cursor + 1 + 4, buffer := AppendRune j.buffer 0xFFFD } := by
    simp [parseEscape, hu]
  have hfffd : AppendRune j.buffer 0xFFFD = j.buffer ++ [0xEF, 0xBF, 0xBD] := by
    rw [AppendRune_append]; rfl
  rw [parseStringLoop_escape hget hget1 hp, hfffd]

/-- C12 (defect of the code): when the input ends inside a string literal right after a
backslash, `Decode` does not return a syntax error at the input length: the string lexer
reads the byte after the backslash, outside the input, and the decoder panics (`"\`,
`["asd\`, `"\ud83e\`).  Where the input ends at another place of the literal, `Decode`
returns the syntax error (`["asd]` at 6, `["]` at 3, `"\"` at 3). -/
theorem C12_unterminated_string_panics :
    Decode (Bytes (ascii "\"\\")) = .panic ∧ Decode (Bytes (ascii "[\"asd\\")) = .panic ∧
    Decode (Bytes (ascii "\"\\ud83e\\")) = .panic ∧
    Decode (Bytes (ascii "[\"asd]")) = .syntaxError 6 ∧
    Decode (Bytes (ascii "[\"]")) = .syntaxError 3 ∧
    Decode (Bytes (ascii "\"\\\"")) = .syntaxError 3 := by
  refine ⟨?_, ?_, ?_, ?_, ?_, ?_⟩ <;> decide!

/-- C14 (defect of the code): at the `\u` escape of a surrogate after whose four hex digits no
byte follows, or only a backslash, the lexer does not append U+FFFD and go on: it reads the
two following bytes without a bounds check and the decoder panics (`"\ud83e`, `"\ud83e\`).
With a following byte that is not a backslash, or a backslash and a byte other than `u`, it
appends U+FFFD and goes on after the four hex digits (`"\ud83eabc"`, `"\ud83e"`,
`"\ud83e\n"`). -/
theorem C14_lone_surrogate_at_end_panics :
    Decode (Bytes (ascii "\"\\ud83e")) = .panic ∧
    Decode (Bytes (ascii "\"\\ud83e\\")) = .panic ∧
    Decode (Bytes (ascii "\"\\ud83eabc\"")) = .ok (.string ([0xEF, 0xBF, 0xBD] ++ ascii "abc")) ∧
    Decode (Bytes (ascii "\"\\ud83e\"")) = .ok (.string [0xEF, 0xBF, 0xBD]) ∧
    Decode (Bytes (ascii "\"\\ud83e\\n\"")) = .ok (.string [0xEF, 0xBF, 0xBD, 0x0A]) := by
  refine ⟨?_, ?_, ?_, ?_, ?_⟩ <;> decide!

/-- The first loop of `parseNumber` over digits with at most one `.` among them, up to a byte
that is neither. -/
theorem numberDigitsLoop_body {j : Json} {i : Nat} {D1 F rest : List Nat}
    (hd : j.json.drop i = D1 ++ (F ++ rest)) (hD1 : ∀ x ∈ D1, Digit x)
    (hF : F = [] ∨ ∃ D2, F = 46 :: D2 ∧ ∀ x ∈ D2, Digit x)
    (hstop : ∀ c, rest.head? = some c → isDigit c = false ∧ c ≠ 46) :
    numberDigitsLoop (j.jsonLen - i) j i false = .ok (i + D1.length + F.length) := by
  have hlen : (j.json.drop i).length = j.jsonLen - i := by simp [Json.jsonLen]
  rw [hd] at hlen
  simp only [List.length_append] at hlen
  rw [numberDigitsLoop_digits D1 hD1 _ i false _ hd (by omega)]
  have hd1 := drop_add_of_drop hd
  rcases hF with rfl | ⟨D2, rfl, hD2⟩
  · simp only [List.nil_append] at hd1
    rw [numberDigitsLoop_stop hd1 hstop]
    simp
  · simp only [List.cons_append] at hd1
    obtain ⟨_, hget, hd2⟩ := view_cons hd1
    simp only [List.length_cons] at hlen
    obtain ⟨n, hn⟩ : ∃ n, j.jsonLen - i - D1.length = n + 1 :=
      ⟨j.jsonLen - i - D1.length - 1, by omega⟩
    rw [hn, numberDigitsLoop_dot hget, numberDigitsLoop_digits D2 hD2 _ _ true _ hd2 (by omega)]
    have hd3 := drop_add_of_drop hd2
    rw [numberDigitsLoop_stop hd3 hstop]
    simp only [List.length_cons]
    congr 1
    omega

/-- The exponent part of `parseNumber` at `e` or `E`, a sign and at least one digit: the
exponent is consumed through its last consecutive digit. -/
theorem numberExponent_signed {j : Json} {i e s : Nat} {ds post : List Nat}
    (hd : j.json.drop i = e :: s :: (ds ++ post)) (he : e = 101 ∨ e = 69)
    (hs : s = 43 ∨ s = 45) (hne : ds ≠ []) (hds : ∀ x ∈ ds, Digit x)
    (hpost : ∀ c, post.head? = some c → isDigit c = false) :
    numberExponent j i = .ok (i + 2 + ds.length) := by
  obtain ⟨x0, ds2, rfl⟩ : ∃ x0 ds2, ds = x0 :: ds2 := by
    cases ds with
    | nil => exact absurd rfl hne
    | cons a b => exact ⟨a, b, rfl⟩
  unfold numberExponent
  simp only [List.cons_append] at hd
  have hlen := length_of_drop hd
  simp only [List.length_cons, List.length_append] at hlen
  have g0 := get_of_drop hd 0
  have g1 := get_of_drop hd 1
  have g2 := get_of_drop hd 2
  simp only [Nat.add_zero, List.getElem?_cons_zero, List.getElem?_cons_succ] at g0 g1 g2
  have hge : j.jsonLen ≥ i + 2 := by simp only [Json.jsonLen]; omega
  have hx0 : Digit x0 := hds x0 (by simp)
  have hx0' : x0 > 47 ∧ x0 < 58 := by obtain ⟨a, b⟩ := hx0; omega
  simp only [hge, if_true, g0, he, g1, hs, g2, hx0', and_self]
  have hd2 : j.json.drop (i + 2) = (x0 :: ds2) ++ post := by
    have := @drop_add_of_drop j.json i [e, s] _ (by simpa using hd)
    simpa using this
  rw [exponentDigitsLoop_digits (x0 :: ds2) hds _ (i + 2) post hd2
    (by simp only [Json.jsonLen, List.length_cons]; omega)]
  have hd3 := drop_add_of_drop hd2
  rw [exponentDigitsLoop_stop hd3 hpost]

/-- The exponent part of `parseNumber` at `e` or `E` that is not followed by a sign and a
digit (and not by a sign alone at the end of the input): the exponent is not consumed. -/
theorem numberExponent_not_consumed {j : Json} {i e : Nat} {t : List Nat}
    (hd : j.json.drop i = e :: t)
    (hno : t = [] ∨ ∃ x t2, t = x :: t2 ∧
      ((x ≠ 43 ∧ x ≠ 45) ∨ ∃ y t3, t2 = y :: t3 ∧ isDigit y = false)) :
    numberExponent j i = .ok i := by
  unfold numberExponent
  have hlen := length_of_drop hd
  have g0 := get_of_drop hd 0
  simp only [Nat.add_zero, List.getElem?_cons_zero] at g0
  rcases hno with rfl | ⟨x, t2, rfl, hx⟩
  · rw [if_neg (by simp only [Json.jsonLen, hlen, List.length_nil]; omega)]
  · have g1 := get_of_drop hd 1
    simp only [List.getElem?_cons_succ, List.getElem?_cons_zero] at g1
    simp only [List.length_cons] at hlen
    have hge : j.jsonLen ≥ i + 2 := by simp only [Json.jsonLen]; omega
    simp only [hge, if_true, g0, g1]
    by_cases he : e = 101 ∨ e = 69
    · simp only [he, if_true]
      rcases hx with ⟨h1, h2⟩ | ⟨y, t3, rfl, hy⟩
      · rw [if_neg (by omega)]
      · have g2 := get_of_drop hd 2
        simp only [List.getElem?_cons_succ, List.getElem?_cons_zero] at g2
        simp only [g2]
        have hy2 : ¬ (y > 47 ∧ y < 58) := by
          simpa [isDigit] using hy
        by_cases hs : x = 43 ∨ x = 45
        · simp only [hs, if_true, hy2, if_false]
        · simp only [hs, if_false]
    · simp only [he, if_false]

/-- The exponent part of `parseNumber` at `e` or `E` and a sign that are the last two bytes of
the input: the read of the byte after the sign is outside the input. -/
theorem numberExponent_panics {j : Json} {i e s : Nat} (hd : j.json.drop i = [e, s])
    (he : e = 101 ∨ e = 69) (hs : s = 43 ∨ s = 45) : numberExponent j i = .panic := by
  unfold numberExponent
  have hlen := length_of_drop hd
  have g0 := get_of_drop hd 0
  have g1 := get_of_drop hd 1
  have g2 := get_of_drop hd 2
  simp only [Nat.add_zero, List.getElem?_cons_zero, List.getElem?_cons_succ] at g0 g1 g2
  simp only [List.length_cons, List.length_nil] at hlen
  have hge : j.jsonLen ≥ i + 2 := by simp only [Json.jsonLen]; omega
  simp only [hge, if_true, g0, he, g1, hs, g2]
  rfl

/-- `parseNumber` on a number body (a first byte that is a digit, or `-` before a digit, then
digits with at most one `.`): the first loop stops after the body, and the exponent part
decides the end of the number. -/
theorem parseNumber_body {j : Json} {b0 : Nat} {D1 F rest : List Nat}
    (hd : j.json.drop j.cursor = b0 :: (D1 ++ (F ++ rest)))
    (hb0 : Digit b0 ∨ (b0 = 45 ∧ D1 ≠ [])) (hD1 : ∀ x ∈ D1, Digit x)
    (hF : F = [] ∨ ∃ D2, F = 46 :: D2 ∧ ∀ x ∈ D2, Digit x)
    (hstop : ∀ c, rest.head? = some c → isDigit c = false ∧ c ≠ 46) :
    parseNumber j =
      (numberExponent j (j.cursor + 1 + D1.length + F.length)).bind fun i =>
        .ok (.number (slice j.json j.cursor i), { j with cursor := i }) := by
  obtain ⟨_, g0, hd1⟩ := view_cons hd
  have hfirst : minusWithoutDigit j = .ok false := by
    unfold minusWithoutDigit
    rw [g0]
    rcases hb0 with hdig | ⟨rfl, hne⟩
    · simp [hdig.facts.2.1]
    · obtain ⟨x0, D, rfl⟩ : ∃ x0 D, D1 = x0 :: D := by
        cases D1 with
        | nil => exact absurd rfl hne
        | cons a b => exact ⟨a, b, rfl⟩
      simp only [if_true]
      rw [(view_cons (by simpa using hd1)).2.1]
      obtain ⟨a, b⟩ := hD1 x0 (by simp)
      simp only [Res.ok.injEq, decide_eq_false_iff_not]
      omega
  unfold parseNumber
  rw [hfirst]
  simp only [Res.bind_ok, Bool.false_eq_true, if_false]
  rw [numberDigitsLoop_body hd1 hD1 hF hstop]
  simp only [Res.bind_ok]

/-- The byte `e` or `E` ends the first loop of `parseNumber`. -/
theorem exponent_letter_stops {e : Nat} (he : e = 101 ∨ e = 69) (t : List Nat) :
    ∀ c, (e :: t).head? = some c → isDigit c = false ∧ c ≠ 46 := by
  intro c hc
  simp only [List.head?_cons, Option.some.injEq] at hc
  subst hc
  rcases he with rfl | rfl <;> decide

/-- A number body followed by `e` or `E`, a sign and digits: the number lexer consumes the
exponent through its last consecutive digit. -/
theorem parseNumber_exponent_consumed {j : Json} {b0 e s : Nat} {D1 F ds post : List Nat}
    (hd : j.json.drop j.cursor = b0 :: (D1 ++ (F ++ e :: s :: (ds ++ post))))
    (hb0 : Digit b0 ∨ (b0 = 45 ∧ D1 ≠ [])) (hD1 : ∀ x ∈ D1, Digit x)
    (hF : F = [] ∨ ∃ D2, F = 46 :: D2 ∧ ∀ x ∈ D2, Digit x)
    (he : e = 101 ∨ e = 69) (hs : s = 43 ∨ s = 45) (hne : ds ≠ []) (hds : ∀ x ∈ ds, Digit x)
    (hpost : ∀ c, post.head? = some c → isDigit c = false) :
    parseNumber j = .ok (.number (b0 :: (D1 ++ (F ++ e :: s :: ds))),
      { j with cursor := j.cursor + (b0 :: (D1 ++ (F ++ e :: s :: ds))).length }) := by
  rw [parseNumber_body hd hb0 hD1 hF (exponent_letter_stops he _)]
  have hd1 : j.json.drop (j.cursor + 1 + D1.length + F.length) = e :: s :: (ds ++ post) := by
    have := @drop_add_of_drop j.json j.cursor (b0 :: (D1 ++ F)) _ (by simpa using hd)
    simpa [Nat.add_assoc, Nat.add_comm 1] using this
  rw [numberExponent_signed hd1 he hs hne hds hpost]
  simp only [Res.bind_ok]
  have hk : j.cursor + 1 + D1.length + F.length + 2 + ds.length =
      j.cursor + (b0 :: (D1 ++ (F ++ e :: s :: ds))).length := by
    simp only [List.length_cons, List.length_append]; omega
  rw [hk]
  have hd3 : j.json.drop j.cursor = (b0 :: (D1 ++ (F ++ e :: s :: ds))) ++ post := by
    rw [hd]; simp
  rw [take_of_drop hd3]

/-- A top-level number body followed by `e` or `E` that does not start a signed exponent
(and is not followed by a sign alone at the end of the input): the exponent is not consumed
and `Decode` returns a syntax error at the offset of the `e` or `E`. -/
theorem Decode_exponent_not_consumed {b0 e : Nat} {D1 F t : List Nat}
    (hb0 : Digit b0 ∨ (b0 = 45 ∧ D1 ≠ [])) (hD1 : ∀ x ∈ D1, Digit x)
    (hF : F = [] ∨ ∃ D2, F = 46 :: D2 ∧ ∀ x ∈ D2, Digit x) (he : e = 101 ∨ e = 69)
    (hno : t = [] ∨ ∃ x t2, t = x :: t2 ∧
      ((x ≠ 43 ∧ x ≠ 45) ∨ ∃ y t3, t2 = y :: t3 ∧ isDigit y = false)) :
    Decode (Bytes (b0 :: (D1 ++ F) ++ e :: t)) = .syntaxError (b0 :: (D1 ++ F)).length := by
  have hd : (Bytes (b0 :: (D1 ++ F) ++ e :: t)).json.drop (Bytes (b0 :: (D1 ++ F) ++ e :: t)).cursor
      = b0 :: (D1 ++ (F ++ e :: t)) := by
    simp [Bytes]
  have hget := (view_cons hd).2.1
  have hw : isWhitespace b0 = false := by
    rcases hb0 with h | ⟨rfl, _⟩
    · exact h.facts.1
    · decide
  have hc : b0 = 45 ∨ isDigit b0 = true := by
    rcases hb0 with h | ⟨rfl, _⟩
    · exact Or.inr h.isDigit
    · exact Or.inl rfl
  have hd1 : (Bytes (b0 :: (D1 ++ F) ++ e :: t)).json.drop
      ((Bytes (b0 :: (D1 ++ F) ++ e :: t)).cursor + 1 + D1.length + F.length) = e :: t := by
    have := @drop_add_of_drop _ _ (b0 :: (D1 ++ F)) _ (by simpa using hd)
    simpa [Nat.add_assoc, Nat.add_comm 1] using this
  have hnum := parseNumber_body hd hb0 hD1 hF (exponent_letter_stops he _)
  rw [numberExponent_not_consumed hd1 hno] at hnum
  simp only [Res.bind_ok] at hnum
  have hge := (view_cons hd1).2.1
  have hew : isWhitespace e = false := by rcases he with rfl | rfl <;> decide
  unfold Decode
  rw [show decodeFuel (Bytes (b0 :: (D1 ++ F) ++ e :: t)) =
    3 * (Bytes (b0 :: (D1 ++ F) ++ e :: t)).jsonLen + 1 from rfl,
    parseValue_dispatch _ hget hw, if_pos hc, hnum]
  simp only [Res.bind_ok]
  rw [@skipWhitespaces_of_not_ws _ e hge hew]
  simp only [Bytes, Json.jsonLen, List.length_cons, List.length_append, ge_iff_le, Nat.zero_add]
  rw [if_neg (by omega)]
  congr 1
  omega

/-- A top-level number body followed by `e` or `E` and a sign that are the last two bytes of
the input: `Decode` panics. -/
theorem Decode_exponent_panics {b0 e s : Nat} {D1 F : List Nat}
    (hb0 : Digit b0 ∨ (b0 = 45 ∧ D1 ≠ [])) (hD1 : ∀ x ∈ D1, Digit x)
    (hF : F = [] ∨ ∃ D2, F = 46 :: D2 ∧ ∀ x ∈ D2, Digit x) (he : e = 101 ∨ e = 69)
    (hs : s = 43 ∨ s = 45) :
    Decode (Bytes (b0 :: (D1 ++ F) ++ [e, s])) = .panic := by
  have hd : (Bytes (b0 :: (D1 ++ F) ++ [e, s])).json.drop (Bytes (b0 :: (D1 ++ F) ++ [e, s])).cursor
      = b0 :: (D1 ++ (F ++ e :: [s])) := by
    simp [Bytes]
  have hget := (view_cons hd).2.1
  have hw : isWhitespace b0 = false := by
    rcases hb0 with h | ⟨rfl, _⟩
    · exact h.facts.1
    · decide
  have hc : b0 = 45 ∨ isDigit b0 = true := by
    rcases hb0 with h | ⟨rfl, _⟩
    · exact Or.inr h.isDigit
    · exact Or.inl rfl
  have hd1 : (Bytes (b0 :: (D1 ++ F) ++ [e, s])).json.drop
      ((Bytes (b0 :: (D1 ++ F) ++ [e, s])).cursor + 1 + D1.length + F.length) = [e, s] := by
    have := @drop_add_of_drop _ _ (b0 :: (D1 ++ F)) _ (by simpa using hd)
    simpa [Nat.add_assoc, Nat.add_comm 1] using this
  have hnum := parseNumber_body hd hb0 hD1 hF (exponent_letter_stops he _)
  rw [numberExponent_panics hd1 he hs] at hnum
  unfold Decode
  rw [show decodeFuel (Bytes (b0 :: (D1 ++ F) ++ [e, s])) =
    3 * (Bytes (b0 :: (D1 ++ F) ++ [e, s])).jsonLen + 1 from rfl,
    parseValue_dispatch _ hget hw, if_pos hc, hnum]
  rfl

/-- C11 (defect of the code): a number body followed by `e` or `E` and a sign that are the
last bytes of the input (`1e+`, `-2.5E-`) does not give a syntax error at the `e`: the number
lexer reads the byte after the sign, outside the input, and `Decode` panics.  In the other
cases the code does what the claim says: `1e5`, `1E` and `1e-x` give a syntax error at
offset 1, and in `1e+55x` the exponent is consumed through its last digit. -/
theorem C11_exponent_sign_at_end_panics :
    Decode (Bytes (ascii "1e+")) = .panic ∧ Decode (Bytes (ascii "-2.5E-")) = .panic ∧
    Decode (Bytes (ascii "1e5")) = .syntaxError 1 ∧
    Decode (Bytes (ascii "1E")) = .syntaxError 1 ∧
    Decode (Bytes (ascii "1e-x")) = .syntaxError 1 ∧
    parseNumber (Bytes (ascii "1e+55x")) =
      .ok (.number (ascii "1e+55"), { Bytes (ascii "1e+55x") with cursor := 5 }) := by
  refine ⟨by decide!, by decide!, by decide!, by decide!, by decide!, rfl⟩

theorem Res.bind_eq_syntaxError {α β : Type} {r : Res α} {f : α → Res β} {n : Nat} :
    r.bind f = .syntaxError n ↔ r = .syntaxError n ∨ ∃ a, r = .ok a ∧ f a = .syntaxError n := by
  cases r <;> simp [Res.bind]

theorem parseTrue_error {j : Json} {n : Nat} (h : parseTrue j = .syntaxError n) :
    n = j.cursor := by
  unfold parseTrue at h
  split at h
  · simp at h; exact h.symm
  · split at h
    · split at h
      · cases h
      · simp at h; exact h.symm
    · cases h

theorem parseFalse_error {j : Json} {n : Nat} (h : parseFalse j = .syntaxError n) :
    n = j.cursor := by
  unfold parseFalse at h
  split at h
  · simp at h; exact h.symm
  · split at h
    · split at h
      · cases h
      · simp at h; exact h.symm
    · cases h

theorem parseNull_error {j : Json} {n : Nat} (h : parseNull j = .syntaxError n) :
    n = j.cursor := by
  unfold parseNull at h
  split at h
  · simp at h; exact h.symm
  · split at h
    · split at h
      · cases h
      · simp at h; exact h.symm
    · cases h

theorem numberDigitsLoop_error (n : Nat) (j : Json) (i : Nat) (a : Bool) {k : Nat}
    (h : numberDigitsLoop n j i a = .syntaxError k) : i ≤ k ∧ k < j.jsonLen := by
  induction n generalizing i a with
  | zero => simp [numberDigitsLoop] at h
  | succ n ih =>
    rw [numberDigitsLoop] at h
    split at h
    · rename_i hlt
      split at h
      · cases h
      · split at h
        · have := ih _ _ h; omega
        · split at h
          · split at h
            · simp at h; omega
            · have := ih _ _ h; omega
          · cases h
    · cases h

theorem exponentDigitsLoop_no_error (n : Nat) (j : Json) (i : Nat) {k : Nat} :
    exponentDigitsLoop n j i ≠ .syntaxError k := by
  induction n generalizing i with
  | zero => simp [exponentDigitsLoop]
  | succ n ih =>
    rw [exponentDigitsLoop]
    split
    · split
      · simp
      · split
        · exact ih _
        · simp
    · simp

theorem numberExponent_no_error (j : Json) (i : Nat) {k : Nat} :
    numberExponent j i ≠ .syntaxError k := by
  unfold numberExponent
  repeat' split
  all_goals first
    | exact exponentDigitsLoop_no_error _ _ _
    | simp

/-- A syntax error of `parseNumber` is at an offset of the input from the cursor on. -/
theorem parseNumber_error {j : Json} {n : Nat} (h : parseNumber j = .syntaxError n) :
    j.cursor ≤ n ∧ n < j.jsonLen := by
  unfold parseNumber at h
  rcases Res.bind_eq_syntaxError.mp h with h1 | ⟨bad, h1, h⟩
  · unfold minusWithoutDigit at h1
    repeat' split at h1
    all_goals cases h1
  · have hlt : j.cursor < j.jsonLen := by
      unfold minusWithoutDigit at h1
      split at h1
      · cases h1
      · rename_i c0 hc0
        exact (List.getElem?_eq_some_iff.mp hc0).1
    split at h
    · simp at h; omega
    · rcases Res.bind_eq_syntaxError.mp h with h2 | ⟨i, h2, h⟩
      · have := numberDigitsLoop_error _ _ _ _ h2
        omega
      · rcases Res.bind_eq_syntaxError.mp h with h3 | ⟨k, h3, h⟩
        · exact absurd h3 (numberExponent_no_error _ _)
        · cases h

theorem hexToRune_error {j : Json} {n : Nat} (h : hexToRune j = .syntaxError n) :
    n = j.cursor := by
  unfold hexToRune at h
  split at h
  · simp at h; exact h.symm
  · split at h
    · cases h
    · simp at h; exact h.symm

/-- A syntax error of `parseUnicode` is at an offset after the cursor, and inside the input or
at its end when the cursor is inside the input. -/
theorem parseUnicode_error {j : Json} {n : Nat} (h : parseUnicode j = .syntaxError n) :
    j.cursor < n ∧ (j.cursor < j.jsonLen → n ≤ j.jsonLen) := by
  unfold parseUnicode at h
  rcases Res.bind_eq_syntaxError.mp h with h1 | ⟨p, h1, h⟩
  · have := hexToRune_error h1
    simp only [] at this
    exact ⟨by omega, fun _ => by omega⟩
  · obtain ⟨e1, b1⟩ := hexToRune_ok h1
    simp only [Json.jsonLen] at b1
    split at h
    · split at h
      · cases h
      · split at h
        · cases h
        · split at h
          · cases h
          · rename_i b hb
            have hlt := (List.getElem?_eq_some_iff.mp hb).1
            split at h
            · cases h
            · rcases Res.bind_eq_syntaxError.mp h with h2 | ⟨q, h2, h⟩
              · have := hexToRune_error h2
                rw [e1] at this hlt
                simp only [Json.jsonLen] at this hlt ⊢
                exact ⟨by omega, fun _ => by omega⟩
              · cases h
    · cases h

theorem parseEscape_error {e : Nat} {j : Json} {n : Nat}
    (h : parseEscape e j = .syntaxError n) :
    j.cursor < n ∧ (j.cursor < j.jsonLen → n ≤ j.jsonLen) := by
  unfold parseEscape at h
  repeat' split at h
  all_goals first
    | cases h
    | (rcases Res.bind_eq_syntaxError.mp h with h1 | ⟨p, h1, h⟩
       · exact parseUnicode_error h1
       · cases h)

/-- A syntax error of the loop of `parseString` is at an offset from the cursor on, and
inside the input or at its end. -/
theorem parseStringLoop_error (n : Nat) :
    ∀ (j : Json) (k : Nat), parseStringLoop n j = .syntaxError k →
      j.cursor ≤ k ∧ (j.cursor ≤ j.jsonLen → k ≤ j.jsonLen) := by
  induction n with
  | zero =>
    intro j k h
    simp [parseStringLoop] at h
    subst h
    exact ⟨Nat.le_refl _, fun h => h⟩
  | succ n ih =>
    intro j k h
    rw [parseStringLoop_succ] at h
    split at h
    · rename_i hlt
      split at h
      · cases h
      · split at h
        · cases h
        · split at h
          · split at h
            · cases h
            · rename_i e he
              have hlt2 : j.cursor + 1 < j.jsonLen := (List.getElem?_eq_some_iff.mp he).1
              rcases Res.bind_eq_syntaxError.mp h with h1 | ⟨j2, h1, h⟩
              · have := parseEscape_error h1
                simp only [Json.jsonLen] at this hlt2 ⊢
                exact ⟨by omega, fun _ => this.2 hlt2⟩
              · obtain ⟨c, b, e1, b1, b2⟩ := parseEscape_ok h1
                subst e1
                have := ih _ _ h
                simp only [Json.jsonLen] at this b1 b2 hlt2 ⊢
                exact ⟨by omega, fun _ => this.2 (by omega)⟩
          · have := ih _ _ h
            simp only [Json.jsonLen] at this hlt ⊢
            exact ⟨by omega, fun _ => this.2 (by omega)⟩
    · simp at h
      subst h
      exact ⟨Nat.le_refl _, fun h => h⟩

theorem parseString_error {j : Json} {k : Nat} (h : parseString j = .syntaxError k) :
    j.cursor < k ∧ (j.cursor < j.jsonLen → k ≤ j.jsonLen) := by
  unfold parseString at h
  rcases Res.bind_eq_syntaxError.mp h with h1 | ⟨p, h1, h⟩
  · have := parseStringLoop_error _ _ _ h1
    simp only [Json.jsonLen] at this ⊢
    exact ⟨by omega, fun hlt => this.2 (by omega)⟩
  · cases h

theorem pushListItem_no_error {j : Json} {l : List Value} {cl : Value} {key : Nat} {v : Value}
    {n : Nat} : pushListItem j l cl key v ≠ .syntaxError n := by
  unfold pushListItem
  repeat' split
  all_goals simp

theorem pushObjectItem_no_error {j : Json} {m : Value} {k : List Nat} {v : Value} {n : Nat} :
    pushObjectItem j m k v ≠ .syntaxError n := by
  unfold pushObjectItem
  repeat' split
  all_goals simp

/-- The offset of a syntax error of a parsing operation is not smaller than the cursor on
entry, and it is inside the input or at its end when the cursor on entry is. -/
theorem parse_error_bounds (f : Nat) :
    (∀ j n, parseValue f j = .syntaxError n →
      j.cursor ≤ n ∧ (j.cursor ≤ j.jsonLen → n ≤ j.jsonLen)) ∧
    (∀ j n, parseList f j = .syntaxError n →
      j.cursor ≤ n ∧ (j.cursor < j.jsonLen → n ≤ j.jsonLen)) ∧
    (∀ j key ev l cl n, parseListLoop f j key ev l cl = .syntaxError n →
      j.cursor ≤ n ∧ (j.cursor ≤ j.jsonLen → n ≤ j.jsonLen)) ∧
    (∀ j n, parseObject f j = .syntaxError n →
      j.cursor ≤ n ∧ (j.cursor < j.jsonLen → n ≤ j.jsonLen)) ∧
    (∀ j c ei m n, parseObjectLoop f j c ei m = .syntaxError n →
      j.cursor ≤ n ∧ (j.cursor ≤ j.jsonLen → n ≤ j.jsonLen)) := by
  induction f with
  | zero =>
    refine ⟨?_, ?_, ?_, ?_, ?_⟩ <;> intros <;> rename_i h <;> cases h
  | succ f ih =>
    obtain ⟨ihV, ihL, ihLL, ihO, ihOL⟩ := ih
    refine ⟨?_, ?_, ?_, ?_, ?_⟩
    · intro j n h
      rw [parseValue_succ] at h
      have hs : (skipWhitespaces j).cursor = j.cursor + wsLen (j.json.drop j.cursor) := by
        rw [skipWhitespaces_eq]
      have hsj : (skipWhitespaces j).jsonLen = j.jsonLen := by
        simp only [Json.jsonLen, skipWhitespaces_json]
      have hsle : j.cursor ≤ j.jsonLen → (skipWhitespaces j).cursor ≤ j.jsonLen :=
        skipWhitespaces_cursor_le j
      split at h
      · rename_i hlt
        split at h
        · cases h
        · rcases Res.bind_eq_syntaxError.mp h with h1 | ⟨q, h1, h⟩
          · have key : (skipWhitespaces j).cursor ≤ n ∧ n ≤ (skipWhitespaces j).jsonLen := by
              repeat' split at h1
              · have := parseNumber_error h1; omega
              · rcases Res.bind_eq_syntaxError.mp h1 with h2 | ⟨s, h2, h1⟩
                · have := parseString_error h2
                  exact ⟨by omega, this.2 hlt⟩
                · cases h1
              · have := parseTrue_error h1; omega
              · have := parseFalse_error h1; omega
              · have := parseNull_error h1; omega
              · have := ihL _ _ h1; exact ⟨this.1, this.2 hlt⟩
              · have := ihO _ _ h1; exact ⟨this.1, this.2 hlt⟩
              · simp at h1; omega
            exact ⟨by omega, fun _ => by omega⟩
          · cases h
      · simp at h
        subst h
        exact ⟨by omega, hsle⟩
    · intro j n h
      rw [parseList_succ] at h
      have := ihLL _ _ _ _ _ _ h
      have hs := skipWhitespaces_eq { j with cursor := j.cursor + 1 }
      rw [hs] at this
      simp only [Json.jsonLen] at this ⊢
      refine ⟨by omega, fun hlt => this.2 ?_⟩
      have := wsLen_le (j.json.drop (j.cursor + 1))
      simp only [List.length_drop] at this
      omega
    · intro j key ev l cl n h
      rw [parseListLoop_succ] at h
      split at h
      · rename_i hlt
        split at h
        · cases h
        · repeat' split at h
          · simp at h; subst h; exact ⟨Nat.le_refl _, fun h => h⟩
          · have := ihLL _ _ _ _ _ _ h
            simp only [Json.jsonLen] at this hlt ⊢
            exact ⟨by omega, fun _ => this.2 (by omega)⟩
          · simp at h; subst h; exact ⟨Nat.le_refl _, fun h => h⟩
          · cases h
          · cases h
          · rcases Res.bind_eq_syntaxError.mp h with h1 | ⟨p, h1, h⟩
            · exact ihV _ _ h1
            · rcases Res.bind_eq_syntaxError.mp h with h2 | ⟨q, h2, h⟩
              · exact absurd h2 pushListItem_no_error
              · obtain ⟨c, b, e, b1, b2, _⟩ := (parse_advanced f).1 _ _ h1
                have := ihLL _ _ _ _ _ _ h
                rw [e] at this
                simp only [Json.jsonLen] at this b2 ⊢
                exact ⟨by omega, fun _ => this.2 b2⟩
      · simp at h; subst h; exact ⟨Nat.le_refl _, fun h => h⟩
    · intro j n h
      rw [parseObject_succ] at h
      have := ihOL _ _ _ _ _ h
      have hs := skipWhitespaces_eq { j with cursor := j.cursor + 1 }
      rw [hs] at this
      simp only [Json.jsonLen] at this ⊢
      refine ⟨by omega, fun hlt => this.2 ?_⟩
      have := wsLen_le (j.json.drop (j.cursor + 1))
      simp only [List.length_drop] at this
      omega
    · intro j c ei m n h
      rw [parseObjectLoop_succ] at h
      split at h
      · rename_i hlt
        split at h
        · cases h
        · repeat' split at h
          · rcases Res.bind_eq_syntaxError.mp h with h1 | ⟨k, h1, h⟩
            · have := parseString_error h1
              exact ⟨by omega, fun _ => this.2 hlt⟩
            · obtain ⟨c1, e1, b1, b2⟩ := parseString_ok h1
              have hsc : (skipWhitespaces k.2).cursor = c1 + wsLen (j.json.drop c1) := by
                rw [skipWhitespaces_eq, e1]
              have hsj : (skipWhitespaces k.2).json = j.json := by
                rw [skipWhitespaces_json, e1]
              have hw := wsLen_le (j.json.drop c1)
              simp only [List.length_drop] at hw
              simp only [Json.jsonLen] at b2 hlt ⊢
              repeat' split at h
              · simp at h; subst h
                exact ⟨by omega, fun _ => by omega⟩
              · cases h
              · simp at h; subst h
                exact ⟨by omega, fun _ => by omega⟩
              · rename_i hcur colon hcolon hne
                have hclt := (List.getElem?_eq_some_iff.mp hcolon).1
                rw [hsj] at hclt
                rcases Res.bind_eq_syntaxError.mp h with h2 | ⟨p, h2, h⟩
                · have := ihV _ _ h2
                  simp only [Json.jsonLen, hsj] at this
                  exact ⟨by omega, fun _ => this.2 (by omega)⟩
                · rcases Res.bind_eq_syntaxError.mp h with h3 | ⟨m2, h3, h⟩
                  · exact absurd h3 pushObjectItem_no_error
                  · obtain ⟨c2, b, e, b3, b4, _⟩ := (parse_advanced f).1 _ _ h2
                    have := ihOL _ _ _ _ _ h
                    rw [e] at this
                    simp only [Json.jsonLen, hsj] at this b3 b4
                    exact ⟨by omega, fun _ => this.2 b4⟩
          · simp at h; subst h; exact ⟨Nat.le_refl _, fun h => h⟩
          · have := ihOL _ _ _ _ _ h
            have hs := skipWhitespaces_eq { j with cursor := j.cursor + 1 }
            rw [hs] at this
            have hw := wsLen_le (j.json.drop (j.cursor + 1))
            simp only [List.length_drop] at hw
            simp only [Json.jsonLen] at this hlt ⊢
            exact ⟨by omega, fun _ => this.2 (by omega)⟩
          · simp at h; subst h; exact ⟨Nat.le_refl _, fun h => h⟩
          · cases h
          · simp at h; subst h; exact ⟨Nat.le_refl _, fun h => h⟩
      · simp at h; subst h; exact ⟨Nat.le_refl _, fun h => h⟩

/-- `Decode` of a string literal with one two-byte escape, between bytes that are neither `"`
nor a backslash, when the inner `switch` of `parseString` appends the bytes `app` for the
escape. -/
theorem Decode_one_escape {e : Nat} {app : List Nat}
    (hesc : ∀ j : Json, parseEscape e j = .ok { j with buffer := j.buffer ++ app })
    {a b : List Nat} (ha : ∀ x ∈ a, x ≠ 34 ∧ x ≠ 92) (hb : ∀ x ∈ b, x ≠ 34 ∧ x ≠ 92) :
    Decode (Bytes ([34] ++ a ++ [92, e] ++ b ++ [34])) = .ok (.string (a ++ app ++ b)) := by
  have hr : ReadsValue ([34] ++ a ++ [92, e] ++ b ++ [34]) (.string (a ++ app ++ b)) := by
    intro j c post hd hp ht
    refine ⟨1, ?_⟩
    simp only [List.cons_append, List.append_assoc, List.nil_append] at hd
    obtain ⟨_, hq, hd1⟩ := view_cons hd
    have hget : ({ j with cursor := c } : Json).json[({ j with cursor := c } : Json).cursor]? =
        some 34 := hq
    have s1 := StringSteps.plain_bytes a ha { j with cursor := c + 1 } _ hd1
    have hd2 := drop_add_of_drop hd1
    obtain ⟨_, hbs, hd3⟩ := view_cons hd2
    obtain ⟨_, hbe, hd4⟩ := view_cons hd3
    have s2 : StringStep
        { j with cursor := c + 1 + a.length, buffer := j.buffer ++ a } _ :=
      StringStep.escape _ e _ hbs hbe (hesc _)
    have s3 := StringSteps.plain_bytes b hb
      { j with cursor := c + 1 + a.length + 1 + 1, buffer := j.buffer ++ a ++ app } _ hd4
    obtain ⟨_, hclose, _⟩ := view_cons (drop_add_of_drop hd4)
    have hs := @parseString_of_steps { j with cursor := c } _
      ((StringSteps.step s1 s2).append s3) hclose
    rw [parseValue_dispatch 0 hget (by decide), hs]
    simp [isDigit, hp.1]
    congr 2
    omega
  have h := @Decode_readsValue _ _ hr ⟨34, _, rfl, by decide⟩ [] [] Ws.of_nil Ws.of_nil
  simpa using h

/-- The inner `switch` of `parseString` on a byte that it does not list: nothing happens. -/
theorem parseEscape_unlisted {c : Nat}
    (hc : c ≠ 34 ∧ c ≠ 92 ∧ c ≠ 47 ∧ c ≠ 39 ∧ c ≠ 114 ∧ c ≠ 110 ∧ c ≠ 116 ∧ c ≠ 98 ∧
      c ≠ 102 ∧ c ≠ 117) (j : Json) : parseEscape c j = .ok j := by
  obtain ⟨h1, h2, h3, h4, h5, h6, h7, h8, h9, h10⟩ := hc
  unfold parseEscape
  rw [if_neg (by omega), if_neg h5, if_neg h6, if_neg h7, if_neg h8, if_neg h9, if_neg h10]

/-- C23: inside a string literal a backslash followed by a byte `c` that is none of `"`, `\`,
`/`, `'`, `r`, `n`, `t`, `b`, `f`, `u` is not rejected: the iteration of the string loop at
the backslash appends nothing to the scratch buffer and the loop goes on two bytes further;
so `Decode` of `"` ++ `a` ++ `\` ++ `c` ++ `b` ++ `"`, for `a` and `b` without `"` and
backslash, succeeds and returns `a ++ b`. -/
theorem C23_unlisted_escape (c : Nat)
    (hc : c ≠ 34 ∧ c ≠ 92 ∧ c ≠ 47 ∧ c ≠ 39 ∧ c ≠ 114 ∧ c ≠ 110 ∧ c ≠ 116 ∧ c ≠ 98 ∧
      c ≠ 102 ∧ c ≠ 117) :
    (∀ (j : Json) (n : Nat), j.json[j.cursor]? = some 92 → j.json[j.cursor + 1]? = some c →
      parseStringLoop (n + 1) j = parseStringLoop n { j with cursor := j.cursor + 2 }) ∧
    (∀ a b : List Nat, (∀ x ∈ a, x ≠ 34 ∧ x ≠ 92) → (∀ x ∈ b, x ≠ 34 ∧ x ≠ 92) →
      Decode (Bytes ([34] ++ a ++ [92, c] ++ b ++ [34])) = .ok (.string (a ++ b))) := by
  constructor
  · intro j n hget hget1
    rw [parseStringLoop_escape hget hget1 (parseEscape_unlisted hc _)]
  · intro a b ha hb
    have h := @Decode_one_escape c []
      (fun j => by rw [parseEscape_unlisted hc j, List.append_nil]) a b ha hb
    simpa using h

/-- C23, at the input `"a\xb"`: the iteration at the backslash goes on at offset 4 with the
buffer unchanged, and `Decode` returns `ab`. -/
theorem C23_unlisted_escape_witness :
    (120 ≠ 34 ∧ 120 ≠ 92 ∧ 120 ≠ 47 ∧ 120 ≠ 39 ∧ 120 ≠ 114 ∧ 120 ≠ 110 ∧ 120 ≠ 116 ∧
      120 ≠ 98 ∧ 120 ≠ 102 ∧ 120 ≠ 117) ∧
    parseStringLoop (3 + 1) { Bytes (ascii "\"a\\xb\"") with cursor := 2, buffer := [97] } =
      parseStringLoop 3 { Bytes (ascii "\"a\\xb\"") with cursor := 2 + 2, buffer := [97] } ∧
    Decode (Bytes ([34] ++ ascii "a" ++ [92, 120] ++ ascii "b" ++ [34])) =
      .ok (.string (ascii "a" ++ ascii "b")) ∧
    Decode (Bytes (ascii "\"a\\xb\"")) = .ok (.string (ascii "ab")) :=
  ⟨by decide,
    (C23_unlisted_escape 120 (by decide)).1
      { Bytes (ascii "\"a\\xb\"") with cursor := 2, buffer := [97] } 3 rfl rfl,
    (C23_unlisted_escape 120 (by decide)).2 (ascii "a") (ascii "b") (by decide) (by decide),
    by decide!⟩

/-- The offset of a syntax error of `Decode` is not before the cursor the decoder starts
from and not after the end of the input. -/
theorem Decode_error_offset {j : Json} (hc : j.cursor ≤ j.jsonLen) {n : Nat}
    (h : Decode j = .syntaxError n) : j.cursor ≤ n ∧ n ≤ j.jsonLen := by
  unfold Decode at h
  rcases Res.bind_eq_syntaxError.mp h with h1 | ⟨p, h1, h⟩
  · have := (parse_error_bounds _).1 _ _ h1
    exact ⟨this.1, this.2 hc⟩
  · obtain ⟨c, b, e, b1, b2, _⟩ := (parse_advanced _).1 _ _ h1
    split at h
    · cases h
    · simp at h
      subst h
      rw [e]
      exact ⟨by simp only []; omega, b2⟩

/-- C22: whenever `Decode` returns a syntax error, started from a cursor inside the input or
at its end (cursor 0 for a fresh decoder), the reported offset `n` is at most the input
length: it is the offset of a byte of the input, or the input length, the offset at which the
input is exhausted; and no value is returned with the error. -/
theorem C22_syntax_error_offset (j : Json) (hc : j.cursor ≤ j.json.length) (n : Nat)
    (h : Decode j = .syntaxError n) :
    j.cursor ≤ n ∧ n ≤ j.json.length ∧ (n = j.json.length ∨ ∃ b, j.json[n]? = some b) ∧
      ∀ v, Decode j ≠ .ok v := by
  obtain ⟨h1, h2⟩ := Decode_error_offset hc h
  simp only [Json.jsonLen] at h2
  refine ⟨h1, h2, ?_, ?_⟩
  · rcases Nat.eq_or_lt_of_le h2 with heq | hlt
    · exact Or.inl heq
    · exact Or.inr ⟨j.json[n], List.getElem?_eq_getElem hlt⟩
  · intro v hv
    rw [h] at hv
    cases hv

/-- C22, at the inputs `[1,` (the input is exhausted: error at 3, the input length) and
`[1,x]` (error at 3, the offset of `x`). -/
theorem C22_syntax_error_offset_witness :
    (Decode (Bytes (ascii "[1,")) = .syntaxError 3 ∧
      0 ≤ 3 ∧ 3 ≤ (ascii "[1,").length ∧
      (3 = (ascii "[1,").length ∨ ∃ b, (ascii "[1,")[3]? = some b) ∧
      ∀ v, Decode (Bytes (ascii "[1,")) ≠ .ok v) ∧
    (Decode (Bytes (ascii "[1,x]")) = .syntaxError 3 ∧
      0 ≤ 3 ∧ 3 ≤ (ascii "[1,x]").length ∧
      (3 = (ascii "[1,x]").length ∨ ∃ b, (ascii "[1,x]")[3]? = some b) ∧
      ∀ v, Decode (Bytes (ascii "[1,x]")) ≠ .ok v) :=
  ⟨⟨by decide!, C22_syntax_error_offset (Bytes (ascii "[1,")) (by decide) 3 (by decide!)⟩,
    ⟨by decide!, C22_syntax_error_offset (Bytes (ascii "[1,x]")) (by decide) 3 (by decide!)⟩⟩

/-- An iteration of the list loop or of the object loop that goes on to a further iteration
has moved the cursor strictly forward. -/
theorem Invokes.loop_consumes {a b : Call} (h : Invokes a b) :
    (∀ f j key ev l cl f2 j2 key2 ev2 l2 cl2, a = .listLoop f j key ev l cl →
      b = .listLoop f2 j2 key2 ev2 l2 cl2 → j.cursor < j2.cursor) ∧
    (∀ f j c ei m f2 j2 c2 ei2 m2, a = .objectLoop f j c ei m →
      b = .objectLoop f2 j2 c2 ei2 m2 → j.cursor < j2.cursor) := by
  cases h with
  | value_list fuel j hc => constructor <;> (intros; rename_i ha _; cases ha)
  | value_object fuel j hc => constructor <;> (intros; rename_i ha _; cases ha)
  | list_loop fuel j => constructor <;> (intros; rename_i ha _; cases ha)
  | object_loop fuel j => constructor <;> (intros; rename_i ha _; cases ha)
  | listLoop_item fuel j key ev l cl c hc h1 h2 =>
    constructor <;> (intros; rename_i _ hb; cases hb)
  | objectLoop_value fuel j counter ei m k hq hs hcolon =>
    constructor <;> (intros; rename_i _ hb; cases hb)
  | listLoop_comma fuel j key l cl hc hk =>
    constructor
    · intro f j1 key1 ev1 l1 cl1 f2 j2 key2 ev2 l2 cl2 ha hb
      cases ha; cases hb
      exact Nat.lt_succ_self _
    · intros; rename_i ha _; cases ha
  | listLoop_next fuel j key ev l cl c p q hc h1 h2 hp hq =>
    constructor
    · intro f j1 key1 ev1 l1 cl1 f2 j2 key2 ev2 l2 cl2 ha hb
      cases ha; cases hb
      obtain ⟨c2, b2, e, b1, _, _⟩ := (parse_advanced _).1 _ _ hp
      rw [e]
      exact b1
    · intros; rename_i ha _; cases ha
  | objectLoop_next fuel j counter ei m k p m2 hq hs hcolon hp hpush =>
    constructor
    · intros; rename_i ha _; cases ha
    · intro f j1 c1 ei1 m1 f2 j2 c2 ei2 m3 ha hb
      cases ha; cases hb
      obtain ⟨c3, e1, b1, _⟩ := parseString_ok hs
      obtain ⟨c4, b4, e, b5, _, _⟩ := (parse_advanced _).1 _ _ hp
      have hsc : k.2.cursor ≤ (skipWhitespaces k.2).cursor := by
        rw [skipWhitespaces_eq]
        exact Nat.le_add_right _ _
      have hk : k.2.cursor = c3 := by rw [e1]
      rw [e]
      simp only [] at b5 ⊢
      omega
  | objectLoop_comma fuel j counter m hc hk =>
    constructor
    · intros; rename_i ha _; cases ha
    · intro f j1 c1 ei1 m1 f2 j2 c2 ei2 m3 ha hb
      cases ha; cases hb
      rw [skipWhitespaces_eq]
      simp only []
      omega

/-- C21: for every decoder state with the cursor inside the input or at its end:
`skipWhitespaces` does not move the cursor back nor past the end of the input; every
parsing operation that succeeds (`parseValue`, `parseNumber`, `parseString`, `parseList`,
`parseObject`, `parseTrue`, `parseFalse`, `parseNull`) leaves the cursor strictly greater
than on entry and at most the input length; an operation that fails with a syntax error
reports an offset that is not smaller than the cursor on entry (a failing operation returns no
decoder state); every iteration of the list loop and of the object loop that goes on to a
further iteration has consumed at least one byte; and decoding terminates with an outcome
that is a function of the input: the recursion never exhausts the depth `Decode` allows it,
and a greater depth gives the same outcome. -/
theorem C21_cursor_only_advances (j : Json) (hc : j.cursor ≤ j.json.length) :
    (j.cursor ≤ (skipWhitespaces j).cursor ∧ (skipWhitespaces j).cursor ≤ j.json.length) ∧
    ((∀ f p, parseValue f j = .ok p → j.cursor < p.2.cursor ∧ p.2.cursor ≤ j.json.length) ∧
      (∀ p, parseNumber j = .ok p → j.cursor < p.2.cursor ∧ p.2.cursor ≤ j.json.length) ∧
      (∀ p, parseString j = .ok p → j.cursor < p.2.cursor ∧ p.2.cursor ≤ j.json.length) ∧
      (∀ f p, parseList f j = .ok p → j.cursor < p.2.cursor ∧ p.2.cursor ≤ j.json.length) ∧
      (∀ f p, parseObject f j = .ok p → j.cursor < p.2.cursor ∧ p.2.cursor ≤ j.json.length) ∧
      (∀ p, parseTrue j = .ok p → j.cursor < p.2.cursor ∧ p.2.cursor ≤ j.json.length) ∧
      (∀ p, parseFalse j = .ok p → j.cursor < p.2.cursor ∧ p.2.cursor ≤ j.json.length) ∧
      (∀ p, parseNull j = .ok p → j.cursor < p.2.cursor ∧ p.2.cursor ≤ j.json.length)) ∧
    ((∀ f n, parseValue f j = .syntaxError n → j.cursor ≤ n) ∧
      (∀ n, parseNumber j = .syntaxError n → j.cursor ≤ n) ∧
      (∀ n, parseString j = .syntaxError n → j.cursor ≤ n) ∧
      (∀ f n, parseList f j = .syntaxError n → j.cursor ≤ n) ∧
      (∀ f n, parseObject f j = .syntaxError n → j.cursor ≤ n) ∧
      (∀ n, parseTrue j = .syntaxError n → j.cursor ≤ n) ∧
      (∀ n, parseFalse j = .syntaxError n → j.cursor ≤ n) ∧
      (∀ n, parseNull j = .syntaxError n → j.cursor ≤ n)) ∧
    ((∀ f key ev l cl f2 j2 key2 ev2 l2 cl2,
        Invokes (.listLoop f j key ev l cl) (.listLoop f2 j2 key2 ev2 l2 cl2) →
        j.cursor < j2.cursor) ∧
      (∀ f c ei m f2 j2 c2 ei2 m2,
        Invokes (.objectLoop f j c ei m) (.objectLoop f2 j2 c2 ei2 m2) →
        j.cursor < j2.cursor)) ∧
    (Decode j ≠ .outOfFuel ∧ parseValue (decodeFuel j) j ≠ .outOfFuel ∧
      ∀ f, decodeFuel j ≤ f → parseValue f j = parseValue (decodeFuel j) j) := by
  have adv : ∀ {j2 : Json}, Advanced j j2 →
      j.cursor < j2.cursor ∧ j2.cursor ≤ j.json.length := by
    intro j2 h
    obtain ⟨c, b, e, b1, b2, _⟩ := h
    rw [e]
    exact ⟨b1, b2⟩
  refine ⟨⟨?_, skipWhitespaces_cursor_le j hc⟩, ⟨?_, ?_, ?_, ?_, ?_, ?_, ?_, ?_⟩,
    ⟨?_, ?_, ?_, ?_, ?_, ?_, ?_, ?_⟩, ⟨?_, ?_⟩, ⟨Decode_ne_outOfFuel j, parseValue_fuel_enough j, ?_⟩⟩
  · rw [skipWhitespaces_eq]
    exact Nat.le_add_right _ _
  · exact fun f p h => adv ((parse_advanced f).1 _ _ h)
  · exact fun p h => adv (Advanced.of_number h)
  · exact fun p h => adv (Advanced.of_string h)
  · exact fun f p h => adv ((parse_advanced f).2.1 _ _ h)
  · exact fun f p h => adv ((parse_advanced f).2.2.2.1 _ _ h)
  · exact fun p h => adv (Advanced.of_true h)
  · exact fun p h => adv (Advanced.of_false h)
  · exact fun p h => adv (Advanced.of_null h)
  · exact fun f n h => ((parse_error_bounds f).1 _ _ h).1
  · exact fun n h => (parseNumber_error h).1
  · exact fun n h => Nat.le_of_lt (parseString_error h).1
  · exact fun f n h => ((parse_error_bounds f).2.1 _ _ h).1
  · exact fun f n h => ((parse_error_bounds f).2.2.2.1 _ _ h).1
  · exact fun n h => Nat.le_of_eq (parseTrue_error h).symm
  · exact fun n h => Nat.le_of_eq (parseFalse_error h).symm
  · exact fun n h => Nat.le_of_eq (parseNull_error h).symm
  · exact fun f key ev l cl f2 j2 key2 ev2 l2 cl2 h =>
      h.loop_consumes.1 _ _ _ _ _ _ _ _ _ _ _ _ rfl rfl
  · exact fun f c ei m f2 j2 c2 ei2 m2 h => h.loop_consumes.2 _ _ _ _ _ _ _ _ _ _ rfl rfl
  · exact fun f hf => parseValue_fuel_mono (parseValue_fuel_enough j) hf

/-- C21, at the input ` [1] ` from cursor 0: `skipWhitespaces` stops at offset 1, the
dispatcher succeeds and leaves the cursor at 5, the input length, and decoding terminates. -/
theorem C21_cursor_only_advances_witness :
    (0 ≤ (skipWhitespaces (Bytes (ascii " [1] "))).cursor ∧
      (skipWhitespaces (Bytes (ascii " [1] "))).cursor ≤ 5) ∧
    (parseValue 16 (Bytes (ascii " [1] ")) =
        .ok (.list [.number (ascii "1")], { Bytes (ascii " [1] ") with cursor := 5 }) ∧
      0 < 5 ∧ 5 ≤ 5) ∧
    Decode (Bytes (ascii " [1] ")) ≠ .outOfFuel :=
  ⟨(C21_cursor_only_advances (Bytes (ascii " [1] ")) (by decide)).1,
    ⟨rfl, (C21_cursor_only_advances (Bytes (ascii " [1] ")) (by decide)).2.1.1 16
      (.list [.number (ascii "1")], { Bytes (ascii " [1] ") with cursor := 5 }) rfl⟩,
    (C21_cursor_only_advances (Bytes (ascii " [1] ")) (by decide)).2.2.2.2.1⟩

end JsonDecoder
